import Mathlib

/-!
# project-kit (`pk`): pin store, access store and path healing

A shallow embedding of `pkg/cache/pins.go`, `pkg/cache/access.go` and
`pkg/paths/paths.go`, of the session functions of `pkg/session/tmux.go` and of the
commands `pk pin add`, `pk pin remove` and `pk jump`, with the properties of the
specification proved about it.

Modelling conventions.

* Go `int` is `Int`, Go `string` is `String`.
* A Go `map[int]PinRecord` is a finite list of key/value entries in which every key
  occurs once; the order of the list stands for the (unspecified) order in which
  `range` visits the map.  The nil map is `none`.
* The persisted pin store is the state of the file `~/.cache/pk/pins.json`.  On the
  store as a map, system calls other than reading that file do not fail:
  `os.UserHomeDir`, `os.MkdirAll` and `os.WriteFile` succeed, and
  `json.MarshalIndent` cannot fail on a map of pin records.  On the store as the bytes
  of the file, the write may fail.
* A function that returns `error` returns `Except`; a function that also writes the
  store returns the result together with the new state of the file.
* The file system that the resolver searches is given by what `os.Stat` and
  `os.ReadDir` return for every path, and the two are independent.  Where a property
  needs that a directory listed under a root is found under the joined path, it says
  so (`FileSystem.StatFindsListed`).
* For the resolver and the access store `os.UserHomeDir` may fail: the home directory
  is an `Option`.  Whether the access store can write its file is part of its
  environment, and `time.Now` is an argument.
* `sort.Slice` on projects is any function that keeps what its documentation promises:
  the result is a rearrangement that is sorted by `less`; it need not be stable.  The
  run of the library itself, pattern-defeating quicksort, is modelled for slices of
  fewer than 50 elements.  `FindProjectsCached`, which is not part of the sources at
  hand, is represented by the value it returns.
* A Go string is the text it holds.  Where the bytes matter they are a list of bytes:
  in `containsString`, and in the pin store and in RecordAccess on the bytes
  (`Bytes.AddPin`, `Bytes.GetPin`, `Bytes.RecordAccess`), where the file is written and
  read as JSON text, in which a byte that is no UTF-8 is not kept.
* The program `tmux` is given by the outcome of every call; a session function
  returns its result together with the calls made so far.
-/

namespace Pk

deriving instance DecidableEq for Except

/-! ## `pkg/cache/pins.go` -/

/-- PinRecord represents a pinned project in a slot. -/
structure PinRecord where
  Slot : Int
  ProjectID : String
  ProjectPath : String
  deriving DecidableEq, Repr

/-- The entries of a non-nil Go `map[int]PinRecord`: every key occurs once. -/
structure PinMap where
  entries : List (Int × PinRecord)
  nodupKeys : (entries.map Prod.fst).Nodup
  deriving DecidableEq

/-- The list of keys of a map, in iteration order. -/
def PinMap.keys (m : PinMap) : List Int := m.entries.map Prod.fst

/-- The result of `make(map[int]PinRecord)`. -/
def PinMap.empty : PinMap := ⟨[], List.nodup_nil⟩

/-- The Go expression `pins[slot]` with the comma-ok form: the record stored under the key. -/
def PinMap.lookup (m : PinMap) (slot : Int) : Option PinRecord :=
  (m.entries.find? (fun e => e.1 == slot)).map Prod.snd

/-- The Go statement `delete(pins, slot)`. -/
def PinMap.delete (m : PinMap) (slot : Int) : PinMap :=
  ⟨m.entries.filter (fun e => e.1 != slot),
    (List.Sublist.map Prod.fst (List.filter_sublist m.entries)).nodup m.nodupKeys⟩

/-- The Go statement `pins[slot] = rec`: the entry under `slot`, if any, is replaced. -/
def PinMap.set (m : PinMap) (slot : Int) (rec : PinRecord) : PinMap :=
  ⟨(slot, rec) :: m.entries.filter (fun e => e.1 != slot), by
    refine List.nodup_cons.2 ⟨?_, ?_⟩
    · intro h
      rcases List.mem_map.1 h with ⟨e, he, hk⟩
      have hne := (List.mem_filter.1 he).2
      simp [hk] at hne
    · exact (List.Sublist.map Prod.fst (List.filter_sublist m.entries)).nodup m.nodupKeys⟩

/-- The state of the file `pins.json`. -/
inductive PinsFile where
  /-- No such file: `os.ReadFile` fails with an error for which `os.IsNotExist` holds. -/
  | absent
  /-- The file is there and `os.ReadFile` fails with another error. -/
  | unreadable
  /-- The file holds text that `json.Unmarshal` rejects for `map[int]PinRecord`. -/
  | malformed
  /-- The file holds the JSON text `null`, which decodes to the nil map. -/
  | null
  /-- The file holds a JSON object, which decodes to this map. -/
  | object (m : PinMap)
  deriving DecidableEq

/-- The errors of the pin store. -/
inductive PinError where
  /-- An error handed up from reading or decoding the file. -/
  | fileError
  /-- The error "slot must be between 1 and 5". -/
  | invalidSlot
  /-- The error "no pin in slot %d". -/
  | noPinInSlot (slot : Int)
  /-- The error "project '%s' is not pinned". -/
  | notPinned (projectID : String)
  /-- The run-time panic "assignment to entry in nil map". -/
  | nilMapAssignment
  deriving DecidableEq, Repr

/-- LoadPins reads all pinned projects; `none` is the nil map. -/
def LoadPins (f : PinsFile) : Except PinError (Option PinMap) :=
  match f with
  | .absent => .ok (some PinMap.empty)
  | .unreadable => .error .fileError
  | .malformed => .error .fileError
  | .null => .ok none
  | .object m => .ok (some m)

/-- SavePins writes pinned projects to disk: the file is rewritten whole. -/
def SavePins (_f : PinsFile) (pins : Option PinMap) : Except PinError Unit × PinsFile :=
  match pins with
  | none => (.ok (), .null)
  | some m => (.ok (), .object m)

/-- AddPin pins a project to a specific slot (1-5). -/
def AddPin (f : PinsFile) (slot : Int) (projectID projectPath : String) :
    Except PinError Unit × PinsFile :=
  if slot < 1 ∨ slot > 5 then (.error .invalidSlot, f)
  else
    match LoadPins f with
    | .error err => (.error err, f)
    | .ok none => (.error .nilMapAssignment, f)
    | .ok (some pins) =>
      SavePins f (some (pins.set slot
        { Slot := slot, ProjectID := projectID, ProjectPath := projectPath }))

/-- RemovePin removes a pin by slot number. -/
def RemovePin (f : PinsFile) (slot : Int) : Except PinError Unit × PinsFile :=
  match LoadPins f with
  | .error err => (.error err, f)
  | .ok none => (.error (.noPinInSlot slot), f)
  | .ok (some pins) =>
    match pins.lookup slot with
    | none => (.error (.noPinInSlot slot), f)
    | some _ => SavePins f (some (pins.delete slot))

/-- The loop of RemovePinByProject over the entries that `range` visits, with the map
and the flag `found` as they stand after the loop.  The body deletes the key it is
visiting only, and every key occurs once, so `range` visits every entry that the map
had on entry to the loop. -/
def removeLoop (projectID : String) :
    List (Int × PinRecord) → PinMap × Bool → PinMap × Bool
  | [], acc => acc
  | (slot, pin) :: rest, (pins, found) =>
    if pin.ProjectID = projectID then removeLoop projectID rest (pins.delete slot, true)
    else removeLoop projectID rest (pins, found)

/-- RemovePinByProject removes a pin by project ID. -/
def RemovePinByProject (f : PinsFile) (projectID : String) :
    Except PinError Unit × PinsFile :=
  match LoadPins f with
  | .error err => (.error err, f)
  | .ok none => (.error (.notPinned projectID), f)
  | .ok (some pins) =>
    match removeLoop projectID pins.entries (pins, false) with
    | (_, false) => (.error (.notPinned projectID), f)
    | (pins', true) => SavePins f (some pins')

/-- GetPin retrieves a pin by slot number. -/
def GetPin (f : PinsFile) (slot : Int) : Except PinError PinRecord :=
  match LoadPins f with
  | .error err => .error err
  | .ok none => .error (.noPinInSlot slot)
  | .ok (some pins) =>
    match pins.lookup slot with
    | none => .error (.noPinInSlot slot)
    | some pin => .ok pin

/-- ListPins returns all pins sorted by slot.  `sort.Slice` with the comparison
`pinList[i].Slot < pinList[j].Slot` is a sort by slot; where two records have the
same slot field Go leaves their order open and the model keeps the order of the
iteration. -/
def ListPins (f : PinsFile) : Except PinError (List PinRecord) :=
  match LoadPins f with
  | .error err => .error err
  | .ok none => .ok []
  | .ok (some pins) =>
    .ok ((pins.entries.map Prod.snd).insertionSort (fun a b => a.Slot ≤ b.Slot))

/-- ClearPins removes all pins. -/
def ClearPins (f : PinsFile) : Except PinError Unit × PinsFile :=
  SavePins f (some PinMap.empty)


/-- The entries of a loaded map; the nil map has none. -/
def entriesOf : Option PinMap → List (Int × PinRecord)
  | none => []
  | some m => m.entries

/-- A call of one of the operations that write the pin store. -/
inductive PinOp where
  | add (slot : Int) (projectID projectPath : String)
  | remove (slot : Int)
  | removeByProject (projectID : String)
  | clear
  deriving DecidableEq, Repr

/-- The file of the store after the call, whether the call succeeded or failed. -/
def PinOp.apply (f : PinsFile) : PinOp → PinsFile
  | .add slot projectID projectPath => (AddPin f slot projectID projectPath).2
  | .remove slot => (RemovePin f slot).2
  | .removeByProject projectID => (RemovePinByProject f projectID).2
  | .clear => (ClearPins f).2

/-- The file of the store after a sequence of calls, made in order. -/
def runOps (f : PinsFile) (ops : List PinOp) : PinsFile :=
  ops.foldl PinOp.apply f

/-- The file of the store after a sequence of AddPin calls, made in order; a call is
given as slot, project id and path. -/
def addPins (f : PinsFile) (calls : List (Int × String × String)) : PinsFile :=
  calls.foldl (fun g c => (AddPin g c.1 c.2.1 c.2.2).2) f

/-- The invariant of a pin map: every key is a slot from 1 to 5 and is the slot field
of the record stored under it. -/
def SlotInvariant (m : PinMap) : Prop :=
  ∀ e ∈ m.entries, 1 ≤ e.1 ∧ e.1 ≤ 5 ∧ e.2.Slot = e.1

/-- The store loads to a map that has the slot invariant. -/
def StoreInvariant (f : PinsFile) : Prop :=
  ∃ m, LoadPins f = .ok (some m) ∧ SlotInvariant m

/-! ## `path/filepath` of the Go library, for Unix paths -/

/-- The elements of a path: the text between its separators. -/
def splitPath : List Char → List (List Char)
  | [] => [[]]
  | c :: cs =>
    if c = '/' then [] :: splitPath cs
    else
      match splitPath cs with
      | [] => [[c]]
      | x :: xs => (c :: x) :: xs

/-- One round of the loop of `filepath.Clean`: `out` holds the elements written so
far, the last one first.  An empty element and `.` are dropped; `..` removes the
element before it, is dropped at the root, and is kept at the start of a path that is
not rooted; any other element is written. -/
def cleanElem (rooted : Bool) (out : List (List Char)) (elem : List Char) :
    List (List Char) :=
  if elem = [] ∨ elem = ['.'] then out
  else if elem = ['.', '.'] then
    match out with
    | [] => if rooted then [] else [elem]
    | top :: below => if top = ['.', '.'] then elem :: out else below
  else elem :: out

/-- Go `filepath.Clean`: the shortest path name equivalent to `path` by purely
lexical processing. -/
def Clean (path : String) : String :=
  if path.data = [] then "."
  else
    let rooted : Bool := path.data.head? = some '/'
    let out := (splitPath path.data).foldl (cleanElem rooted) []
    let body := List.intercalate ['/'] out.reverse
    if rooted then String.mk ('/' :: body)
    else if body = [] then "."
    else String.mk body

/-- Go `filepath.Join` of two elements: empty elements are ignored, the rest is joined
with the separator and cleaned. -/
def Join (a b : String) : String :=
  if a.data ≠ [] then Clean (String.mk (a.data ++ '/' :: b.data))
  else if b.data ≠ [] then Clean b
  else ""

/-! ## The file system -/

/-- What `os.Stat` returns. -/
inductive StatResult where
  /-- No error: the path names a file, and `isDir` tells whether it is a directory. -/
  | ok (isDir : Bool)
  /-- An error for which `os.IsNotExist` holds. -/
  | notExist
  /-- Any other error. -/
  | failed
  deriving DecidableEq, Repr

/-- An `os.DirEntry`. -/
structure DirEntry where
  Name : String
  IsDir : Bool
  deriving DecidableEq, Repr

/-- A state of the file system, as `os.Stat` and `os.ReadDir` show it (`ReadDir`
returns `none` for an error).  The two calls are independent: a directory that
`ReadDir` lists under a root need not be found by `Stat` under the joined path, as
when the root can be read and not searched, or is reached through a symbolic link
followed by `..`. -/
structure FileSystem where
  Stat : String → StatResult
  ReadDir : String → Option (List DirEntry)

/-- The file system that holds the directories `dirs`, each with its entries, and
the further regular files `files`, and nothing else. -/
def FileSystem.ofListing (dirs : List (String × List DirEntry)) (files : List String) :
    FileSystem where
  Stat p :=
    if dirs.any (fun d => d.1 = p || d.2.any (fun e => e.IsDir && Join d.1 e.Name = p))
    then .ok true
    else if files.contains p ||
      dirs.any (fun d => d.2.any (fun e => !e.IsDir && Join d.1 e.Name = p))
    then .ok false
    else .notExist
  ReadDir p := (dirs.find? (fun d => d.1 = p)).map Prod.snd

/-! ## `pkg/paths/paths.go` -/

/-- Config holds user-configurable paths. -/
structure Config where
  Projects : String
  Archive : String
  Scratch : String
  Scriptorium : String
  deriving DecidableEq, Repr

/-- Resolver handles path resolution with config and defaults. -/
structure Resolver where
  homeDir : String
  config : Option Config
  projects : String
  archive : String
  scratch : String
  scriptorium : String
  deriving DecidableEq, Repr

/-- AllRoots returns all root directories. -/
def Resolver.AllRoots (r : Resolver) : List String :=
  [r.projects, r.archive, r.scriptorium]

/-- The errors of the resolver. -/
inductive PathError where
  /-- The error "project %s not found". -/
  | notFound (projectID : String)
  deriving DecidableEq, Repr

/-- The inner loop of FindProject over the entries of one root: the path returned
from inside the loop, if any.  The `os.Stat` of `.project.toml` has an empty body and
is left out. -/
def scanEntries (root projectID : String) : List DirEntry → Option String
  | [] => none
  | entry :: rest =>
    if !entry.IsDir then scanEntries root projectID rest
    else
      let projectPath := Join root entry.Name
      if entry.Name = projectID then some projectPath
      else scanEntries root projectID rest

/-- The outer loop of FindProject over the roots: the path returned from inside the
loop, if any. -/
def scanRoots (fs : FileSystem) (projectID : String) : List String → Option String
  | [] => none
  | root :: roots =>
    if fs.Stat root = .notExist then scanRoots fs projectID roots
    else
      match fs.ReadDir root with
      | none => scanRoots fs projectID roots
      | some entries =>
        match scanEntries root projectID entries with
        | some projectPath => some projectPath
        | none => scanRoots fs projectID roots

/-- FindProject searches for a project by ID across all root directories. -/
def Resolver.FindProject (r : Resolver) (fs : FileSystem) (projectID : String) :
    Except PathError String :=
  match scanRoots fs projectID r.AllRoots with
  | some projectPath => .ok projectPath
  | none =>
    let scratchPath := Join r.scratch projectID
    match fs.Stat scratchPath with
    | .ok _ => .ok scratchPath
    | _ => .error (.notFound projectID)

/-- ValidatePath checks if a path exists, and if not, attempts to find the project by
ID.  Returns the validated path and whether it was healed. -/
def Resolver.ValidatePath (r : Resolver) (fs : FileSystem) (projectID cachedPath : String) :
    Except PathError (String × Bool) :=
  match fs.Stat cachedPath with
  | .ok _ => .ok (cachedPath, false)
  | _ =>
    match r.FindProject fs projectID with
    | .error err => .error err
    | .ok newPath => .ok (newPath, true)

/-! ### The lookup as the specification words it -/

/-- Whether `root` has an immediate subdirectory named `id`; a root that does not
exist or cannot be read has none. -/
def hasSubdir (fs : FileSystem) (root id : String) : Bool :=
  if fs.Stat root = .notExist then false
  else
    match fs.ReadDir root with
    | none => false
    | some entries => entries.any (fun e => e.IsDir && decide (e.Name = id))

/-- The reference lookup of the specification: the roots are taken in the order
projects, archive, library; the answer is `root/id` for the first root that has an
immediate subdirectory named `id`; when no root has one it is `scratch/id` if that
path exists; otherwise the lookup fails. -/
def findProjectReference (r : Resolver) (fs : FileSystem) (id : String) :
    Except PathError String :=
  match [r.projects, r.archive, r.scriptorium].find? (fun root => hasSubdir fs root id) with
  | some root => .ok (Join root id)
  | none =>
    match fs.Stat (Join r.scratch id) with
    | .ok _ => .ok (Join r.scratch id)
    | _ => .error (.notFound id)

/-- Go `filepath.Base`: the last element of the path, after trailing separators are
stripped. -/
def Base (path : String) : String :=
  if path.data = [] then "."
  else
    let stripped := path.data.reverse.dropWhile (fun c => c = '/')
    if stripped = [] then "/"
    else String.mk (stripped.takeWhile (fun c => c ≠ '/')).reverse

/-- A single path element, as a directory holds it: not empty, without a separator,
and neither `.` nor `..`. -/
def isElement (s : String) : Prop :=
  s.data ≠ [] ∧ '/' ∉ s.data ∧ s.data ≠ ['.'] ∧ s.data ≠ ['.', '.']

instance (s : String) : Decidable (isElement s) := by
  unfold isElement
  infer_instance

/-! ### Construction of the resolver -/

/-- The state of the file `~/.config/pk/config.toml`. -/
inductive ConfigFile where
  /-- The `os.Stat` of the file returns an error: the file is not looked at. -/
  | absent
  /-- The file is there and `toml.DecodeFile` fails on it. -/
  | malformed
  /-- The file decodes to this configuration; a key that is not set is the empty
  string. -/
  | decoded (cfg : Config)
  deriving DecidableEq, Repr

/-- What can stop the construction of a resolver. -/
inductive ResolverError where
  /-- The error of `os.UserHomeDir`. -/
  | homeDir
  /-- The run-time panic "index out of range" of the expression `configured[0]`. -/
  | indexOutOfRange
  deriving DecidableEq, Repr

/-- The `switch` of resolvePath: the configured value of the root of that name; for
another name `configured` keeps its zero value. -/
def Config.configured (cfg : Config) (name : String) : String :=
  if name = "projects" then cfg.Projects
  else if name = "archive" then cfg.Archive
  else if name = "scratch" then cfg.Scratch
  else if name = "scriptorium" then cfg.Scriptorium
  else ""

/-- The method resolvePath returns config path if set, otherwise returns defaultPath,
and expands `~` to the home directory.  The match on the text of `configured` is the
indexing `configured[0]`, which panics on the empty string, and the slice
`configured[1:]`. -/
def Resolver.resolvePath (r : Resolver) (name defaultPath : String) :
    Except ResolverError String :=
  match r.config with
  | none => .ok defaultPath
  | some cfg =>
    let configured := cfg.configured name
    if configured = "" then .ok defaultPath
    else
      match configured.data with
      | [] => .error .indexOutOfRange
      | c :: rest =>
        if c = '~' then .ok (Join r.homeDir (String.mk rest))
        else .ok configured

/-- NewResolver creates a new path resolver; `home` is what `os.UserHomeDir` returns,
`none` for its error. -/
def NewResolver (home : Option String) (configFile : ConfigFile) :
    Except ResolverError Resolver :=
  match home with
  | none => .error .homeDir
  | some homeDir =>
    let r₀ : Resolver :=
      { homeDir := homeDir, config := none, projects := "", archive := "", scratch := "",
        scriptorium := "" }
    let r₁ : Resolver :=
      match configFile with
      | .decoded cfg => { r₀ with config := some cfg }
      | _ => r₀
    match r₁.resolvePath "projects" (Join homeDir "projects") with
    | .error err => .error err
    | .ok projects =>
      let r₂ := { r₁ with projects := projects }
      match r₂.resolvePath "archive" (Join homeDir "archive") with
      | .error err => .error err
      | .ok archive =>
        let r₃ := { r₂ with archive := archive }
        match r₃.resolvePath "scratch" (Join homeDir "scratch") with
        | .error err => .error err
        | .ok scratch =>
          let r₄ := { r₃ with scratch := scratch }
          match r₄.resolvePath "scriptorium" (Join homeDir "scriptorium") with
          | .error err => .error err
          | .ok scriptorium => .ok { r₄ with scriptorium := scriptorium }

/-- Default returns a resolver with default settings (no config). -/
def Default (home : Option String) : Except ResolverError Resolver :=
  match home with
  | none => .error .homeDir
  | some homeDir =>
    .ok { homeDir := homeDir, config := none, projects := Join homeDir "projects",
          archive := Join homeDir "archive", scratch := Join homeDir "scratch",
          scriptorium := Join homeDir "scriptorium" }

/-- The expansion of a configured value as the specification words it: a leading `~`
stands for the home directory, joined with what follows it; any other value stands for
itself. -/
def expandTilde (home value : String) : String :=
  match value.data with
  | '~' :: rest => Join home (String.mk rest)
  | _ => value

/-- The root the specification asks for: the expanded value of the configuration when
the file decodes and sets one, else the directory of that name under home. -/
def expectedRoot (home : String) (configFile : ConfigFile) (name : String) : String :=
  match configFile with
  | .decoded cfg =>
    if cfg.configured name = "" then Join home name else expandTilde home (cfg.configured name)
  | _ => Join home name

/-! ## `pkg/cache/access.go` -/

/-- AccessRecord tracks when a project was last accessed.  A `time.Time` is the
instant it names, as a count of nanoseconds. -/
structure AccessRecord where
  ProjectID : String
  ProjectPath : String
  LastAccessed : Int
  deriving DecidableEq, Repr

/-- The entries of a non-nil Go `map[string]AccessRecord`: every key occurs once. -/
structure AccessMap where
  entries : List (String × AccessRecord)
  nodupKeys : (entries.map Prod.fst).Nodup
  deriving DecidableEq

/-- The list of keys of a map, in iteration order. -/
def AccessMap.keys (m : AccessMap) : List String := m.entries.map Prod.fst

/-- The result of `make(map[string]AccessRecord)`. -/
def AccessMap.empty : AccessMap := ⟨[], List.nodup_nil⟩

/-- The Go expression `records[id]` with the comma-ok form. -/
def AccessMap.lookup (m : AccessMap) (id : String) : Option AccessRecord :=
  (m.entries.find? (fun e => e.1 == id)).map Prod.snd

/-- The Go statement `records[id] = rec`: the record under a key of the map is
replaced where it stands, a new key gets a new entry. -/
def AccessMap.set (m : AccessMap) (id : String) (rec : AccessRecord) : AccessMap :=
  if h : id ∈ m.entries.map Prod.fst then
    ⟨m.entries.map (fun e => if e.1 = id then (id, rec) else e), by
      have hkeys : (m.entries.map (fun e => if e.1 = id then (id, rec) else e)).map Prod.fst
          = m.entries.map Prod.fst := by
        rw [List.map_map]
        apply List.map_congr_left
        intro e _
        by_cases he : e.1 = id <;> simp [he]
      rw [hkeys]
      exact m.nodupKeys⟩
  else ⟨(id, rec) :: m.entries, List.nodup_cons.2 ⟨h, m.nodupKeys⟩⟩

/-- The lookup in a loaded map; the nil map holds no record. -/
def lookupRecord (records : Option AccessMap) (id : String) : Option AccessRecord :=
  match records with
  | none => none
  | some m => m.lookup id

/-- The state of the file `~/.cache/pk/access.json`. -/
inductive AccessFile where
  /-- No such file: `os.ReadFile` fails with an error for which `os.IsNotExist` holds. -/
  | absent
  /-- The file is there and `os.ReadFile` fails with another error. -/
  | unreadable
  /-- The file holds text that `json.Unmarshal` rejects for `map[string]AccessRecord`. -/
  | malformed
  /-- The file holds the JSON text `null`, which decodes to the nil map. -/
  | null
  /-- The file holds a JSON object, which decodes to this map. -/
  | object (m : AccessMap)
  deriving DecidableEq

/-- The errors of the access store. -/
inductive AccessError where
  /-- The error of `os.UserHomeDir`. -/
  | homeDir
  /-- An error handed up from reading or decoding the file. -/
  | fileError
  /-- The run-time panic "assignment to entry in nil map". -/
  | nilMapAssignment
  /-- The error of the project discovery `FindProjectsCached`. -/
  | discovery
  /-- The error of `os.WriteFile`. -/
  | writeFailed
  deriving DecidableEq, Repr

/-- What a call of the access store finds around it: the home directory that
`os.UserHomeDir` returns (`none` for its error), the state of the configuration file,
the file system that the resolver searches, and whether `os.WriteFile` of the access
file succeeds.  The files of the stores are kept apart from that file system: writing
them does not change it. -/
structure Env where
  home : Option String
  configFile : ConfigFile
  fs : FileSystem
  writable : Bool

/-- The loop of validateAndHealAccessRecords over the entries that `range` visits,
with the map and the flag `healed` as they stand after the loop.  The body assigns to
the key it is visiting only. -/
def healLoop (resolver : Resolver) (fs : FileSystem) :
    List (String × AccessRecord) → AccessMap × Bool → AccessMap × Bool
  | [], acc => acc
  | (projectID, record) :: rest, (records, healed) =>
    match resolver.ValidatePath fs record.ProjectID record.ProjectPath with
    | .error _ => healLoop resolver fs rest (records, healed)
    | .ok (newPath, wasHealed) =>
      if wasHealed then
        healLoop resolver fs rest
          (records.set projectID { record with ProjectPath := newPath }, true)
      else healLoop resolver fs rest (records, healed)

/-- The function validateAndHealAccessRecords checks if access record paths exist and
updates them if stale; it returns whether any path was healed, and the map is given
back as the call leaves it. -/
def validateAndHealAccessRecords (env : Env) (records : Option AccessMap) :
    Except ResolverError Bool × Option AccessMap :=
  match NewResolver env.home env.configFile with
  | .error err => (.error err, records)
  | .ok resolver =>
    match records with
    | none => (.ok false, none)
    | some m =>
      let out := healLoop resolver env.fs m.entries (m, false)
      (.ok out.2, some out.1)

/-- SaveAccessRecords writes the access tracking file. -/
def SaveAccessRecords (env : Env) (f : AccessFile) (records : Option AccessMap) :
    Except AccessError Unit × AccessFile :=
  match env.home with
  | none => (.error .homeDir, f)
  | some _ =>
    if env.writable then
      match records with
      | none => (.ok (), .null)
      | some m => (.ok (), .object m)
    else (.error .writeFailed, f)

/-- What LoadAccessRecords does once the file is decoded: validate and heal, and save
when a path was healed; the error of SaveAccessRecords is dropped. -/
def healAndSave (env : Env) (f : AccessFile) (records : Option AccessMap) :
    Except AccessError (Option AccessMap) × AccessFile :=
  match validateAndHealAccessRecords env records with
  | (.error _, records') => (.ok records', f)
  | (.ok healed, records') =>
    if healed then (.ok records', (SaveAccessRecords env f records').2)
    else (.ok records', f)

/-- LoadAccessRecords reads the access tracking file and validates paths; `none` is
the nil map.  It returns the file as well, which it rewrites when it healed a path. -/
def LoadAccessRecords (env : Env) (f : AccessFile) :
    Except AccessError (Option AccessMap) × AccessFile :=
  match env.home with
  | none => (.error .homeDir, f)
  | some _ =>
    match f with
    | .absent => (.ok (some AccessMap.empty), f)
    | .unreadable => (.error .fileError, f)
    | .malformed => (.error .fileError, f)
    | .null => healAndSave env f none
    | .object m => healAndSave env f (some m)

/-- RecordAccess marks a project as accessed now; `now` is what `time.Now` returns. -/
def RecordAccess (env : Env) (now : Int) (f : AccessFile) (projectID projectPath : String) :
    Except AccessError Unit × AccessFile :=
  match LoadAccessRecords env f with
  | (.error err, f') => (.error err, f')
  | (.ok none, f') => (.error .nilMapAssignment, f')
  | (.ok (some records), f') =>
    SaveAccessRecords env f' (some (records.set projectID
      { ProjectID := projectID, ProjectPath := projectPath, LastAccessed := now }))

/-- The `[project]` section of a `.project.toml` file; the field `Type` of the source
is `ProjectType` here. -/
structure ProjectInfo where
  Name : String
  ID : String
  Status : String
  ProjectType : String
  deriving DecidableEq, Repr

/-- Project represents a .project.toml file; the sections that the access store does
not read are left out. -/
structure Project where
  Path : String
  ProjectInfo : ProjectInfo
  deriving DecidableEq, Repr

/-- The comparison that GetRecentProjects hands to `sort.Slice`, on the two projects
that stand at the indices it is given. -/
def recentLess (records : Option AccessMap) (pi pj : Project) : Bool :=
  match lookupRecord records pi.ProjectInfo.ID, lookupRecord records pj.ProjectInfo.ID with
  | none, none => false
  | none, some _ => false
  | some _, none => true
  | some accessI, some accessJ => decide (accessI.LastAccessed > accessJ.LastAccessed)

/-- What Go asks of a `less` function: a strict ordering that is transitive, and whose
"not less" is transitive too. -/
structure LessContract (less : Project → Project → Bool) : Prop where
  irrefl : ∀ a, less a a = false
  trans : ∀ a b c, less a b = true → less b c = true → less a c = true
  negTrans : ∀ a b c, less a b = false → less b c = false → less a c = false

/-- An implementation of Go `sort.Slice` on a slice of projects, with what its
documentation promises: the result is a rearrangement of the slice, and for a `less`
that keeps the contract no element is less than one that stands before it.  The sort
is not guaranteed to be stable. -/
structure SliceSorter where
  sort : (Project → Project → Bool) → List Project → List Project
  perm : ∀ less xs, (sort less xs).Perm xs
  sorted : ∀ less xs, LessContract less →
    (sort less xs).Pairwise (fun a b => less b a = false)

/-- The projects as `sort.Slice` leaves them in GetRecentProjects. -/
def orderByAccess (sorter : SliceSorter) (records : Option AccessMap)
    (projects : List Project) : List Project :=
  sorter.sort (recentLess records) projects

/-- The limit of GetRecentProjects: `projects[:limit]` when `limit > 0` and
`limit < len(projects)`. -/
def applyLimit (limit : Int) (projects : List Project) : List Project :=
  if limit > 0 ∧ limit < projects.length then projects.take limit.toNat else projects

/-- GetRecentProjects returns projects sorted by access time (most recent first).
`discovered` is what `FindProjectsCached` returns for the projects and scratch
directories under home. -/
def GetRecentProjects (env : Env) (sorter : SliceSorter)
    (discovered : Except AccessError (List Project)) (f : AccessFile) (limit : Int) :
    Except AccessError (List Project) × AccessFile :=
  match LoadAccessRecords env f with
  | (.error err, f') => (.error err, f')
  | (.ok records, f') =>
    match env.home with
    | none => (.error .homeDir, f')
    | some _ =>
      match discovered with
      | .error err => (.error err, f')
      | .ok projects => (.ok (applyLimit limit (orderByAccess sorter records projects)), f')

/-- A sort that keeps the order of elements of which neither is less than the other:
insertion sort. -/
def insertionSorter : SliceSorter where
  sort less xs := xs.insertionSort (fun a b => less b a = false)
  perm less xs := List.perm_insertionSort _ xs
  sorted less xs h := by
    haveI : IsTotal Project (fun a b => less b a = false) := ⟨fun a b => by
      cases hba : less b a with
      | false => exact Or.inl rfl
      | true =>
        right
        cases hab : less a b with
        | false => rfl
        | true =>
          have := h.trans a b a hab hba
          rw [h.irrefl a] at this
          cases this⟩
    haveI : IsTrans Project (fun a b => less b a = false) :=
      ⟨fun a b c hab hbc => h.negTrans c b a hbc hab⟩
    exact List.sorted_insertionSort (fun a b => less b a = false) xs

/-! ### What the healing loop computes -/

/-- Whether the healing loop rewrites the path of the record. -/
def isHealed (resolver : Resolver) (fs : FileSystem) (record : AccessRecord) : Bool :=
  match resolver.ValidatePath fs record.ProjectID record.ProjectPath with
  | .ok (_, wasHealed) => wasHealed
  | .error _ => false

/-- The record as the healing loop leaves it. -/
def healRecord (resolver : Resolver) (fs : FileSystem) (record : AccessRecord) :
    AccessRecord :=
  match resolver.ValidatePath fs record.ProjectID record.ProjectPath with
  | .ok (newPath, true) => { record with ProjectPath := newPath }
  | _ => record

/-- The map in which every record is as the healing loop leaves it. -/
def healMap (resolver : Resolver) (fs : FileSystem) (m : AccessMap) : AccessMap :=
  ⟨m.entries.map (fun e => (e.1, healRecord resolver fs e.2)), by
    rw [List.map_map]
    exact m.nodupKeys⟩

/-- The resolver that NewResolver builds from a home directory and a configuration
file. -/
def resolverOf (home : String) (configFile : ConfigFile) : Resolver :=
  { homeDir := home
    config := match configFile with
      | .decoded cfg => some cfg
      | _ => none
    projects := expectedRoot home configFile "projects"
    archive := expectedRoot home configFile "archive"
    scratch := expectedRoot home configFile "scratch"
    scriptorium := expectedRoot home configFile "scriptorium" }

/-! ### Slice expressions with their bounds -/

/-- The Go slice expression `s[:hi]`; `none` is the run-time panic "slice bounds out of
range".  For a slice Go checks `hi` against the capacity; the model checks it against
the length, which is not larger. -/
def sliceTo {α : Type} (s : List α) (hi : Int) : Option (List α) :=
  if 0 ≤ hi ∧ hi ≤ s.length then some (s.take hi.toNat) else none

/-- The Go slice expression `s[lo:]`; `none` is the run-time panic "slice bounds out of
range". -/
def sliceFrom {α : Type} (s : List α) (lo : Int) : Option (List α) :=
  if 0 ≤ lo ∧ lo ≤ s.length then some (s.drop lo.toNat) else none

/-- The limit of GetRecentProjects with the bounds of `projects[:limit]` checked. -/
def applyLimitChecked (limit : Int) (projects : List Project) : Option (List Project) :=
  if limit > 0 ∧ limit < projects.length then sliceTo projects limit else some projects

/-! ### `sort.Slice` as the Go library runs it

The functions of `sort/zsortfunc.go` (Go 1.19 and later) that a run of `sort.Slice`
goes through on a slice of fewer than 50 elements whose partitions are balanced.  A
run that leaves this part of the library (`breakPatterns_func`, `heapSort_func`,
`partitionEqual_func`, the pivot of 50 elements and more) gives `none`.  A slice is the
list of its elements, and an index outside it, which no run reaches, reads as
"not less" and swaps nothing. -/

/-- The call `data.Less(i, j)`. -/
def lessAt {α : Type} (less : α → α → Bool) (data : List α) (i j : Nat) : Bool :=
  match data[i]?, data[j]? with
  | some x, some y => less x y
  | _, _ => false

/-- The call `data.Swap(i, j)`. -/
def swapAt {α : Type} (data : List α) (i j : Nat) : List α :=
  match data[i]?, data[j]? with
  | some x, some y => (data.set i y).set j x
  | _, _ => data

/-- The inner loop of `insertionSort_func`, from `j` downwards:
`for j := i; j > a && data.Less(j, j-1); j-- { data.Swap(j, j-1) }`. -/
def insertionInner {α : Type} (less : α → α → Bool) (a : Nat) : Nat → List α → List α
  | 0, data => data
  | j + 1, data =>
    if j + 1 > a ∧ lessAt less data (j + 1) j = true then
      insertionInner less a j (swapAt data (j + 1) j)
    else data

/-- Go `insertionSort_func`: sorts `data[a:b]` using insertion sort; the outer loop is
`for i := a + 1; i < b; i++`. -/
def insertionSortFunc {α : Type} (less : α → α → Bool) (data : List α) (a b : Nat) : List α :=
  (List.range' (a + 1) (b - (a + 1))).foldl (fun d i => insertionInner less a i d) data

/-- Go `sortedHint`. -/
inductive SortedHint where
  | unknownHint
  | increasingHint
  | decreasingHint
  deriving DecidableEq, Repr

/-- Go `order2_func`: returns x, y where data[x] <= data[y], and the count of swaps. -/
def order2Func {α : Type} (less : α → α → Bool) (data : List α) (a b swaps : Nat) :
    Nat × Nat × Nat :=
  if lessAt less data b a = true then (b, a, swaps + 1) else (a, b, swaps)

/-- Go `median_func`: returns x where data[x] is the median of data[a], data[b],
data[c], and the count of swaps. -/
def medianFunc {α : Type} (less : α → α → Bool) (data : List α) (a b c swaps : Nat) :
    Nat × Nat :=
  match order2Func less data a b swaps with
  | (a₁, b₁, swaps₁) =>
    match order2Func less data b₁ c swaps₁ with
    | (b₂, _, swaps₂) =>
      match order2Func less data a₁ b₂ swaps₂ with
      | (_, b₃, swaps₃) => (b₃, swaps₃)

/-- Go `choosePivot_func` for fewer than 50 elements: a static pivot below 8 elements,
the median of three from 8 on; `none` is the Tukey ninther of 50 elements and more. -/
def choosePivotFunc {α : Type} (less : α → α → Bool) (data : List α) (a b : Nat) :
    Option (Nat × SortedHint) :=
  let l := b - a
  let i := a + l / 4 * 1
  let j := a + l / 4 * 2
  let k := a + l / 4 * 3
  if l ≥ 8 then
    if l ≥ 50 then none
    else
      match medianFunc less data i j k 0 with
      | (pivot, swaps) =>
        if swaps = 0 then some (pivot, .increasingHint)
        else if swaps = 12 then some (pivot, .decreasingHint)
        else some (pivot, .unknownHint)
  else some (j, .increasingHint)

/-- Go `partialInsertionSort_func` for fewer than 50 elements: whether `data[a:b]` is
sorted, that is, whether the scan `for i < b && !data.Less(i, i-1) { i++ }` from
`a + 1` reaches `b`; on a short slice nothing is shifted.  `none` is the shifting on
50 elements and more. -/
def partialInsertionSortFunc {α : Type} (less : α → α → Bool) (data : List α) (a b : Nat) :
    Option Bool :=
  if (List.range' (a + 1) (b - (a + 1))).all (fun i => !lessAt less data i (i - 1)) then
    some true
  else if b - a < 50 then some false
  else none

/-- The loop `for i <= j && data.Less(i, a) { i++ }` of `partition_func`, in at most
`fuel` rounds; `j + 1 - i` rounds are enough. -/
def scanUp {α : Type} (less : α → α → Bool) (data : List α) (a j : Nat) : Nat → Nat → Nat
  | 0, i => i
  | fuel + 1, i =>
    if i ≤ j ∧ lessAt less data i a = true then scanUp less data a j fuel (i + 1) else i

/-- The loop `for i <= j && !data.Less(j, a) { j-- }` of `partition_func`; `i` is above
`a`, so `j` stays above 0. -/
def scanDown {α : Type} (less : α → α → Bool) (data : List α) (a i : Nat) : Nat → Nat
  | 0 => 0
  | j + 1 =>
    if i ≤ j + 1 ∧ lessAt less data (j + 1) a = false then scanDown less data a i j
    else j + 1

/-- The endless loop of `partition_func`, left by `break` when `i > j`: the slice and
`j` after it.  Every round but the last moves `i` up and `j` down, so `j + 1 - i`
rounds and one are enough; `none` is fuel that ran out. -/
def partitionLoop {α : Type} (less : α → α → Bool) (a : Nat) :
    Nat → List α → Nat → Nat → Option (List α × Nat)
  | 0, _, _, _ => none
  | fuel + 1, data, i, j =>
    let i₁ := scanUp less data a j (j + 1 - i) i
    let j₁ := scanDown less data a i₁ j
    if i₁ > j₁ then some (data, j₁)
    else partitionLoop less a fuel (swapAt data i₁ j₁) (i₁ + 1) (j₁ - 1)

/-- Go `partition_func`: does one quicksort partition; returns the slice, the new index
of the pivot and whether the slice was already partitioned. -/
def partitionFunc {α : Type} (less : α → α → Bool) (data : List α) (a b pivot : Nat) :
    Option (List α × Nat × Bool) :=
  let data₁ := swapAt data a pivot
  let i := scanUp less data₁ a (b - 1) (b - 1 - a) (a + 1)
  let j := scanDown less data₁ a i (b - 1)
  if i > j then some (swapAt data₁ j a, j, true)
  else
    match partitionLoop less a (b - a) (swapAt data₁ i j) (i + 1) (j - 1) with
    | none => none
    | some (data₂, j₂) => some (swapAt data₂ j₂ a, j₂, false)

/-- Go `pdqsort_func`: sorts `data[a:b]`.  The loop of the source is the call on the
larger part, with `wasBalanced` and `wasPartitioned` as the last round set them; the
recursive call of the source, on the smaller part, starts with both set.  Every call
is on a shorter part, so `b - a` and one is fuel enough. -/
def pdqsortFunc {α : Type} (less : α → α → Bool) :
    Nat → List α → Nat → Nat → Nat → Bool → Bool → Option (List α)
  | 0, _, _, _, _, _, _ => none
  | fuel + 1, data, a, b, limit, wasBalanced, wasPartitioned =>
    let length := b - a
    if length ≤ 12 then some (insertionSortFunc less data a b)
    else if limit = 0 then none
    else if wasBalanced = false then none
    else
      match choosePivotFunc less data a b with
      | none => none
      | some (_, .decreasingHint) => none
      | some (pivot, hint) =>
        match (if wasPartitioned = true ∧ hint = .increasingHint
            then partialInsertionSortFunc less data a b else some false) with
        | none => none
        | some true => some data
        | some false =>
          if a > 0 ∧ lessAt less data (a - 1) pivot = false then none
          else
            match partitionFunc less data a b pivot with
            | none => none
            | some (data₁, mid, alreadyPartitioned) =>
              let leftLen := mid - a
              let rightLen := b - mid
              let balanceThreshold := length / 8
              if leftLen < rightLen then
                match pdqsortFunc less fuel data₁ a mid limit true true with
                | none => none
                | some data₂ =>
                  pdqsortFunc less fuel data₂ (mid + 1) b limit
                    (decide (leftLen ≥ balanceThreshold)) alreadyPartitioned
              else
                match pdqsortFunc less fuel data₁ (mid + 1) b limit true true with
                | none => none
                | some data₂ =>
                  pdqsortFunc less fuel data₂ a mid limit
                    (decide (rightLen ≥ balanceThreshold)) alreadyPartitioned

/-- Go `bits.Len`: the number of bits that write the number. -/
def bitsLen : Nat → Nat → Nat
  | 0, _ => 0
  | fuel + 1, n => if n = 0 then 0 else bitsLen fuel (n / 2) + 1

/-- Go `sort.Slice`, where the run stays in the part of the library above. -/
def SortSlice {α : Type} (less : α → α → Bool) (x : List α) : Option (List α) :=
  pdqsortFunc less (x.length + 1) x 0 x.length (bitsLen x.length x.length) true true

/-- Go `sort.Slice` on the projects of GetRecentProjects: the outcome of SortSlice
where it models the run and leaves, as every run of the library does, a sorted
rearrangement of the slice; insertion sort stands for the runs that it does not
model. -/
def goSort (less : Project → Project → Bool) (xs : List Project) : List Project :=
  match SortSlice less xs with
  | some ys =>
    if ys.Perm xs ∧ ys.Pairwise (fun a b => less b a = false) then ys
    else xs.insertionSort (fun a b => less b a = false)
  | none => xs.insertionSort (fun a b => less b a = false)

/-- The sorter of GetRecentProjects that `goSort` is. -/
def goSorter : SliceSorter where
  sort := goSort
  perm less xs := by
    unfold goSort
    split
    · split
      · next h => exact h.1
      · exact List.perm_insertionSort _ xs
    · exact List.perm_insertionSort _ xs
  sorted less xs h := by
    unfold goSort
    split
    · split
      · next h' => exact h'.2
      · exact insertionSorter.sorted less xs h
    · exact insertionSorter.sorted less xs h

/-! ## `cmd/doctor.go` -/

/-- The helper containsString.  Its slice expressions cut a Go string by bytes, so the
strings are lists of bytes here; `none` is the panic of a slice expression out of
range.  `&&` and `||` evaluate their right operand only when the left one does not
decide. -/
def containsString (haystack needle : List UInt8) : Option Bool :=
  if haystack.length ≥ needle.length then
    if haystack = needle then some true
    else
      match sliceTo haystack needle.length with
      | none => none
      | some front =>
        if front = needle then some true
        else
          match _hrest : sliceFrom haystack 1 with
          | none => none
          | some rest => containsString rest needle
  else some false
termination_by haystack.length
decreasing_by
  unfold sliceFrom at _hrest
  split at _hrest
  · next hb =>
    cases _hrest
    rw [List.length_drop]
    have h1 : (1 : Int).toNat = 1 := rfl
    omega
  · cases _hrest

/-! ## `pkg/session/tmux.go` -/

/-- SanitizeSessionName converts a project name to a valid tmux session name:
`strings.ReplaceAll(name, ".", "_")`.  Both texts are one byte, so every dot is
replaced where it stands. -/
def SanitizeSessionName (name : String) : String :=
  String.mk (name.data.map (fun c => if c = '.' then '_' else c))

/-- TmuxWindow represents a window configuration. -/
structure TmuxWindow where
  Name : String
  Command : String
  Path : String
  deriving DecidableEq, Repr

/-- The `[tmux]` section of a project, which `Project` leaves out. -/
structure TmuxSection where
  Layout : String
  Windows : List TmuxWindow
  deriving DecidableEq, Repr

/-- A call of the program `tmux`.  A window target `"%s:%d"` is held as the session
name and the index. -/
inductive TmuxCommand where
  /-- The call `tmux has-session -t=<name>`. -/
  | hasSession (session : String)
  /-- The call `tmux switch-client -t <name>`. -/
  | switchClient (session : String)
  /-- The call `tmux attach-session -t <name>`. -/
  | attachSession (session : String)
  /-- The call `tmux new-session -ds <name> -c <path>`, or with `-s` when it is not
  detached. -/
  | newSession (detached : Bool) (session path : String)
  /-- The call `tmux kill-window -t <name>:<index>`. -/
  | killWindow (session : String) (index : Nat)
  /-- The call `tmux new-window -t <name>:<index> -n <window> -c <path>`. -/
  | newWindow (session : String) (index : Nat) (windowName path : String)
  /-- The call `tmux send-keys -t <name>:<index> <command> Enter`. -/
  | sendKeys (session : String) (index : Nat) (command : String)
  /-- The call `tmux select-layout -t <name> <layout>`. -/
  | selectLayout (session layout : String)
  deriving DecidableEq, Repr

/-- The session that a call of `tmux` names. -/
def TmuxCommand.session : TmuxCommand → String
  | .hasSession session => session
  | .switchClient session => session
  | .attachSession session => session
  | .newSession _ session _ => session
  | .killWindow session _ => session
  | .newWindow session _ _ _ => session
  | .sendKeys session _ _ => session
  | .selectLayout session _ => session

/-- The terminal that the session functions find: whether the variable `TMUX` is set,
and whether a call of `tmux` succeeds, which may depend on the calls made before it. -/
structure Terminal where
  inTmux : Bool
  run : List TmuxCommand → TmuxCommand → Bool

/-- The errors of the session functions. -/
inductive SessionError where
  /-- The error that `cmd.Run` returned, handed up as it is. -/
  | commandFailed
  /-- The error "failed to create tmux session". -/
  | createSessionFailed
  /-- The error "failed to create session". -/
  | createFailed
  /-- The error "failed to create window %s". -/
  | createWindowFailed (windowName : String)
  deriving DecidableEq, Repr

/-- One `cmd.Run()`: whether it succeeded, and the calls made so far. -/
def runCommand (t : Terminal) (calls : List TmuxCommand) (cmd : TmuxCommand) :
    Bool × List TmuxCommand :=
  (t.run calls cmd, calls ++ [cmd])

/-- SessionExists checks if a tmux session exists. -/
def SessionExists (t : Terminal) (calls : List TmuxCommand) (name : String) :
    Bool × List TmuxCommand :=
  runCommand t calls (.hasSession name)

/-- SwitchSession switches to an existing session. -/
def SwitchSession (t : Terminal) (calls : List TmuxCommand) (sessionName : String) :
    Except SessionError Unit × List TmuxCommand :=
  let cmd : TmuxCommand :=
    if t.inTmux then .switchClient sessionName else .attachSession sessionName
  match runCommand t calls cmd with
  | (true, calls') => (.ok (), calls')
  | (false, calls') => (.error .commandFailed, calls')

/-- CreateBasicSession creates a simple single-window session. -/
def CreateBasicSession (t : Terminal) (calls : List TmuxCommand) (sessionName path : String) :
    Except SessionError Unit × List TmuxCommand :=
  if t.inTmux then
    match runCommand t calls (.newSession true sessionName path) with
    | (false, calls') => (.error .createSessionFailed, calls')
    | (true, calls') => SwitchSession t calls' sessionName
  else
    match runCommand t calls (.newSession false sessionName path) with
    | (true, calls') => (.ok (), calls')
    | (false, calls') => (.error .commandFailed, calls')

/-- Go `strconv.Itoa`, and the verb `%d`: the decimal digits of the number, after a
minus sign when it is negative. -/
def Itoa (n : Int) : String :=
  if n < 0 then String.mk ('-' :: Nat.toDigits 10 n.natAbs)
  else String.mk (Nat.toDigits 10 n.natAbs)

/-- The loop of CreateWithLayout over the windows; `i` is the index of the loop. -/
def createWindows (t : Terminal) (sessionName projectPath : String) :
    Nat → List TmuxWindow → List TmuxCommand → Except SessionError Unit × List TmuxCommand
  | _, [], calls => (.ok (), calls)
  | i, window :: rest, calls =>
    let windowPath := if window.Path ≠ "" then window.Path else projectPath
    let windowName :=
      if window.Name = "" then String.mk ("window-".data ++ (Itoa (i + 1)).data)
      else window.Name
    match runCommand t calls (.newWindow sessionName (i + 1) windowName windowPath) with
    | (false, calls') => (.error (.createWindowFailed windowName), calls')
    | (true, calls') =>
      if window.Command ≠ "" then
        createWindows t sessionName projectPath (i + 1) rest
          (runCommand t calls' (.sendKeys sessionName (i + 1) window.Command)).2
      else createWindows t sessionName projectPath (i + 1) rest calls'

/-- CreateWithLayout creates a session with custom window layout. -/
def CreateWithLayout (t : Terminal) (calls : List TmuxCommand) (project : Project)
    (tmux : TmuxSection) : Except SessionError Unit × List TmuxCommand :=
  let sessionName := SanitizeSessionName project.ProjectInfo.ID
  match runCommand t calls (.newSession true sessionName project.Path) with
  | (false, calls₁) => (.error .createFailed, calls₁)
  | (true, calls₁) =>
    let calls₂ := (runCommand t calls₁ (.killWindow sessionName 1)).2
    match createWindows t sessionName project.Path 0 tmux.Windows calls₂ with
    | (.error err, calls₃) => (.error err, calls₃)
    | (.ok _, calls₃) =>
      let calls₄ :=
        if tmux.Layout ≠ "" then (runCommand t calls₃ (.selectLayout sessionName tmux.Layout)).2
        else calls₃
      SwitchSession t calls₄ sessionName

/-- CreateSession creates a new tmux session; `tmux` is the `[tmux]` section of the
project. -/
def CreateSession (t : Terminal) (calls : List TmuxCommand) (project : Project)
    (tmux : TmuxSection) : Except SessionError Unit × List TmuxCommand :=
  let sessionName := SanitizeSessionName project.ProjectInfo.ID
  match SessionExists t calls sessionName with
  | (true, calls₁) => SwitchSession t calls₁ sessionName
  | (false, calls₁) =>
    if tmux.Windows.length > 0 then CreateWithLayout t calls₁ project tmux
    else CreateBasicSession t calls₁ sessionName project.Path

/-! ## `strconv`, `unicode/utf8` and `encoding/json` of the Go library, as the pin store
uses them -/

/-- The number that a text of decimal digits writes, after the number `acc` read so
far; `none` where a character is no decimal digit. -/
def parseDigits : List Char → Nat → Option Nat
  | [], acc => some acc
  | c :: cs, acc =>
    if '0' ≤ c ∧ c ≤ '9' then parseDigits cs (10 * acc + (c.toNat - '0'.toNat))
    else none

/-- Go `strconv.Atoi`, and `strconv.ParseInt(s, 10, 64)`: an optional sign and one or
more decimal digits that write a number of 64 bits; `none` is its error. -/
def Atoi (s : String) : Option Int :=
  match s.data with
  | [] => none
  | c :: cs =>
    let digits := if c = '-' ∨ c = '+' then cs else c :: cs
    if digits = [] then none
    else
      match parseDigits digits 0 with
      | none => none
      | some n =>
        let v : Int := if c = '-' then -(n : Int) else (n : Int)
        if -(2 ^ 63) ≤ v ∧ v < 2 ^ 63 then some v else none

/-- Go `utf8.RuneError`, the replacement character U+FFFD. -/
def RuneError : Char := Char.ofNat 0xFFFD

/-- Go `utf8.DecodeRune` on the values of the bytes: the first character of the text
and the number of bytes that write it; where the text starts with no well-formed
UTF-8 sequence the result is `RuneError` and one byte, and `RuneError` and no byte
for the empty text. -/
def decodeRune : List Nat → Char × Nat
  | [] => (RuneError, 0)
  | p0 :: rest =>
    if p0 < 0x80 then (Char.ofNat p0, 1)
    else if 0xC2 ≤ p0 ∧ p0 ≤ 0xDF then
      match rest with
      | b1 :: _ =>
        if 0x80 ≤ b1 ∧ b1 ≤ 0xBF then (Char.ofNat ((p0 - 0xC0) * 64 + (b1 - 0x80)), 2)
        else (RuneError, 1)
      | _ => (RuneError, 1)
    else if 0xE0 ≤ p0 ∧ p0 ≤ 0xEF then
      match rest with
      | b1 :: b2 :: _ =>
        if (if p0 = 0xE0 then 0xA0 else 0x80) ≤ b1 ∧ b1 ≤ (if p0 = 0xED then 0x9F else 0xBF)
            ∧ 0x80 ≤ b2 ∧ b2 ≤ 0xBF then
          (Char.ofNat ((p0 - 0xE0) * 4096 + (b1 - 0x80) * 64 + (b2 - 0x80)), 3)
        else (RuneError, 1)
      | _ => (RuneError, 1)
    else if 0xF0 ≤ p0 ∧ p0 ≤ 0xF4 then
      match rest with
      | b1 :: b2 :: b3 :: _ =>
        if (if p0 = 0xF0 then 0x90 else 0x80) ≤ b1 ∧ b1 ≤ (if p0 = 0xF4 then 0x8F else 0xBF)
            ∧ 0x80 ≤ b2 ∧ b2 ≤ 0xBF ∧ 0x80 ≤ b3 ∧ b3 ≤ 0xBF then
          (Char.ofNat ((p0 - 0xF0) * 262144 + (b1 - 0x80) * 4096 + (b2 - 0x80) * 64
            + (b3 - 0x80)), 4)
        else (RuneError, 1)
      | _ => (RuneError, 1)
    else (RuneError, 1)

/-- Go `utf8.DecodeRune`. -/
def DecodeRune (p : List UInt8) : Char × Nat :=
  decodeRune (p.map UInt8.toNat)

/-- The characters that `encoding/json` writes for a Go string: the text is decoded
one `DecodeRune` at a time, so that a byte that starts no well-formed sequence is
written as U+FFFD.  `fuel` bounds the number of characters; the length of the text is
enough, for every step takes one byte at least. -/
def decodeTextLoop : Nat → List UInt8 → List Char
  | 0, _ => []
  | _ + 1, [] => []
  | fuel + 1, b :: rest =>
    (DecodeRune (b :: rest)).1 ::
      decodeTextLoop fuel ((b :: rest).drop (DecodeRune (b :: rest)).2)

/-- The text of the JSON string that `json.Marshal` writes for a Go string: "String
values encode as JSON strings coerced to valid UTF-8, replacing invalid bytes with
the Unicode replacement rune". -/
def jsonText (s : List UInt8) : String :=
  String.mk (decodeTextLoop s.length s)

/-- Go `utf8.AppendRune`: the UTF-8 bytes of a character. -/
def encodeRune (c : Char) : List UInt8 :=
  if c.toNat < 0x80 then [UInt8.ofNat c.toNat]
  else if c.toNat < 0x800 then
    [UInt8.ofNat (0xC0 + c.toNat / 64), UInt8.ofNat (0x80 + c.toNat % 64)]
  else if c.toNat < 0x10000 then
    [UInt8.ofNat (0xE0 + c.toNat / 4096), UInt8.ofNat (0x80 + c.toNat / 64 % 64),
      UInt8.ofNat (0x80 + c.toNat % 64)]
  else
    [UInt8.ofNat (0xF0 + c.toNat / 262144), UInt8.ofNat (0x80 + c.toNat / 4096 % 64),
      UInt8.ofNat (0x80 + c.toNat / 64 % 64), UInt8.ofNat (0x80 + c.toNat % 64)]

/-- The bytes of the Go string that holds a text: its UTF-8 encoding. -/
def goBytes (s : String) : List UInt8 :=
  s.data.flatMap encodeRune

/-- A value of a member of a record in `pins.json`: a whole number or a string. -/
inductive JsonValue where
  | number (n : Int)
  | string (text : String)
  deriving DecidableEq, Repr

/-- A JSON document as far as the pin store writes them: `null`, or an object whose
members are objects of numbers and strings, in the order of the text. -/
inductive JsonDocument where
  | null
  | object (members : List (String × List (String × JsonValue)))
  deriving DecidableEq, Repr

/-- A Go `PinRecord` value with its strings as the bytes they hold. -/
structure PinBytes where
  Slot : Int
  ProjectID : List UInt8
  ProjectPath : List UInt8
  deriving DecidableEq, Repr

/-- The Go value of a record of texts. -/
def PinRecord.bytes (r : PinRecord) : PinBytes :=
  { Slot := r.Slot, ProjectID := goBytes r.ProjectID, ProjectPath := goBytes r.ProjectPath }

/-- The Go value of a map of records of texts. -/
def PinMap.bytes (m : PinMap) : List (Int × PinBytes) :=
  m.entries.map (fun e => (e.1, e.2.bytes))

/-- The order of Go strings, on texts: by the first character that differs, a proper
prefix first. -/
def textLess : List Char → List Char → Bool
  | _, [] => false
  | [], _ :: _ => true
  | a :: as, b :: bs => a.toNat < b.toNat || (a.toNat == b.toNat && textLess as bs)

/-- The JSON object that `json.Marshal` writes for a `PinRecord`, after its struct
tags. -/
def marshalRecord (r : PinBytes) : List (String × JsonValue) :=
  [("slot", .number r.Slot), ("project_id", .string (jsonText r.ProjectID)),
    ("project_path", .string (jsonText r.ProjectPath))]

/-- Go `json.MarshalIndent` on a `map[int]PinRecord`, given by its entries; `none` is
the nil map.  The keys are written with `strconv.FormatInt` and the entries are
sorted by the keys so written, as strings. -/
def MarshalIndent (pins : Option (List (Int × PinBytes))) : JsonDocument :=
  match pins with
  | none => .null
  | some entries =>
    .object ((entries.insertionSort
        (fun a b => textLess (Itoa b.1).data (Itoa a.1).data = false)).map
      (fun e => (Itoa e.1, marshalRecord e.2)))

/-- The folding of a member name by which `encoding/json` matches it with the tag of a
field: a letter of ASCII becomes its capital, and so do the two other characters that
fold to one, U+017F (to `S`) and U+212A (to `K`).  Go folds every other character to
one outside ASCII; it is left as it is here, which makes no difference for the
comparison with a tag of ASCII. -/
def foldName (name : String) : String :=
  String.mk (name.data.map (fun c =>
    if c.toNat = 0x17F then 'S' else if c.toNat = 0x212A then 'K' else c.toUpper))

/-- The decoding of the members of a JSON object into a `PinRecord`, in order: a
member whose name is a struct tag, or folds to the same as one, sets the field of
that tag, where its value has the type of the field; a member of another name is
skipped.  (Go looks for the tag equal to the name first; the three tags fold to three
names, so that the field is the same.) -/
def unmarshalRecord : List (String × JsonValue) → PinBytes → Option PinBytes
  | [], r => some r
  | (name, value) :: rest, r =>
    if foldName name = foldName "slot" then
      match value with
      | .number n =>
        if -(2 ^ 63) ≤ n ∧ n < 2 ^ 63 then unmarshalRecord rest { r with Slot := n }
        else none
      | .string _ => none
    else if foldName name = foldName "project_id" then
      match value with
      | .number _ => none
      | .string text => unmarshalRecord rest { r with ProjectID := goBytes text }
    else if foldName name = foldName "project_path" then
      match value with
      | .number _ => none
      | .string text => unmarshalRecord rest { r with ProjectPath := goBytes text }
    else unmarshalRecord rest r

/-- The decoding of the members of a JSON object into a `map[int]PinRecord`, in
order: the key is read with `strconv.ParseInt` and a member under a key that is
there already takes its place. -/
def unmarshalMembers : List (String × List (String × JsonValue)) →
    List (Int × PinBytes) → Option (List (Int × PinBytes))
  | [], pins => some pins
  | (key, fields) :: rest, pins =>
    match Atoi key, unmarshalRecord fields { Slot := 0, ProjectID := [], ProjectPath := [] } with
    | some slot, some r =>
      unmarshalMembers rest ((slot, r) :: pins.filter (fun e => e.1 != slot))
    | _, _ => none

/-- Go `json.Unmarshal` into a `map[int]PinRecord` that is nil: `null` leaves the nil
map, `none` here; an object makes a map and fills it. -/
def Unmarshal (doc : JsonDocument) : Except PinError (Option (List (Int × PinBytes))) :=
  match doc with
  | .null => .ok none
  | .object members =>
    match unmarshalMembers members [] with
    | none => .error .fileError
    | some pins => .ok (some pins)

/-! ### The pin store on the bytes of its file -/

/-- The state of the file `pins.json`, by the JSON document that its text is. -/
inductive PinsText where
  /-- No such file: `os.ReadFile` fails with an error for which `os.IsNotExist` holds. -/
  | absent
  /-- The file is there and `os.ReadFile` fails with another error. -/
  | unreadable
  /-- The file holds text that is none of the documents below, and that
  `json.Unmarshal` rejects for `map[int]PinRecord`. -/
  | malformed
  /-- The file holds the text of this document. -/
  | document (doc : JsonDocument)
  deriving DecidableEq

/-- LoadPins reads all pinned projects, on the bytes: `none` is the nil map, and a map
is the list of its entries. -/
def Bytes.LoadPins (f : PinsText) : Except PinError (Option (List (Int × PinBytes))) :=
  match f with
  | .absent => .ok (some [])
  | .unreadable => .error .fileError
  | .malformed => .error .fileError
  | .document doc => Unmarshal doc

/-- SavePins writes pinned projects to disk, on the bytes: the file then holds what
`json.MarshalIndent` writes for the map.  Where the file cannot be written
(`os.MkdirAll` or `os.WriteFile` fails) SavePins returns the error; the file is then
taken to be as it was. -/
def Bytes.SavePins (writable : Bool) (f : PinsText) (pins : Option (List (Int × PinBytes))) :
    Except PinError Unit × PinsText :=
  if writable then (.ok (), .document (MarshalIndent pins)) else (.error .fileError, f)

/-- AddPin pins a project to a specific slot (1-5), on the bytes. -/
def Bytes.AddPin (writable : Bool) (f : PinsText) (slot : Int)
    (projectID projectPath : List UInt8) : Except PinError Unit × PinsText :=
  if slot < 1 ∨ slot > 5 then (.error .invalidSlot, f)
  else
    match Bytes.LoadPins f with
    | .error err => (.error err, f)
    | .ok none => (.error .nilMapAssignment, f)
    | .ok (some pins) =>
      Bytes.SavePins writable f (some
        ((slot, { Slot := slot, ProjectID := projectID, ProjectPath := projectPath })
          :: pins.filter (fun e => e.1 != slot)))

/-- GetPin retrieves a pin by slot number, on the bytes. -/
def Bytes.GetPin (f : PinsText) (slot : Int) : Except PinError PinBytes :=
  match Bytes.LoadPins f with
  | .error err => .error err
  | .ok none => .error (.noPinInSlot slot)
  | .ok (some pins) =>
    match pins.find? (fun e => e.1 == slot) with
    | none => .error (.noPinInSlot slot)
    | some e => .ok e.2

/-! ### The access store on the bytes of its strings -/

/-- A Go `AccessRecord` value with its strings as the bytes they hold. -/
structure AccessBytes where
  ProjectID : List UInt8
  ProjectPath : List UInt8
  LastAccessed : Int
  deriving DecidableEq, Repr

/-- The Go value of a record of texts. -/
def AccessRecord.bytes (r : AccessRecord) : AccessBytes :=
  { ProjectID := goBytes r.ProjectID, ProjectPath := goBytes r.ProjectPath,
    LastAccessed := r.LastAccessed }

/-- The order of Go strings, on their bytes: by the first byte that differs, a proper
prefix first. -/
def bytesLess : List UInt8 → List UInt8 → Bool
  | _, [] => false
  | [], _ :: _ => true
  | a :: as, b :: bs => a.toNat < b.toNat || (a.toNat == b.toNat && bytesLess as bs)

/-- The members of the JSON object that `json.MarshalIndent` writes for a
`map[string]AccessRecord`, given by its entries, as `json.Unmarshal` reads them one by
one: the entries are sorted by their keys, as Go strings; a key and the two strings of
a record are written as JSON text, in which a byte that is no UTF-8 becomes U+FFFD;
and the time is written as the text of RFC 3339 with its nanoseconds, which is read
back to the same instant (for the years 0 to 9999, which `time.Time` can write). -/
def marshalAccess (records : List (List UInt8 × AccessBytes)) : List (String × AccessRecord) :=
  (records.insertionSort (fun a b => bytesLess b.1 a.1 = false)).map
    (fun e => (jsonText e.1,
      { ProjectID := jsonText e.2.ProjectID, ProjectPath := jsonText e.2.ProjectPath,
        LastAccessed := e.2.LastAccessed }))

/-- Go `json.Unmarshal` into a `map[string]AccessRecord`, on the members of an object
in the order of the text: a member under a key that is there already takes its
place. -/
def unmarshalAccess (members : List (String × AccessRecord)) : AccessMap :=
  members.foldl (fun m e => m.set e.1 e.2) AccessMap.empty

/-- SaveAccessRecords writes the access tracking file, for a Go map whose strings are
any bytes: the file then holds the JSON object written for the map, by the map that
it decodes to. -/
def Bytes.SaveAccessRecords (env : Env) (f : AccessFile)
    (records : List (List UInt8 × AccessBytes)) : Except AccessError Unit × AccessFile :=
  match env.home with
  | none => (.error .homeDir, f)
  | some _ =>
    if env.writable then (.ok (), .object (unmarshalAccess (marshalAccess records)))
    else (.error .writeFailed, f)

/-- RecordAccess marks a project as accessed now, for a project id and a path that are
any bytes.  The map that LoadAccessRecords returns holds the strings that
`json.Unmarshal` made, which are texts; the assignment puts the new record under the
key that the project id is, as bytes. -/
def Bytes.RecordAccess (env : Env) (now : Int) (f : AccessFile)
    (projectID projectPath : List UInt8) : Except AccessError Unit × AccessFile :=
  match LoadAccessRecords env f with
  | (.error err, f') => (.error err, f')
  | (.ok none, f') => (.error .nilMapAssignment, f')
  | (.ok (some records), f') =>
    Bytes.SaveAccessRecords env f'
      ((projectID,
          { ProjectID := projectID, ProjectPath := projectPath, LastAccessed := now })
        :: (records.entries.map (fun e => (goBytes e.1, e.2.bytes))).filter
            (fun e => e.1 != projectID))

/-! ## `cmd/pin.go` and `cmd/jump.go` -/

/-- Go `strings.ToLower`, for texts whose capital letters are those of ASCII: a capital
letter outside ASCII, which Go maps as well, is left as it is. -/
def ToLower (s : String) : String :=
  String.mk (s.data.map Char.toLower)

/-- Go `filepath.Dir`: all but the last element of the path, cleaned. -/
def Dir (path : String) : String :=
  Clean (String.mk (path.data.reverse.dropWhile (fun c => c != '/')).reverse)

/-- The errors on which a command prints a message and exits with status 1. -/
inductive CommandError where
  /-- The message "Slot must be a number between 1 and 5". -/
  | badSlot
  /-- The message "Project '%s' not found". -/
  | projectNotFound (projectName : String)
  /-- An error of the pin store, printed as it is. -/
  | pinStore (err : PinError)
  /-- The message "Failed to create/switch session: %v". -/
  | sessionFailed (err : SessionError)
  deriving DecidableEq, Repr

/-- The command `pk pin add <project> <slot>`, from the value of `projects` when the
loop starts: the projects that the discovery and the scan of the scratch root found.
The loop takes the first project whose id or name, in lower case, is the argument in
lower case; runArchive, runDelete, runEdit and runRename select with the same loop. -/
def runPinAdd (f : PinsFile) (projects : List Project) (project slotStr : String) :
    Except CommandError Unit × PinsFile :=
  let projectName := ToLower project
  match Atoi slotStr with
  | none => (.error .badSlot, f)
  | some slot =>
    if slot < 1 ∨ slot > 5 then (.error .badSlot, f)
    else
      match projects.find? (fun p =>
          ToLower p.ProjectInfo.ID == projectName || ToLower p.ProjectInfo.Name == projectName) with
      | none => (.error (.projectNotFound projectName), f)
      | some foundProject =>
        match AddPin f slot foundProject.ProjectInfo.ID foundProject.Path with
        | (.error err, f') => (.error (.pinStore err), f')
        | (.ok _, f') => (.ok (), f')

/-- The command `pk pin remove <slot|project>`. -/
def runPinRemove (f : PinsFile) (target : String) : Except CommandError Unit × PinsFile :=
  match Atoi target with
  | some slot =>
    match GetPin f slot with
    | .error err => (.error (.pinStore err), f)
    | .ok _ =>
      match RemovePin f slot with
      | (.error err, f') => (.error (.pinStore err), f')
      | (.ok _, f') => (.ok (), f')
  | none =>
    match RemovePinByProject f target with
    | (.error err, f') => (.error (.pinStore err), f')
    | (.ok _, f') => (.ok (), f')

/-- LoadProject reads a .project.toml file; `decodeFile` is what `toml.DecodeFile`
reads from the file at a path, `none` where it fails. -/
def LoadProject (decodeFile : String → Option (ProjectInfo × TmuxSection)) (path : String) :
    Option (Project × TmuxSection) :=
  match decodeFile path with
  | none => none
  | some (info, tmux) => some ({ Path := Dir path, ProjectInfo := info }, tmux)

/-- The command `pk jump <slot>`: its outcome, the file of the access store and the
calls of `tmux` after it.  `context.Switch`, whose package is not among the sources,
stands between RecordAccess and CreateSession; it sets cloud profiles in the
environment and has no part here. -/
def runJump (env : Env) (now : Int) (t : Terminal)
    (decodeFile : String → Option (ProjectInfo × TmuxSection))
    (pins : PinsFile) (access : AccessFile) (slotStr : String) :
    Except CommandError Unit × AccessFile × List TmuxCommand :=
  match Atoi slotStr with
  | none => (.error .badSlot, access, [])
  | some slot =>
    if slot < 1 ∨ slot > 5 then (.error .badSlot, access, [])
    else
      match GetPin pins slot with
      | .error err => (.error (.pinStore err), access, [])
      | .ok pin =>
        let projectToml := pin.ProjectPath ++ "/.project.toml"
        let (project, tmux) : Project × TmuxSection :=
          match LoadProject decodeFile projectToml with
          | some loaded => loaded
          | none =>
            ({ Path := pin.ProjectPath,
               ProjectInfo :=
                { Name := pin.ProjectID, ID := pin.ProjectID, Status := "active",
                  ProjectType := "" } },
              { Layout := "", Windows := [] })
        let access' := (RecordAccess env now access pin.ProjectID pin.ProjectPath).2
        match CreateSession t [] project tmux with
        | (.error err, calls) => (.error (.sessionFailed err), access', calls)
        | (.ok _, calls) => (.ok (), access', calls)

/-! ## An example state, used to run the definitions -/

/-- A resolver with home directory `/h` and the default roots. -/
def exampleResolver : Resolver :=
  { homeDir := "/h", config := none, projects := "/h/projects", archive := "/h/archive",
    scratch := "/h/scratch", scriptorium := "/h/scriptorium" }

/-- A file system in which the projects root holds the directory `a` and the regular
file `f`, and no other root exists. -/
def exampleFS : FileSystem :=
  FileSystem.ofListing [("/h/projects", [⟨"a", true⟩, ⟨"f", false⟩])] ["/h/notes.txt"]

/-- A configuration that sets three of the four roots. -/
def tildeConfig : Config :=
  { Projects := "~", Archive := "~/work/done", Scratch := "/data/done", Scriptorium := "" }

/-- A resolver with home directory `/home/u` that holds the configuration above. -/
def tildeResolver : Resolver :=
  { homeDir := "/home/u", config := some tildeConfig, projects := "", archive := "",
    scratch := "", scriptorium := "" }

/-- A file system with home `/h`: the projects root holds the directory `Foo`, the
scratch root holds the directory `tmp` and the regular file `notes.txt`. -/
def scratchFS : FileSystem :=
  FileSystem.ofListing
    [("/h", [⟨"projects", true⟩, ⟨"scratch", true⟩]),
     ("/h/projects", [⟨"Foo", true⟩]),
     ("/h/scratch", [⟨"tmp", true⟩, ⟨"notes.txt", false⟩])] []

/-- An environment with home `/h`, no configuration file and the file system in which
project `a` lives under the projects root. -/
def exampleEnv : Env :=
  { home := some "/h", configFile := .absent, fs := exampleFS, writable := true }

/-- The environment above with an access file that cannot be written. -/
def readOnlyEnv : Env :=
  { home := some "/h", configFile := .absent, fs := exampleFS, writable := false }

/-- A file system in which the scratch root holds the directory `p`, and `p` holds the
file `.project.toml` when `present` is set. -/
def tomlFS (present : Bool) : FileSystem :=
  FileSystem.ofListing
    [("/h", [⟨"scratch", true⟩]), ("/h/scratch", [⟨"p", true⟩]),
     ("/h/scratch/p", if present then [⟨".project.toml", false⟩] else [])] []

/-- An access store in which project `a` is recorded under the archive root, where it
no longer is, and project `gone` under a path that no longer exists either. -/
def exampleAccess : AccessMap :=
  ⟨[("a", ⟨"a", "/h/archive/a", 10⟩), ("gone", ⟨"gone", "/h/projects/gone", 20⟩)], by decide⟩

/-- A discovered project with the given id under the projects root of home `/h`. -/
def exampleProject (id : String) : Project :=
  { Path := String.mk ("/h/projects/".data ++ id.data)
    ProjectInfo := { Name := id, ID := id, Status := "active", ProjectType := "" } }

/-- Five discovered projects. -/
def exampleProjects : List Project :=
  [exampleProject "p1", exampleProject "p2", exampleProject "p3", exampleProject "p4",
    exampleProject "p5"]

/-- Access records of three of the five projects: `p2` at time 20, `p4` at time 40 and
`p5` at time 30. -/
def exampleRecent : AccessMap :=
  ⟨[("p2", ⟨"p2", "/h/projects/p2", 20⟩), ("p4", ⟨"p4", "/h/projects/p4", 40⟩),
    ("p5", ⟨"p5", "/h/projects/p5", 30⟩)], by decide⟩

/-- A pin map of two pins, in slots 3 and 1. -/
def examplePins : PinMap :=
  ⟨[(3, ⟨3, "café", "/h/projects/café"⟩), (1, ⟨1, "a", "/h/projects/a"⟩)], by decide⟩

/-- A discovered project whose id has a capital letter. -/
def fooProject : Project :=
  { Path := "/h/projects/Foo"
    ProjectInfo := { Name := "Foo", ID := "Foo", Status := "active", ProjectType := "" } }

/-- A pin store in which slot 1 holds project `a` under the archive root, where it no
longer is. -/
def stalePins : PinsFile :=
  .object ⟨[(1, ⟨1, "a", "/h/archive/a"⟩)], by decide⟩

/-- A terminal inside tmux in which no session exists and every other call succeeds. -/
def freshTerminal : Terminal :=
  { inTmux := true
    run := fun _ cmd =>
      match cmd with
      | .hasSession _ => false
      | _ => true }

/-- The metadata files of the example file system: project `a` has one, in its
directory under the projects root. -/
def exampleToml (path : String) : Option (ProjectInfo × TmuxSection) :=
  if path = "/h/projects/a/.project.toml" then
    some ({ Name := "a", ID := "a", Status := "active", ProjectType := "" },
      { Layout := "", Windows := [] })
  else none

/-- Fourteen discovered projects. -/
def fourteenProjects : List Project :=
  [exampleProject "p01", exampleProject "p02", exampleProject "p03", exampleProject "p04",
    exampleProject "p05", exampleProject "p06", exampleProject "p07", exampleProject "p08",
    exampleProject "p09", exampleProject "p10", exampleProject "p11", exampleProject "p12",
    exampleProject "p13", exampleProject "p14"]

/-- An access store with the record of project `p02` alone. -/
def oneRecord : AccessMap :=
  ⟨[("p02", ⟨"p02", "/h/projects/p02", 20⟩)], by decide⟩

/-! ## Properties of the pin store -/

theorem PinMap.lookup_set_self (m : PinMap) (slot : Int) (rec : PinRecord) :
    (m.set slot rec).lookup slot = some rec := by
  simp [PinMap.set, PinMap.lookup]

theorem PinMap.lookup_eq_none_iff (m : PinMap) (slot : Int) :
    m.lookup slot = none ↔ slot ∉ m.keys := by
  simp only [PinMap.lookup, PinMap.keys, Option.map_eq_none', List.find?_eq_none,
    List.mem_map, not_exists, not_and]
  constructor
  · intro h e he hk
    have := h e he
    simp [hk] at this
  · intro h e he
    have := h e he
    simpa using this

theorem PinMap.lookup_eq_some_iff (m : PinMap) (slot : Int) (rec : PinRecord) :
    m.lookup slot = some rec ↔ (slot, rec) ∈ m.entries := by
  obtain ⟨l, hl⟩ := m
  simp only [PinMap.lookup]
  induction l with
  | nil => simp
  | cons e l ih =>
    obtain ⟨k, v⟩ := e
    have hnd := List.nodup_cons.1 hl
    by_cases hk : k = slot
    · subst hk
      have hnot : (k, rec) ∉ l := fun hmem => hnd.1 (List.mem_map.2 ⟨(k, rec), hmem, rfl⟩)
      simp [List.find?, hnot, eq_comm]
    · have hk2 : (k == slot) = false := by simpa using hk
      have hne : ¬ (slot = k) := fun h => hk h.symm
      simp only [List.find?, hk2, List.mem_cons, Prod.mk.injEq, hne, false_and, false_or]
      exact ih hnd.2

/-- What AddPin does on a store that loads to a map, for a slot in range. -/
theorem AddPin_of_load (f : PinsFile) (m : PinMap) (slot : Int) (a pa : String)
    (hlo : 1 ≤ slot) (hhi : slot ≤ 5) (hload : LoadPins f = .ok (some m)) :
    AddPin f slot a pa = (.ok (), .object (m.set slot ⟨slot, a, pa⟩)) := by
  have hr : ¬ (slot < 1 ∨ slot > 5) := by omega
  simp [AddPin, hr, hload, SavePins]

/-- C2: for a slot below 1 or above 5 AddPin returns the error "slot must be between 1
and 5" and the file of the store is as it was, whatever its state: it is not loaded
and not written. -/
theorem addPin_invalid_slot (f : PinsFile) (slot : Int) (projectID projectPath : String)
    (hslot : slot < 1 ∨ slot > 5) :
    AddPin f slot projectID projectPath = (.error .invalidSlot, f) := by
  simp [AddPin, hslot]

/-- Witness of C2: slot 6 on a store whose file is absent. -/
theorem addPin_invalid_slot_witness :
    ((6 : Int) < 1 ∨ (6 : Int) > 5) ∧
    AddPin .absent 6 "a" "/a" = (.error .invalidSlot, .absent) :=
  ⟨by decide, addPin_invalid_slot .absent 6 "a" "/a" (by decide)⟩

/-- C3: on a store that loads (`pins` is the loaded map, nil or not) and holds no
record under `slot`, RemovePin returns the error "no pin in slot" and the file of the
store is as it was. -/
theorem removePin_empty_slot (f : PinsFile) (pins : Option PinMap) (slot : Int)
    (hload : LoadPins f = .ok pins)
    (hempty : slot ∉ (entriesOf pins).map Prod.fst) :
    RemovePin f slot = (.error (.noPinInSlot slot), f) := by
  cases pins with
  | none => simp [RemovePin, hload]
  | some m =>
    have hnone : m.lookup slot = none := (m.lookup_eq_none_iff slot).2 hempty
    simp [RemovePin, hload, hnone]

/-- Witness of C3: slot 3 of a store that holds slot 1 only. -/
theorem removePin_empty_slot_witness :
    RemovePin (.object ⟨[(1, ⟨1, "a", "/a"⟩)], by decide⟩) 3
      = (.error (.noPinInSlot 3), .object ⟨[(1, ⟨1, "a", "/a"⟩)], by decide⟩) :=
  removePin_empty_slot _ (some ⟨[(1, ⟨1, "a", "/a"⟩)], by decide⟩) 3 rfl (by decide)

/-- The map after the loop of RemovePinByProject: an entry is gone when its key is
the key of a visited entry of the project. -/
theorem removeLoop_entries (projectID : String) (l : List (Int × PinRecord))
    (pins : PinMap) (found : Bool) :
    (removeLoop projectID l (pins, found)).1.entries
      = pins.entries.filter
          (fun e => !(l.any (fun x => x.1 == e.1 && decide (x.2.ProjectID = projectID)))) := by
  induction l generalizing pins found with
  | nil => simp [removeLoop]
  | cons x l ih =>
    obtain ⟨slot, pin⟩ := x
    by_cases hp : pin.ProjectID = projectID
    · simp only [removeLoop, hp, if_true, ih, PinMap.delete, List.filter_filter, List.any_cons,
        decide_True, Bool.and_true]
      apply List.filter_congr
      intro e _
      cases h1 : (slot == e.1) <;> cases h2 : (e.1 != slot) <;> simp_all
    · simp only [removeLoop, hp, if_false, ih, List.any_cons, decide_False, Bool.and_false,
        Bool.false_or]

/-- The flag `found` after the loop of RemovePinByProject. -/
theorem removeLoop_found (projectID : String) (l : List (Int × PinRecord))
    (pins : PinMap) (found : Bool) :
    (removeLoop projectID l (pins, found)).2
      = (found || l.any (fun x => decide (x.2.ProjectID = projectID))) := by
  induction l generalizing pins found with
  | nil => simp [removeLoop]
  | cons x l ih =>
    obtain ⟨slot, pin⟩ := x
    by_cases hp : pin.ProjectID = projectID
    · simp [removeLoop, hp, ih]
    · simp [removeLoop, hp, ih]

/-- Run over the whole map, the loop removes the entries of the project and no other. -/
theorem removeLoop_self (projectID : String) (pins : PinMap) :
    (removeLoop projectID pins.entries (pins, false)).1.entries
      = pins.entries.filter (fun e => decide (e.2.ProjectID ≠ projectID)) := by
  rw [removeLoop_entries]
  apply List.filter_congr
  intro e he
  by_cases hp : e.2.ProjectID = projectID
  · have hany : pins.entries.any
        (fun x => x.1 == e.1 && decide (x.2.ProjectID = projectID)) = true :=
      List.any_eq_true.2 ⟨e, he, by simp [hp]⟩
    simp [hany, hp]
  · have hany : pins.entries.any
        (fun x => x.1 == e.1 && decide (x.2.ProjectID = projectID)) = false := by
      rw [List.any_eq_false]
      intro x hx hcond
      simp only [Bool.and_eq_true, beq_iff_eq, decide_eq_true_eq] at hcond
      have h1 : pins.lookup e.1 = some x.2 :=
        (pins.lookup_eq_some_iff e.1 x.2).2 (by rw [← hcond.1]; exact hx)
      have h2 : pins.lookup e.1 = some e.2 := (pins.lookup_eq_some_iff e.1 e.2).2 he
      rw [h1] at h2
      exact hp (by rw [← Option.some.inj h2]; exact hcond.2)
    simp [hany, hp]

/-- C4: on a store that loads (`pins` is the loaded map, nil or not): when a record
of the project is stored, RemovePinByProject succeeds and the store afterwards holds
the map whose entries are those of `pins` without every entry of that project, in
their order; when none is stored, it returns the error "project is not pinned" and the
file of the store is as it was. -/
theorem removePinByProject_spec (f : PinsFile) (pins : Option PinMap) (projectID : String)
    (hload : LoadPins f = .ok pins) :
    ((∃ e ∈ entriesOf pins, e.2.ProjectID = projectID) →
      ∃ pins', RemovePinByProject f projectID = (.ok (), .object pins') ∧
        pins'.entries
          = (entriesOf pins).filter (fun e => decide (e.2.ProjectID ≠ projectID))) ∧
    ((∀ e ∈ entriesOf pins, e.2.ProjectID ≠ projectID) →
      RemovePinByProject f projectID = (.error (.notPinned projectID), f)) := by
  cases pins with
  | none =>
    refine ⟨?_, fun _ => by simp [RemovePinByProject, hload]⟩
    rintro ⟨e, he, _⟩
    simp [entriesOf] at he
  | some pins =>
    simp only [entriesOf]
    constructor
    · rintro ⟨e, he, hp⟩
      have hfound : (removeLoop projectID pins.entries (pins, false)).2 = true := by
        rw [removeLoop_found]
        simpa using ⟨e.1, e.2, he, hp⟩
      refine ⟨(removeLoop projectID pins.entries (pins, false)).1, ?_, removeLoop_self _ _⟩
      cases hloop : removeLoop projectID pins.entries (pins, false) with
      | mk pins' found =>
        rw [hloop] at hfound
        simp only at hfound
        subst hfound
        simp [RemovePinByProject, hload, hloop, SavePins]
    · intro hnone
      have hfound : (removeLoop projectID pins.entries (pins, false)).2 = false := by
        rw [removeLoop_found]
        simp only [Bool.false_or, List.any_eq_false, decide_eq_true_eq]
        exact fun x hx => hnone x hx
      cases hloop : removeLoop projectID pins.entries (pins, false) with
      | mk pins' found =>
        rw [hloop] at hfound
        simp only at hfound
        subst hfound
        simp [RemovePinByProject, hload, hloop]

/-- Witness of C4: project `a` sits in slots 1 and 4, project `b` in slot 2. -/
theorem removePinByProject_spec_witness :
    ∃ pins', RemovePinByProject
        (.object ⟨[(1, ⟨1, "a", "/a"⟩), (2, ⟨2, "b", "/b"⟩), (4, ⟨4, "a", "/a"⟩)], by decide⟩) "a"
          = (.ok (), .object pins') ∧
      pins'.entries = [(2, ⟨2, "b", "/b"⟩)] :=
  (removePinByProject_spec
    (.object ⟨[(1, ⟨1, "a", "/a"⟩), (2, ⟨2, "b", "/b"⟩), (4, ⟨4, "a", "/a"⟩)], by decide⟩)
    (some ⟨[(1, ⟨1, "a", "/a"⟩), (2, ⟨2, "b", "/b"⟩), (4, ⟨4, "a", "/a"⟩)], by decide⟩)
    "a" rfl).1 ⟨(1, ⟨1, "a", "/a"⟩), by decide, rfl⟩

/-! ### The invariant of the store -/

theorem storeInvariant_absent : StoreInvariant .absent :=
  ⟨PinMap.empty, rfl, by intro e he; simp [PinMap.empty] at he⟩

theorem SlotInvariant.filter {m m' : PinMap} (h : SlotInvariant m) (p : Int × PinRecord → Bool)
    (hm : m'.entries = m.entries.filter p) : SlotInvariant m' := by
  intro e he
  rw [hm] at he
  exact h e (List.mem_filter.1 he).1

theorem storeInvariant_AddPin (f : PinsFile) (slot : Int) (a pa : String)
    (h : StoreInvariant f) : StoreInvariant (AddPin f slot a pa).2 := by
  by_cases hr : slot < 1 ∨ slot > 5
  · simpa [AddPin, hr] using h
  · obtain ⟨m, hload, hinv⟩ := h
    rw [AddPin_of_load f m slot a pa (by omega) (by omega) hload]
    refine ⟨_, rfl, ?_⟩
    intro e he
    simp only [PinMap.set, List.mem_cons] at he
    rcases he with rfl | he
    · exact ⟨by omega, by omega, rfl⟩
    · exact hinv e (List.mem_filter.1 he).1

theorem storeInvariant_RemovePin (f : PinsFile) (slot : Int)
    (h : StoreInvariant f) : StoreInvariant (RemovePin f slot).2 := by
  obtain ⟨m, hload, hinv⟩ := h
  cases hl : m.lookup slot with
  | none =>
    have : (RemovePin f slot).2 = f := by simp [RemovePin, hload, hl]
    rw [this]; exact ⟨m, hload, hinv⟩
  | some rec =>
    have : (RemovePin f slot).2 = .object (m.delete slot) := by
      simp [RemovePin, hload, hl, SavePins]
    rw [this]
    exact ⟨_, rfl, hinv.filter _ rfl⟩

theorem storeInvariant_RemovePinByProject (f : PinsFile) (projectID : String)
    (h : StoreInvariant f) : StoreInvariant (RemovePinByProject f projectID).2 := by
  obtain ⟨m, hload, hinv⟩ := h
  cases hloop : removeLoop projectID m.entries (m, false) with
  | mk pins' found =>
    cases found with
    | false =>
      have : (RemovePinByProject f projectID).2 = f := by
        simp [RemovePinByProject, hload, hloop]
      rw [this]; exact ⟨m, hload, hinv⟩
    | true =>
      have : (RemovePinByProject f projectID).2 = .object pins' := by
        simp [RemovePinByProject, hload, hloop, SavePins]
      rw [this]
      have hent := removeLoop_self projectID m
      rw [hloop] at hent
      exact ⟨_, rfl, hinv.filter _ hent⟩

theorem storeInvariant_ClearPins (f : PinsFile) : StoreInvariant (ClearPins f).2 :=
  ⟨PinMap.empty, rfl, by intro e he; simp [PinMap.empty] at he⟩

theorem storeInvariant_runOps (ops : List PinOp) (f : PinsFile) (h : StoreInvariant f) :
    StoreInvariant (runOps f ops) := by
  induction ops generalizing f with
  | nil => exact h
  | cons op ops ih =>
    simp only [runOps, List.foldl_cons]
    apply ih
    cases op with
    | add slot a pa => exact storeInvariant_AddPin f slot a pa h
    | remove slot => exact storeInvariant_RemovePin f slot h
    | removeByProject projectID => exact storeInvariant_RemovePinByProject f projectID h
    | clear => exact storeInvariant_ClearPins f

theorem storeInvariant_addPins (calls : List (Int × String × String)) (f : PinsFile)
    (h : StoreInvariant f) : StoreInvariant (addPins f calls) := by
  induction calls generalizing f with
  | nil => exact h
  | cons c calls ih =>
    simp only [addPins, List.foldl_cons]
    exact ih _ (storeInvariant_AddPin f c.1 c.2.1 c.2.2 h)

/-- A map with the slot invariant holds at most five entries. -/
theorem SlotInvariant.length_le (m : PinMap) (h : SlotInvariant m) : m.entries.length ≤ 5 := by
  have hsub : m.entries.map Prod.fst ⊆ [1, 2, 3, 4, 5] := by
    intro k hk
    rcases List.mem_map.1 hk with ⟨e, he, rfl⟩
    have := h e he
    have h5 : e.1 = 1 ∨ e.1 = 2 ∨ e.1 = 3 ∨ e.1 = 4 ∨ e.1 = 5 := by omega
    simpa using h5
  have := (List.subperm_of_subset m.nodupKeys hsub).length_le
  simpa using this

/-- The list that ListPins returns for a map: the records sorted by slot. -/
theorem ListPins_of_load (f : PinsFile) (m : PinMap) (hload : LoadPins f = .ok (some m)) :
    ListPins f
      = .ok ((m.entries.map Prod.snd).insertionSort (fun a b => a.Slot ≤ b.Slot)) := by
  simp [ListPins, hload]

/-- In a map with the slot invariant the slot fields of the records are the keys. -/
theorem SlotInvariant.map_slot (m : PinMap) (h : SlotInvariant m) :
    (m.entries.map Prod.snd).map PinRecord.Slot = m.entries.map Prod.fst := by
  rw [List.map_map]
  apply List.map_congr_left
  intro e he
  exact (h e he).2.2

/-- The sorted list of the records of a map with the slot invariant ascends strictly. -/
theorem SlotInvariant.sorted_strict (m : PinMap) (h : SlotInvariant m) :
    ((m.entries.map Prod.snd).insertionSort (fun a b => a.Slot ≤ b.Slot)).Pairwise
      (fun a b => a.Slot < b.Slot) := by
  haveI : IsTotal PinRecord (fun a b => a.Slot ≤ b.Slot) := ⟨fun a b => le_total a.Slot b.Slot⟩
  haveI : IsTrans PinRecord (fun a b => a.Slot ≤ b.Slot) :=
    ⟨fun a b c hab hbc => le_trans hab hbc⟩
  have hsorted := List.sorted_insertionSort (fun a b : PinRecord => a.Slot ≤ b.Slot)
    (m.entries.map Prod.snd)
  have hperm := List.perm_insertionSort (fun a b : PinRecord => a.Slot ≤ b.Slot)
    (m.entries.map Prod.snd)
  have hnodup : (((m.entries.map Prod.snd).insertionSort
      (fun a b => a.Slot ≤ b.Slot)).map PinRecord.Slot).Nodup := by
    rw [(hperm.map PinRecord.Slot).nodup_iff, h.map_slot]
    exact m.nodupKeys
  have hle : (((m.entries.map Prod.snd).insertionSort
      (fun a b => a.Slot ≤ b.Slot)).map PinRecord.Slot).Sorted (· ≤ ·) :=
    List.pairwise_map.2 hsorted
  exact List.pairwise_map.1 (hle.lt_of_le hnodup)

/-- C5: the store built from no file by any sequence of AddPin calls loads to a map,
and ListPins returns a list of its records that ascends strictly by slot, is a
rearrangement of the records of the map, has no record twice, and holds a record
exactly when GetPin returns it for its slot; pinning slots 3, 1 and 5 in this order
lists slots 1, 3, 5. -/
theorem listPins_sorted (calls : List (Int × String × String)) :
    (∃ m l, LoadPins (addPins .absent calls) = .ok (some m) ∧
      ListPins (addPins .absent calls) = .ok l ∧
      l.Pairwise (fun a b => a.Slot < b.Slot) ∧
      l.Perm (m.entries.map Prod.snd) ∧
      l.Nodup ∧
      ∀ rec, rec ∈ l ↔ GetPin (addPins .absent calls) rec.Slot = .ok rec) ∧
    (∀ a pa b pb c pc : String,
      ListPins (addPins .absent [(3, a, pa), (1, b, pb), (5, c, pc)])
        = .ok [⟨1, b, pb⟩, ⟨3, a, pa⟩, ⟨5, c, pc⟩]) := by
  refine ⟨?_, fun a pa b pb c pc => rfl⟩
  obtain ⟨m, hload, hinv⟩ := storeInvariant_addPins calls .absent storeInvariant_absent
  have hstrict := hinv.sorted_strict
  have hperm := List.perm_insertionSort (fun a b : PinRecord => a.Slot ≤ b.Slot)
    (m.entries.map Prod.snd)
  refine ⟨m, _, hload, ListPins_of_load _ m hload, hstrict, hperm, ?_, ?_⟩
  · exact (hstrict.imp (fun hlt => by
      intro heq
      rw [heq] at hlt
      exact lt_irrefl _ hlt))
  · intro rec
    rw [hperm.mem_iff]
    constructor
    · intro hmem
      rcases List.mem_map.1 hmem with ⟨e, he, rfl⟩
      have hk : e.2.Slot = e.1 := (hinv e he).2.2
      have hl : m.lookup e.2.Slot = some e.2 :=
        (m.lookup_eq_some_iff _ _).2 (by rw [hk]; exact he)
      simp [GetPin, hload, hl]
    · intro hget
      cases hl : m.lookup rec.Slot with
      | none => simp [GetPin, hload, hl] at hget
      | some pin =>
        simp only [GetPin, hload, hl, Except.ok.injEq] at hget
        subst hget
        exact List.mem_map.2 ⟨_, (m.lookup_eq_some_iff _ _).1 hl, rfl⟩

/-- C6: whatever the store held, ClearPins succeeds, ListPins then returns the empty
list, and a second ClearPins succeeds and leaves the same empty store. -/
theorem clearPins_spec (f : PinsFile) :
    (ClearPins f).1 = .ok () ∧
    ListPins (ClearPins f).2 = .ok [] ∧
    ClearPins (ClearPins f).2 = (.ok (), (ClearPins f).2) ∧
    (ClearPins f).2 = .object PinMap.empty := by
  refine ⟨rfl, rfl, rfl, rfl⟩

/-- C7: after any sequence of AddPin, RemovePin, RemovePinByProject and ClearPins
calls on a store that starts empty (no file, or the file of an empty map), each call
succeeding or failing, the store loads to a map in which every key is a slot from 1 to
5 and is the slot field of its record, no key occurs twice, and there are at most 5
records. -/
theorem store_invariant (f₀ : PinsFile) (ops : List PinOp)
    (hstart : f₀ = .absent ∨ f₀ = .object PinMap.empty) :
    ∃ m, LoadPins (runOps f₀ ops) = .ok (some m) ∧
      (∀ e ∈ m.entries, 1 ≤ e.1 ∧ e.1 ≤ 5 ∧ e.2.Slot = e.1) ∧
      (m.entries.map Prod.fst).Nodup ∧
      (∀ slot a b, (slot, a) ∈ m.entries → (slot, b) ∈ m.entries → a = b) ∧
      m.entries.length ≤ 5 := by
  have h0 : StoreInvariant f₀ := by
    rcases hstart with rfl | rfl
    · exact storeInvariant_absent
    · exact ⟨PinMap.empty, rfl, by intro e he; simp [PinMap.empty] at he⟩
  obtain ⟨m, hload, hinv⟩ := storeInvariant_runOps ops f₀ h0
  refine ⟨m, hload, hinv, m.nodupKeys, ?_, hinv.length_le⟩
  intro slot a b ha hb
  have h1 := (m.lookup_eq_some_iff slot a).2 ha
  have h2 := (m.lookup_eq_some_iff slot b).2 hb
  rw [h1] at h2
  exact Option.some.inj h2

/-- Witness of C7: six calls, two of them failing, from a store without a file. -/
theorem store_invariant_witness :
    ∃ m, LoadPins (runOps .absent
        [.add 3 "c" "/c", .add 9 "x" "/x", .add 1 "a" "/a", .remove 2, .add 3 "d" "/d",
          .removeByProject "a"]) = .ok (some m) ∧
      (∀ e ∈ m.entries, 1 ≤ e.1 ∧ e.1 ≤ 5 ∧ e.2.Slot = e.1) ∧
      (m.entries.map Prod.fst).Nodup ∧
      (∀ slot a b, (slot, a) ∈ m.entries → (slot, b) ∈ m.entries → a = b) ∧
      m.entries.length ≤ 5 :=
  store_invariant .absent _ (Or.inl rfl)

/-! ## Properties of path healing -/

/-- The only error of FindProject is "project not found", for the id it was given. -/
theorem FindProject_error (r : Resolver) (fs : FileSystem) (projectID : String)
    (err : PathError) (h : r.FindProject fs projectID = .error err) :
    err = .notFound projectID := by
  unfold Resolver.FindProject at h
  split at h
  · cases h
  · simp only at h
    split at h
    · cases h
    · cases h; rfl

/-- What ValidatePath returns when Stat finds the cached path. -/
theorem ValidatePath_of_stat (r : Resolver) (fs : FileSystem) (projectID cachedPath : String)
    (isDir : Bool) (h : fs.Stat cachedPath = .ok isDir) :
    r.ValidatePath fs projectID cachedPath = .ok (cachedPath, false) := by
  simp [Resolver.ValidatePath, h]

/-- What ValidatePath returns when Stat fails on the cached path. -/
theorem ValidatePath_of_stale (r : Resolver) (fs : FileSystem) (projectID cachedPath : String)
    (h : ∀ isDir, fs.Stat cachedPath ≠ .ok isDir) :
    r.ValidatePath fs projectID cachedPath =
      match r.FindProject fs projectID with
      | .error err => .error err
      | .ok newPath => .ok (newPath, true) := by
  unfold Resolver.ValidatePath
  split
  · next isDir hstat => exact absurd hstat (h isDir)
  · rfl

/-- C8: when the cached path exists (Stat returns no error), ValidatePath returns the
cached path itself with healed = false and no error, for every resolver and every
project id: the result does not depend on what FindProject would return. -/
theorem validatePath_existing (r : Resolver) (fs : FileSystem)
    (projectID cachedPath : String) (isDir : Bool)
    (hexists : fs.Stat cachedPath = .ok isDir) :
    r.ValidatePath fs projectID cachedPath = .ok (cachedPath, false) ∧
    ∀ (r' : Resolver) (projectID' : String),
      r'.ValidatePath fs projectID' cachedPath = r.ValidatePath fs projectID cachedPath := by
  refine ⟨ValidatePath_of_stat r fs projectID cachedPath isDir hexists, fun r' id' => ?_⟩
  rw [ValidatePath_of_stat r fs projectID cachedPath isDir hexists,
    ValidatePath_of_stat r' fs id' cachedPath isDir hexists]

/-- Witness of C8: the cached path of project `zzz`, which no root holds, exists. -/
theorem validatePath_existing_witness :
    exampleFS.Stat "/h/projects/a" = .ok true ∧
    exampleResolver.ValidatePath exampleFS "zzz" "/h/projects/a"
      = .ok ("/h/projects/a", false) :=
  ⟨by decide,
    (validatePath_existing exampleResolver exampleFS "zzz" "/h/projects/a" true (by decide)).1⟩

/-- C9: when Stat fails on the cached path, ValidatePath returns the path of
FindProject with healed = true when FindProject succeeds; it fails exactly when
FindProject fails, and then with the error "project not found"; and every result it
returns without error is healed and carries the path that FindProject returned. -/
theorem validatePath_stale (r : Resolver) (fs : FileSystem) (projectID cachedPath : String)
    (hstale : ∀ isDir, fs.Stat cachedPath ≠ .ok isDir) :
    (∀ p, r.FindProject fs projectID = .ok p →
      r.ValidatePath fs projectID cachedPath = .ok (p, true)) ∧
    ((∃ err, r.ValidatePath fs projectID cachedPath = .error err) ↔
      (∃ err, r.FindProject fs projectID = .error err)) ∧
    (∀ err, r.ValidatePath fs projectID cachedPath = .error err →
      err = .notFound projectID) ∧
    (∀ p healed, r.ValidatePath fs projectID cachedPath = .ok (p, healed) →
      healed = true ∧ r.FindProject fs projectID = .ok p) := by
  rw [ValidatePath_of_stale r fs projectID cachedPath hstale]
  cases hfind : r.FindProject fs projectID with
  | error err =>
    have herr := FindProject_error r fs projectID err hfind
    refine ⟨fun p hp => (by cases hp), ⟨fun _ => ⟨err, rfl⟩, fun _ => ⟨err, rfl⟩⟩, ?_, ?_⟩
    · intro err' h
      cases h
      exact herr
    · intro p healed h
      cases h
  | ok newPath =>
    refine ⟨fun p hp => (by cases hp; rfl), ⟨?_, ?_⟩, ?_, ?_⟩
    · rintro ⟨err, h⟩
      cases h
    · rintro ⟨err, h⟩
      cases h
    · intro err h
      cases h
    · intro p healed h
      cases h
      exact ⟨rfl, rfl⟩

/-- Witness of C9: project `a` was cached under the archive root and lives under the
projects root. -/
theorem validatePath_stale_witness :
    (∀ isDir, exampleFS.Stat "/h/archive/a" ≠ .ok isDir) ∧
    exampleResolver.FindProject exampleFS "a" = .ok "/h/projects/a" ∧
    exampleResolver.ValidatePath exampleFS "a" "/h/archive/a" = .ok ("/h/projects/a", true) :=
  ⟨by decide, by decide,
    (validatePath_stale exampleResolver exampleFS "a" "/h/archive/a" (by decide)).1
      "/h/projects/a" (by decide)⟩

theorem scanEntries_eq (root id : String) (entries : List DirEntry) :
    scanEntries root id entries
      = if entries.any (fun e => e.IsDir && decide (e.Name = id)) then some (Join root id)
        else none := by
  induction entries with
  | nil => simp [scanEntries]
  | cons e rest ih =>
    by_cases hd : e.IsDir = true
    · by_cases hn : e.Name = id
      · simp [scanEntries, hd, hn]
      · simp [scanEntries, hd, hn, ih]
    · simp [scanEntries, hd, ih]

theorem scanRoots_eq (fs : FileSystem) (id : String) (roots : List String) :
    scanRoots fs id roots
      = (roots.find? (fun root => hasSubdir fs root id)).map (fun root => Join root id) := by
  induction roots with
  | nil => simp [scanRoots]
  | cons root roots ih =>
    unfold scanRoots
    by_cases hs : fs.Stat root = .notExist
    · simp [hs, ih, hasSubdir, List.find?]
    · cases hr : fs.ReadDir root with
      | none => simp [hs, hr, ih, hasSubdir, List.find?]
      | some entries =>
        by_cases hany : entries.any (fun e => e.IsDir && decide (e.Name = id)) = true
        · simp [hs, hr, hasSubdir, List.find?, scanEntries_eq, hany]
        · simp [hs, hr, ih, hasSubdir, List.find?, scanEntries_eq, hany]

/-- C11: FindProject is the reference lookup: roots in the order projects, archive,
library, a root that does not exist or cannot be read skipped, `root/id` for the first
root with an immediate subdirectory named `id`, else `scratch/id` when it exists, else
"project not found".  So the projects root wins over the archive root, and when a root
has the subdirectory the answer is the same whatever the scratch root is. -/
theorem findProject_eq_reference (r : Resolver) (fs : FileSystem) (id : String) :
    r.FindProject fs id = findProjectReference r fs id ∧
    (hasSubdir fs r.projects id = true → r.FindProject fs id = .ok (Join r.projects id)) ∧
    ((hasSubdir fs r.projects id = true ∨ hasSubdir fs r.archive id = true ∨
        hasSubdir fs r.scriptorium id = true) →
      ∀ scratch', { r with scratch := scratch' }.FindProject fs id = r.FindProject fs id) := by
  have heq : ∀ r' : Resolver, r'.FindProject fs id = findProjectReference r' fs id := by
    intro r'
    unfold Resolver.FindProject findProjectReference
    rw [scanRoots_eq]
    simp only [Resolver.AllRoots]
    cases [r'.projects, r'.archive, r'.scriptorium].find? (fun root => hasSubdir fs root id) with
    | none => rfl
    | some root => rfl
  refine ⟨heq r, ?_, ?_⟩
  · intro h
    rw [heq r]
    simp [findProjectReference, List.find?, h]
  · intro h scratch'
    rw [heq r, heq]
    simp only [findProjectReference]
    cases hfind : [r.projects, r.archive, r.scriptorium].find?
        (fun root => hasSubdir fs root id) with
    | some root => rfl
    | none =>
      exfalso
      have hnone := List.find?_eq_none.1 hfind
      rcases h with h | h | h
      · exact hnone r.projects (by simp) h
      · exact hnone r.archive (by simp) h
      · exact hnone r.scriptorium (by simp) h

/-! ## The last element of a joined path -/

theorem splitPath_ne_nil (l : List Char) : splitPath l ≠ [] := by
  cases l with
  | nil => simp [splitPath]
  | cons c cs =>
    by_cases hc : c = '/'
    · simp [splitPath, hc]
    · simp only [splitPath, hc, if_false]
      split <;> simp

theorem splitPath_append_slash (a b : List Char) :
    splitPath (a ++ '/' :: b) = splitPath a ++ splitPath b := by
  induction a with
  | nil => simp [splitPath]
  | cons c cs ih =>
    by_cases hc : c = '/'
    · simp [splitPath, hc, ih]
    · cases hs : splitPath cs with
      | nil => exact absurd hs (splitPath_ne_nil cs)
      | cons x xs =>
        simp only [List.cons_append, splitPath, hc, if_false]
        have happ : cs.append ('/' :: b) = cs ++ '/' :: b := rfl
        rw [happ, ih, hs]
        rfl

theorem splitPath_of_no_slash (x : List Char) (h : '/' ∉ x) : splitPath x = [x] := by
  induction x with
  | nil => simp [splitPath]
  | cons c cs ih =>
    have hc : c ≠ '/' := fun hc => h (by simp [hc])
    have hcs : '/' ∉ cs := fun hm => h (List.mem_cons_of_mem _ hm)
    simp [splitPath, hc, ih hcs]

theorem intercalate_concat (sep : List Char) (l : List (List Char)) (x : List Char) :
    List.intercalate sep (l ++ [x])
      = if l = [] then x else List.intercalate sep l ++ sep ++ x := by
  induction l with
  | nil => simp [List.intercalate, List.intersperse]
  | cons y ys ih =>
    cases ys with
    | nil => simp [List.intercalate, List.intersperse]
    | cons z zs =>
      simp only [List.intercalate, List.cons_append, List.intersperse, List.flatten_cons,
        List.append_assoc, reduceCtorEq, if_false] at ih ⊢
      have happ : zs.append [x] = zs ++ [x] := rfl
      rw [happ, ih]

/-- What Clean writes for a path whose last element is a single path element: the
element, after nothing or after text that ends in a separator. -/
theorem Clean_data_of_last (s : List Char) (pre : List (List Char)) (x : String)
    (hx : isElement x) (hsplit : splitPath s = pre ++ [x.data]) :
    ∃ P : List Char, (Clean (String.mk s)).data = P ++ x.data ∧
      (P = [] ∨ ∃ P', P = P' ++ ['/']) := by
  obtain ⟨hne, hslash, hdot, hdotdot⟩ := hx
  have hs : s ≠ [] := by
    intro h
    subst h
    simp only [splitPath] at hsplit
    cases pre with
    | nil => simp at hsplit; exact hne hsplit
    | cons p ps => cases ps <;> simp at hsplit
  have helem : ∀ rooted out, cleanElem rooted out x.data = x.data :: out := by
    intro rooted out
    simp [cleanElem, hne, hdot, hdotdot]
  unfold Clean
  simp only [hs, if_false, hsplit, List.foldl_append, List.foldl_cons, List.foldl_nil, helem,
    List.reverse_cons, intercalate_concat]
  generalize (List.foldl (cleanElem (decide (s.head? = some '/'))) [] pre).reverse = O
  generalize decide (s.head? = some '/') = R
  cases R <;> by_cases hO : O = []
  · refine ⟨[], ?_, Or.inl rfl⟩
    simp [hO, hne]
  · refine ⟨List.intercalate ['/'] O ++ ['/'], ?_, Or.inr ⟨_, rfl⟩⟩
    simp [hO]
  · refine ⟨['/'], ?_, Or.inr ⟨[], rfl⟩⟩
    simp [hO]
  · refine ⟨'/' :: (List.intercalate ['/'] O ++ ['/']), ?_, Or.inr ⟨'/' :: List.intercalate ['/'] O, rfl⟩⟩
    simp [hO]

/-- The last element of a text that ends in a single path element is that element. -/
theorem Base_of_last (P : List Char) (x : String) (hx : isElement x)
    (hP : P = [] ∨ ∃ P', P = P' ++ ['/']) : Base (String.mk (P ++ x.data)) = x := by
  obtain ⟨hne, hslash, _, _⟩ := hx
  have hall : ∀ c ∈ x.data.reverse, c ≠ '/' := by
    intro c hc hc'
    exact hslash (by rw [← hc']; exact List.mem_reverse.1 hc)
  obtain ⟨c, cs, hrev⟩ : ∃ c cs, x.data.reverse = c :: cs := by
    cases h : x.data.reverse with
    | nil => exact absurd (List.reverse_eq_nil_iff.1 h) hne
    | cons c cs => exact ⟨c, cs, rfl⟩
  have hc : c ≠ '/' := hall c (by rw [hrev]; exact List.mem_cons_self _ _)
  have hdata : (P ++ x.data) ≠ [] := by simp [hne]
  have hdrop : (P ++ x.data).reverse.dropWhile (fun c => decide (c = '/'))
      = x.data.reverse ++ P.reverse := by
    rw [List.reverse_append, hrev]
    simp [List.dropWhile, hc]
  have htake : (x.data.reverse ++ P.reverse).takeWhile (fun c => decide (c ≠ '/'))
      = x.data.reverse := by
    rcases hP with rfl | ⟨P', rfl⟩
    · simp only [List.reverse_nil, List.append_nil]
      exact List.takeWhile_eq_self_iff.2 (fun c hc => by simpa using hall c hc)
    · rw [List.reverse_append, List.reverse_singleton, List.singleton_append]
      rw [List.takeWhile_append_of_pos (fun c hc => by simpa using hall c hc)]
      simp [List.takeWhile]
  unfold Base
  simp only [hdata, if_false, hdrop, htake, List.reverse_reverse]
  have hnil : ¬ (x.data.reverse ++ P.reverse = []) := by simp [hne]
  simp [hnil]

/-- The last element of a path joined from a root and a single path element is that
element. -/
theorem Base_Join (root x : String) (hx : isElement x) : Base (Join root x) = x := by
  have hne : x.data ≠ [] := hx.1
  have hsx : splitPath x.data = [x.data] := splitPath_of_no_slash _ hx.2.1
  have key : ∀ s pre, splitPath s = pre ++ [x.data] → Base (Clean (String.mk s)) = x := by
    intro s pre hsplit
    obtain ⟨P, hdata, hP⟩ := Clean_data_of_last s pre x hx hsplit
    have : Clean (String.mk s) = String.mk (P ++ x.data) := by
      rw [← hdata]
    rw [this]
    exact Base_of_last P x hx hP
  unfold Join
  by_cases hr : root.data = []
  · simp only [hr, ne_eq, not_true_eq_false, if_false, hne, not_false_eq_true, if_true]
    exact key x.data [] (by simpa using hsx)
  · simp only [hr, ne_eq, not_false_eq_true, if_true]
    exact key _ (splitPath root.data) (by rw [splitPath_append_slash, hsx])

/-- Paths joined from single path elements that differ are different paths. -/
theorem Join_ne_of_ne (a b x y : String) (hx : isElement x) (hy : isElement y)
    (hne : x ≠ y) : Join a x ≠ Join b y := by
  intro h
  apply hne
  rw [← Base_Join a x hx, ← Base_Join b y hy, h]

/-! ## What FindProject returns -/

/-- The two ways in which FindProject returns a path. -/
theorem FindProject_ok_cases (r : Resolver) (fs : FileSystem) (id p : String)
    (h : r.FindProject fs id = .ok p) :
    (∃ root ∈ r.AllRoots, hasSubdir fs root id = true ∧ p = Join root id) ∨
    ((∀ root ∈ r.AllRoots, hasSubdir fs root id = false) ∧ p = Join r.scratch id ∧
      ∃ isDir, fs.Stat p = .ok isDir) := by
  unfold Resolver.FindProject at h
  rw [scanRoots_eq] at h
  cases hfind : r.AllRoots.find? (fun root => hasSubdir fs root id) with
  | some root =>
    simp only [hfind, Option.map_some', Except.ok.injEq] at h
    exact Or.inl ⟨root, List.mem_of_find?_eq_some hfind, by simpa using List.find?_some hfind,
      h.symm⟩
  | none =>
    simp only [hfind, Option.map_none'] at h
    have hnone := List.find?_eq_none.1 hfind
    split at h
    · next isDir hstat =>
      cases h
      exact Or.inr ⟨fun root hroot => by simpa using hnone root hroot, rfl, isDir, hstat⟩
    · cases h

/-- C13, as amended: when no scanned root lists a directory named exactly `id`, the
answer is that of the scratch path alone; for an `id` that is a single path element,
FindProject never returns the joined path of an entry whose name, a single path
element too, differs from `id`; and the answer is the same in two file systems that
agree on Stat and ReadDir of the three roots and on Stat of `scratch/id`: a
`.project.toml` has a part in the answer through these calls only. -/
theorem findProject_exact_name (r : Resolver) (fs : FileSystem) (id : String) :
    ((∀ root ∈ [r.projects, r.archive, r.scriptorium], hasSubdir fs root id = false) →
      r.FindProject fs id =
        match fs.Stat (Join r.scratch id) with
        | .ok _ => .ok (Join r.scratch id)
        | _ => .error (.notFound id)) ∧
    (isElement id → ∀ root name, isElement name → name ≠ id →
      r.FindProject fs id ≠ .ok (Join root name)) ∧
    (∀ fs' : FileSystem,
      (∀ root ∈ [r.projects, r.archive, r.scriptorium],
        fs'.Stat root = fs.Stat root ∧ fs'.ReadDir root = fs.ReadDir root) →
      fs'.Stat (Join r.scratch id) = fs.Stat (Join r.scratch id) →
      r.FindProject fs' id = r.FindProject fs id) := by
  refine ⟨?_, ?_, ?_⟩
  · intro hnone
    have hfind : [r.projects, r.archive, r.scriptorium].find?
        (fun root => hasSubdir fs root id) = none :=
      List.find?_eq_none.2 (fun root hroot => by simp [hnone root hroot])
    unfold Resolver.FindProject
    rw [scanRoots_eq]
    simp only [Resolver.AllRoots, hfind, Option.map_none']
  · intro hid root name hname hne hret
    rcases FindProject_ok_cases r fs id _ hret with ⟨root', _, _, hp⟩ | ⟨_, hp, _⟩
    · exact Join_ne_of_ne root root' name id hname hid hne hp
    · exact Join_ne_of_ne root r.scratch name id hname hid hne hp
  · intro fs' hroots hscratch
    have hsub : ∀ root ∈ [r.projects, r.archive, r.scriptorium],
        hasSubdir fs' root id = hasSubdir fs root id := by
      intro root hroot
      simp only [hasSubdir, (hroots root hroot).1, (hroots root hroot).2]
    have hfind : [r.projects, r.archive, r.scriptorium].find?
          (fun root => hasSubdir fs' root id)
        = [r.projects, r.archive, r.scriptorium].find? (fun root => hasSubdir fs root id) := by
      simp only [List.find?, hsub r.projects (by simp), hsub r.archive (by simp),
        hsub r.scriptorium (by simp)]
    unfold Resolver.FindProject
    rw [scanRoots_eq, scanRoots_eq]
    simp only [Resolver.AllRoots, hfind, hscratch]

/-- Witness of C13, as amended: the id `foo` where the projects root holds `Foo`. -/
theorem findProject_exact_name_witness :
    isElement "foo" ∧ isElement "Foo" ∧
    exampleResolver.FindProject scratchFS "foo" ≠ .ok (Join "/h/projects" "Foo") ∧
    exampleResolver.FindProject scratchFS "foo" = .error (.notFound "foo") :=
  ⟨by decide, by decide,
    (findProject_exact_name exampleResolver scratchFS "foo").2.1 (by decide) "/h/projects" "Foo"
      (by decide) (by decide),
    by decide⟩

/-- C13 fails as stated: no directory under the four roots is named `tmp/`, and
FindProject of the id `tmp/` returns the directory `tmp` of the scratch root; none is
named `../projects/Foo`, and FindProject of that id returns the directory `Foo` of the
projects root; and FindProject of the id `p/.project.toml` succeeds when the directory
`p` of the scratch root holds that file and fails when it does not. -/
theorem findProject_name_counterexample :
    (∀ root ∈ [exampleResolver.projects, exampleResolver.archive, exampleResolver.scriptorium,
        exampleResolver.scratch],
      ∀ e ∈ (scratchFS.ReadDir root).getD [], e.Name ≠ "tmp/") ∧
    (⟨"tmp", true⟩ : DirEntry) ∈ (scratchFS.ReadDir exampleResolver.scratch).getD [] ∧
    exampleResolver.FindProject scratchFS "tmp/"
      = .ok (Join exampleResolver.scratch "tmp") ∧
    (∀ root ∈ [exampleResolver.projects, exampleResolver.archive, exampleResolver.scriptorium,
        exampleResolver.scratch],
      ∀ e ∈ (scratchFS.ReadDir root).getD [], e.Name ≠ "../projects/Foo") ∧
    (⟨"Foo", true⟩ : DirEntry) ∈ (scratchFS.ReadDir exampleResolver.projects).getD [] ∧
    exampleResolver.FindProject scratchFS "../projects/Foo"
      = .ok (Join exampleResolver.projects "Foo") ∧
    exampleResolver.FindProject (tomlFS true) "p/.project.toml"
      = .ok "/h/scratch/p/.project.toml" ∧
    exampleResolver.FindProject (tomlFS false) "p/.project.toml"
      = .error (.notFound "p/.project.toml") := by
  decide

/-! ## Construction of the resolver -/

theorem String.data_ne_nil {s : String} (h : s ≠ "") : s.data ≠ [] := by
  intro hd
  apply h
  cases s
  simp only at hd
  subst hd
  rfl

/-- The value that resolvePath returns; it never panics. -/
theorem resolvePath_eq (r : Resolver) (name defaultPath : String) :
    r.resolvePath name defaultPath = .ok
      (match r.config with
       | none => defaultPath
       | some cfg =>
         if cfg.configured name = "" then defaultPath
         else expandTilde r.homeDir (cfg.configured name)) := by
  unfold Resolver.resolvePath
  cases r.config with
  | none => rfl
  | some cfg =>
    simp only
    by_cases he : cfg.configured name = ""
    · simp [he]
    · simp only [he, if_false]
      cases hd : (cfg.configured name).data with
      | nil => exact absurd hd (String.data_ne_nil he)
      | cons c rest =>
        by_cases hc : c = '~'
        · subst hc
          simp [expandTilde, hd]
        · simp only [hc, if_false, expandTilde, hd]
          split
          · next rest' heq =>
            simp only [List.cons.injEq] at heq
            exact absurd heq.1 hc
          · rfl

/-- The resolver that NewResolver builds when the home directory is known. -/
theorem NewResolver_eq (home : String) (configFile : ConfigFile) :
    NewResolver (some home) configFile = .ok
      { homeDir := home
        config := match configFile with
          | .decoded cfg => some cfg
          | _ => none
        projects := expectedRoot home configFile "projects"
        archive := expectedRoot home configFile "archive"
        scratch := expectedRoot home configFile "scratch"
        scriptorium := expectedRoot home configFile "scriptorium" } := by
  unfold NewResolver
  simp only [resolvePath_eq]
  cases configFile <;> simp [expectedRoot]

/-- C15: for a resolver with a configuration, a configured value that begins with `~`
resolves to the home directory joined with what follows the `~`; a configured value
that is not empty and does not begin with `~` is returned as it is; and resolvePath,
with or without a configuration, never reaches the indexing of an empty string. -/
theorem resolvePath_tilde (r : Resolver) (name defaultPath : String) :
    (∀ cfg rest, r.config = some cfg → (cfg.configured name).data = '~' :: rest →
      r.resolvePath name defaultPath = .ok (Join r.homeDir (String.mk rest))) ∧
    (∀ cfg, r.config = some cfg → cfg.configured name ≠ "" →
      (cfg.configured name).data.head? ≠ some '~' →
      r.resolvePath name defaultPath = .ok (cfg.configured name)) ∧
    r.resolvePath name defaultPath ≠ .error .indexOutOfRange ∧
    (∃ path, r.resolvePath name defaultPath = .ok path) := by
  refine ⟨?_, ?_, ?_, ⟨_, resolvePath_eq r name defaultPath⟩⟩
  · intro cfg rest hcfg hd
    have hne : cfg.configured name ≠ "" := by
      intro he
      rw [he] at hd
      cases hd
    rw [resolvePath_eq, hcfg]
    simp [hne, expandTilde, hd]
  · intro cfg hcfg hne hhead
    rw [resolvePath_eq, hcfg]
    simp only [hne, if_false, expandTilde]
    split
    · next rest heq =>
      rw [heq] at hhead
      exact absurd rfl hhead
    · rfl
  · rw [resolvePath_eq]
    intro h
    cases h

/-- Witness of C15: with home `/home/u`, the value `~/work/done` resolves to
`/home/u/work/done`, the value `~` to `/home/u`, and `/data/done` to itself. -/
theorem resolvePath_tilde_witness :
    tildeResolver.resolvePath "archive" "/d" = .ok "/home/u/work/done" ∧
    tildeResolver.resolvePath "projects" "/d" = .ok "/home/u" ∧
    tildeResolver.resolvePath "scratch" "/d" = .ok "/data/done" :=
  ⟨(resolvePath_tilde tildeResolver "archive" "/d").1 tildeConfig "/work/done".data rfl
      (by decide),
    (resolvePath_tilde tildeResolver "projects" "/d").1 tildeConfig [] rfl (by decide),
    (resolvePath_tilde tildeResolver "scratch" "/d").2.1 tildeConfig rfl (by decide)
      (by decide)⟩

/-- C16: with the home directory known and a configuration file that fails to decode,
NewResolver returns without error the resolver with the four default roots, the one
that Default returns; and whatever the state of the configuration file NewResolver
returns a resolver: it fails only when the home directory is not known. -/
theorem newResolver_malformed (home : String) :
    NewResolver (some home) .malformed
      = .ok { homeDir := home, config := none, projects := Join home "projects",
              archive := Join home "archive", scratch := Join home "scratch",
              scriptorium := Join home "scriptorium" } ∧
    NewResolver (some home) .malformed = Default (some home) ∧
    (∀ configFile, ∃ r, NewResolver (some home) configFile = .ok r) ∧
    (∀ configFile, NewResolver none configFile = .error .homeDir) := by
  refine ⟨?_, ?_, fun configFile => ⟨_, NewResolver_eq home configFile⟩, fun _ => rfl⟩
  · rw [NewResolver_eq]
    simp [expectedRoot]
  · rw [NewResolver_eq]
    simp [expectedRoot, Default]

/-! ## Properties of the access store -/

theorem NewResolver_resolverOf (home : String) (configFile : ConfigFile) :
    NewResolver (some home) configFile = .ok (resolverOf home configFile) :=
  NewResolver_eq home configFile

theorem AccessMap.ext_entries {m₁ m₂ : AccessMap} (h : m₁.entries = m₂.entries) : m₁ = m₂ := by
  cases m₁; cases m₂; cases h; rfl

theorem AccessMap.access_lookup_iff_mem (m : AccessMap) (id : String) (rec : AccessRecord) :
    m.lookup id = some rec ↔ (id, rec) ∈ m.entries := by
  obtain ⟨l, hl⟩ := m
  simp only [AccessMap.lookup]
  induction l with
  | nil => simp
  | cons e l ih =>
    obtain ⟨k, v⟩ := e
    have hnd := List.nodup_cons.1 hl
    by_cases hk : k = id
    · subst hk
      have hnot : (k, rec) ∉ l := fun hmem => hnd.1 (List.mem_map.2 ⟨(k, rec), hmem, rfl⟩)
      simp [List.find?, hnot, eq_comm]
    · have hk2 : (k == id) = false := by simpa using hk
      have hne : ¬ (id = k) := fun h => hk h.symm
      simp only [List.find?, hk2, List.mem_cons, Prod.mk.injEq, hne, false_and, false_or]
      exact ih hnd.2

/-- Assignment to a key of the map replaces its record where it stands. -/
theorem AccessMap.set_entries_of_split (m : AccessMap) (id : String) (old rec : AccessRecord)
    (pre rest : List (String × AccessRecord)) (h : m.entries = pre ++ (id, old) :: rest) :
    (m.set id rec).entries = pre ++ (id, rec) :: rest := by
  have hmem : id ∈ m.entries.map Prod.fst := by
    rw [h]
    simp
  have hnd := m.nodupKeys
  rw [h, List.map_append, List.map_cons] at hnd
  have hpre : ∀ e ∈ pre, e.1 ≠ id := by
    intro e he heq
    have hdis := (List.nodup_append.1 hnd).2.2
    exact hdis (List.mem_map.2 ⟨e, he, heq⟩) (List.mem_cons_self _ _)
  have hrest : ∀ e ∈ rest, e.1 ≠ id := by
    intro e he heq
    have hnd2 := (List.nodup_cons.1 (List.nodup_append.1 hnd).2.1).1
    exact hnd2 (List.mem_map.2 ⟨e, he, heq⟩)
  have hid : ∀ l : List (String × AccessRecord), (∀ e ∈ l, e.1 ≠ id) →
      l.map (fun e => if e.1 = id then (id, rec) else e) = l := by
    intro l hl
    conv_rhs => rw [← List.map_id l]
    apply List.map_congr_left
    intro e he
    simp [hl e he]
  unfold AccessMap.set
  rw [dif_pos hmem]
  simp only [h, List.map_append, List.map_cons, if_true, hid pre hpre, hid rest hrest]

theorem AccessMap.set_entries_of_not_mem (m : AccessMap) (id : String) (rec : AccessRecord)
    (h : id ∉ m.keys) : (m.set id rec).entries = (id, rec) :: m.entries := by
  have h' : id ∉ m.entries.map Prod.fst := h
  simp [AccessMap.set, h']

theorem AccessMap.mem_keys_split (m : AccessMap) (id : String) (h : id ∈ m.keys) :
    ∃ old pre rest, m.entries = pre ++ (id, old) :: rest := by
  rcases List.mem_map.1 h with ⟨e, he, hk⟩
  obtain ⟨pre, rest, hsplit⟩ := List.append_of_mem he
  exact ⟨e.2, pre, rest, by rw [hsplit, ← hk]⟩

/-- After the assignment the key holds the record, the key is in the map once, and the
map has one entry more exactly when the key is new. -/
theorem AccessMap.set_spec (m : AccessMap) (id : String) (rec : AccessRecord) :
    (m.set id rec).lookup id = some rec ∧
    (m.set id rec).keys.count id = 1 ∧
    (m.set id rec).entries.length = m.entries.length + (if id ∈ m.keys then 0 else 1) := by
  have hlook : (id, rec) ∈ (m.set id rec).entries ∧
      (m.set id rec).entries.length = m.entries.length + (if id ∈ m.keys then 0 else 1) := by
    by_cases hmem : id ∈ m.keys
    · obtain ⟨old, pre, rest, hsplit⟩ := m.mem_keys_split id hmem
      rw [m.set_entries_of_split id old rec pre rest hsplit, hsplit]
      simp [hmem]
    · rw [m.set_entries_of_not_mem id rec hmem]
      simp [hmem]
  refine ⟨(AccessMap.access_lookup_iff_mem _ _ _).2 hlook.1, ?_, hlook.2⟩
  exact List.count_eq_one_of_mem (m.set id rec).nodupKeys
    (List.mem_map.2 ⟨(id, rec), hlook.1, rfl⟩)

/-- The map and the flag after the healing loop, run over the entries `l` that stand
at the end of the map. -/
theorem healLoop_spec (resolver : Resolver) (fs : FileSystem)
    (l pre : List (String × AccessRecord)) (records : AccessMap) (healed : Bool)
    (h : records.entries = pre ++ l) :
    (healLoop resolver fs l (records, healed)).1.entries
        = pre ++ l.map (fun e => (e.1, healRecord resolver fs e.2)) ∧
    (healLoop resolver fs l (records, healed)).2
        = (healed || l.any (fun e => isHealed resolver fs e.2)) := by
  induction l generalizing pre records healed with
  | nil => simp [healLoop, h]
  | cons e rest ih =>
    obtain ⟨k, rec⟩ := e
    have hnext : records.entries = (pre ++ [(k, rec)]) ++ rest := by simp [h]
    cases hv : resolver.ValidatePath fs rec.ProjectID rec.ProjectPath with
    | error err =>
      have := ih (pre ++ [(k, rec)]) records healed hnext
      simp only [healLoop, hv, List.map_cons, healRecord, isHealed, List.any_cons,
        Bool.false_or]
      simpa using this
    | ok res =>
      obtain ⟨newPath, wasHealed⟩ := res
      cases wasHealed with
      | false =>
        have := ih (pre ++ [(k, rec)]) records healed hnext
        simp only [healLoop, hv, List.map_cons, healRecord, isHealed, List.any_cons,
          Bool.false_or]
        simpa using this
      | true =>
        have hset := records.set_entries_of_split k rec { rec with ProjectPath := newPath }
          pre rest h
        have hnext' : (records.set k { rec with ProjectPath := newPath }).entries
            = (pre ++ [(k, { rec with ProjectPath := newPath })]) ++ rest := by
          simp [hset]
        have := ih _ (records.set k { rec with ProjectPath := newPath }) true hnext'
        simp only [healLoop, hv, List.map_cons, healRecord, isHealed, List.any_cons,
          Bool.true_or, Bool.or_true, if_true]
        simpa using this

theorem healRecord_of_not_healed (resolver : Resolver) (fs : FileSystem) (rec : AccessRecord)
    (h : isHealed resolver fs rec = false) : healRecord resolver fs rec = rec := by
  unfold isHealed at h
  unfold healRecord
  cases hv : resolver.ValidatePath fs rec.ProjectID rec.ProjectPath with
  | error err => rfl
  | ok res =>
    obtain ⟨newPath, wasHealed⟩ := res
    rw [hv] at h
    simp only at h
    subst h
    rfl

theorem healMap_eq_self (resolver : Resolver) (fs : FileSystem) (m : AccessMap)
    (h : ∀ e ∈ m.entries, isHealed resolver fs e.2 = false) : healMap resolver fs m = m := by
  apply AccessMap.ext_entries
  simp only [healMap]
  conv_rhs => rw [← List.map_id m.entries]
  apply List.map_congr_left
  intro e he
  simp [healRecord_of_not_healed resolver fs e.2 (h e he)]

/-- What validateAndHealAccessRecords returns when the home directory is known. -/
theorem validateAndHeal_of_home (env : Env) (home : String) (hhome : env.home = some home)
    (m : AccessMap) :
    validateAndHealAccessRecords env (some m)
      = (.ok (m.entries.any (fun e => isHealed (resolverOf home env.configFile) env.fs e.2)),
          some (healMap (resolverOf home env.configFile) env.fs m)) := by
  have hspec := healLoop_spec (resolverOf home env.configFile) env.fs m.entries [] m false
    (by simp)
  have hmap : (healLoop (resolverOf home env.configFile) env.fs m.entries (m, false)).1
      = healMap (resolverOf home env.configFile) env.fs m :=
    AccessMap.ext_entries (by simpa [healMap] using hspec.1)
  have hflag := hspec.2
  simp only [Bool.false_or] at hflag
  simp only [validateAndHealAccessRecords, hhome, NewResolver_resolverOf, hmap, hflag]

/-- What LoadAccessRecords returns for a file that holds a map, and the file it
leaves: the healed map when the file can be written, and the file as it was when it
cannot. -/
theorem LoadAccessRecords_object (env : Env) (home : String) (hhome : env.home = some home)
    (m : AccessMap) :
    LoadAccessRecords env (.object m)
      = (.ok (some (healMap (resolverOf home env.configFile) env.fs m)),
          if env.writable then .object (healMap (resolverOf home env.configFile) env.fs m)
          else .object m) := by
  simp only [LoadAccessRecords, hhome, healAndSave, validateAndHeal_of_home env home hhome m,
    SaveAccessRecords]
  cases hflag : m.entries.any
      (fun e => isHealed (resolverOf home env.configFile) env.fs e.2) with
  | true =>
    cases hw : env.writable <;> simp
  | false =>
    have hnone : ∀ e ∈ m.entries, isHealed (resolverOf home env.configFile) env.fs e.2 = false := by
      intro e he
      cases hh : isHealed (resolverOf home env.configFile) env.fs e.2 with
      | false => rfl
      | true =>
        have : m.entries.any
            (fun e => isHealed (resolverOf home env.configFile) env.fs e.2) = true :=
          List.any_eq_true.2 ⟨e, he, hh⟩
        rw [hflag] at this
        cases this
    simp [healMap_eq_self _ _ m hnone]

theorem healMap_keys (resolver : Resolver) (fs : FileSystem) (m : AccessMap) :
    (healMap resolver fs m).keys = m.keys := by
  simp [healMap, AccessMap.keys, List.map_map]

theorem healMap_length (resolver : Resolver) (fs : FileSystem) (m : AccessMap) :
    (healMap resolver fs m).entries.length = m.entries.length := by
  simp [healMap]

theorem AccessMap.mem_keys_set (m : AccessMap) (id : String) (rec : AccessRecord) :
    id ∈ (m.set id rec).keys := by
  have h := (m.set_spec id rec).1
  exact List.mem_map.2 ⟨(id, rec), (AccessMap.access_lookup_iff_mem _ _ _).1 h, rfl⟩

/-- What RecordAccess does on a file that holds a map and can be written. -/
theorem RecordAccess_object (env : Env) (home : String) (hhome : env.home = some home)
    (hwrite : env.writable = true)
    (m : AccessMap) (now : Int) (p q : String) :
    RecordAccess env now (.object m) p q
      = (.ok (), .object ((healMap (resolverOf home env.configFile) env.fs m).set p
          { ProjectID := p, ProjectPath := q, LastAccessed := now })) := by
  simp [RecordAccess, LoadAccessRecords_object env home hhome m, SaveAccessRecords, hhome,
    hwrite]

/-- RecordAccess twice on the texts, with the home directory known, an access file
that can be written and a store that has no file yet or holds a map: both calls
succeed; the store then holds the key `p` once, with the record of project id `p`,
path `q₂` and time `t₂`; the first call adds one record exactly when the loaded map
had no key `p`, and the second call adds none. -/
theorem recordAccess_twice (env : Env) (home : String) (hhome : env.home = some home)
    (hwrite : env.writable = true)
    (f : AccessFile) (hf : f = .absent ∨ ∃ m, f = .object m)
    (p q₁ q₂ : String) (t₁ t₂ : Int) (ht : t₁ ≤ t₂) :
    ∃ m₀ m₁ m₂,
      (LoadAccessRecords env f).1 = .ok (some m₀) ∧
      (f = .absent → m₀.keys = []) ∧
      (∀ m, f = .object m → m₀.keys = m.keys) ∧
      RecordAccess env t₁ f p q₁ = (.ok (), .object m₁) ∧
      m₁.lookup p = some { ProjectID := p, ProjectPath := q₁, LastAccessed := t₁ } ∧
      RecordAccess env t₂ (.object m₁) p q₂ = (.ok (), .object m₂) ∧
      m₂.lookup p = some { ProjectID := p, ProjectPath := q₂, LastAccessed := t₂ } ∧
      m₂.keys.count p = 1 ∧
      (∀ rec, m₂.lookup p = some rec → rec.LastAccessed = t₂ ∧ t₁ ≤ rec.LastAccessed) ∧
      m₁.entries.length = m₀.entries.length + (if p ∈ m₀.keys then 0 else 1) ∧
      m₂.entries.length = m₁.entries.length := by
  have second : ∀ m₁ : AccessMap, p ∈ m₁.keys →
      ∃ m₂, RecordAccess env t₂ (.object m₁) p q₂ = (.ok (), .object m₂) ∧
        m₂.lookup p = some { ProjectID := p, ProjectPath := q₂, LastAccessed := t₂ } ∧
        m₂.keys.count p = 1 ∧
        (∀ rec, m₂.lookup p = some rec → rec.LastAccessed = t₂ ∧ t₁ ≤ rec.LastAccessed) ∧
        m₂.entries.length = m₁.entries.length := by
    intro m₁ hmem
    have hspec := (healMap (resolverOf home env.configFile) env.fs m₁).set_spec p
      { ProjectID := p, ProjectPath := q₂, LastAccessed := t₂ }
    have hmem' : p ∈ (healMap (resolverOf home env.configFile) env.fs m₁).keys := by
      rw [healMap_keys]; exact hmem
    refine ⟨_, RecordAccess_object env home hhome hwrite m₁ t₂ p q₂, hspec.1, hspec.2.1, ?_, ?_⟩
    · intro rec hrec
      rw [hspec.1] at hrec
      cases hrec
      exact ⟨rfl, ht⟩
    · rw [hspec.2.2, healMap_length]
      simp [hmem']
  rcases hf with rfl | ⟨m, rfl⟩
  · have hspec := AccessMap.empty.set_spec p
      { ProjectID := p, ProjectPath := q₁, LastAccessed := t₁ }
    obtain ⟨m₂, h2⟩ := second _ (AccessMap.empty.mem_keys_set p _)
    refine ⟨AccessMap.empty, _, m₂, ?_, fun _ => rfl, fun m hm => (by cases hm), ?_, hspec.1,
      h2.1, h2.2.1, h2.2.2.1, h2.2.2.2.1, hspec.2.2, h2.2.2.2.2⟩
    · simp [LoadAccessRecords, hhome]
    · simp [RecordAccess, LoadAccessRecords, hhome, SaveAccessRecords, hwrite]
  · have hspec := (healMap (resolverOf home env.configFile) env.fs m).set_spec p
      { ProjectID := p, ProjectPath := q₁, LastAccessed := t₁ }
    obtain ⟨m₂, h2⟩ := second _ (AccessMap.mem_keys_set _ p _)
    refine ⟨healMap (resolverOf home env.configFile) env.fs m, _, m₂, ?_, fun h => (by cases h),
      ?_, RecordAccess_object env home hhome hwrite m t₁ p q₁, hspec.1,
      h2.1, h2.2.1, h2.2.2.1, h2.2.2.2.1, hspec.2.2, h2.2.2.2.2⟩
    · rw [LoadAccessRecords_object env home hhome m]
    · intro m' hm'
      cases hm'
      exact healMap_keys _ _ _

/-- The record of the healing loop for a stale path: the path of FindProject when it
finds the project, the record itself when it does not. -/
theorem healRecord_of_stale (resolver : Resolver) (fs : FileSystem) (rec : AccessRecord)
    (hstale : ∀ isDir, fs.Stat rec.ProjectPath ≠ .ok isDir) :
    (∀ p, resolver.FindProject fs rec.ProjectID = .ok p →
      healRecord resolver fs rec = { rec with ProjectPath := p }) ∧
    ((∀ p, resolver.FindProject fs rec.ProjectID ≠ .ok p) →
      healRecord resolver fs rec = rec) := by
  have hv := ValidatePath_of_stale resolver fs rec.ProjectID rec.ProjectPath hstale
  constructor
  · intro p hp
    rw [hp] at hv
    simp [healRecord, hv]
  · intro hnot
    cases hf : resolver.FindProject fs rec.ProjectID with
    | ok p => exact absurd hf (hnot p)
    | error err =>
      rw [hf] at hv
      simp [healRecord, hv]

/-- C18: with the home directory known, LoadAccessRecords of a store that holds a map
returns a map with the same keys in the same order, so that no record is removed, and
every record whose path Stat does not find and whose project id FindProject, of the
resolver that NewResolver builds, does not find is in the returned map under its key
as it was stored: same project id, path and time. -/
theorem load_keeps_unfound (env : Env) (home : String) (hhome : env.home = some home)
    (m : AccessMap) :
    ∃ resolver m', NewResolver env.home env.configFile = .ok resolver ∧
      (LoadAccessRecords env (.object m)).1 = .ok (some m') ∧
      m'.keys = m.keys ∧
      ∀ key rec, (key, rec) ∈ m.entries →
        (∀ isDir, env.fs.Stat rec.ProjectPath ≠ .ok isDir) →
        (∀ p, resolver.FindProject env.fs rec.ProjectID ≠ .ok p) →
        (key, rec) ∈ m'.entries ∧ m'.lookup key = some rec := by
  refine ⟨resolverOf home env.configFile, healMap (resolverOf home env.configFile) env.fs m,
    by rw [hhome]; exact NewResolver_resolverOf home env.configFile,
    by rw [LoadAccessRecords_object env home hhome m], healMap_keys _ _ _, ?_⟩
  intro key rec hmem hstale hnot
  have hrec := (healRecord_of_stale (resolverOf home env.configFile) env.fs rec hstale).2 hnot
  have hin : (key, rec) ∈ (healMap (resolverOf home env.configFile) env.fs m).entries := by
    simp only [healMap, List.mem_map]
    exact ⟨(key, rec), hmem, by rw [hrec]⟩
  exact ⟨hin, (AccessMap.access_lookup_iff_mem _ _ _).2 hin⟩

/-- Witness of C18: the record of project `gone`, which is nowhere, is returned as it
was stored. -/
theorem load_keeps_unfound_witness :
    (LoadAccessRecords exampleEnv (.object exampleAccess)).1
      = .ok (some ⟨[("a", ⟨"a", "/h/projects/a", 10⟩),
          ("gone", ⟨"gone", "/h/projects/gone", 20⟩)], by decide⟩) ∧
    ∃ resolver m', NewResolver exampleEnv.home exampleEnv.configFile = .ok resolver ∧
      (LoadAccessRecords exampleEnv (.object exampleAccess)).1 = .ok (some m') ∧
      m'.keys = exampleAccess.keys ∧
      ∀ key rec, (key, rec) ∈ exampleAccess.entries →
        (∀ isDir, exampleEnv.fs.Stat rec.ProjectPath ≠ .ok isDir) →
        (∀ p, resolver.FindProject exampleEnv.fs rec.ProjectID ≠ .ok p) →
        (key, rec) ∈ m'.entries ∧ m'.lookup key = some rec :=
  ⟨by decide, load_keeps_unfound exampleEnv "/h" rfl exampleAccess⟩

/-- The comparison of GetRecentProjects keeps what Go asks of a `less` function. -/
theorem recentLess_contract (records : Option AccessMap) : LessContract (recentLess records) where
  irrefl a := by
    unfold recentLess
    cases lookupRecord records a.ProjectInfo.ID <;> simp
  trans a b c := by
    unfold recentLess
    cases lookupRecord records a.ProjectInfo.ID <;>
      cases lookupRecord records b.ProjectInfo.ID <;>
      cases lookupRecord records c.ProjectInfo.ID <;> simp
    intro h1 h2
    omega
  negTrans a b c := by
    unfold recentLess
    cases lookupRecord records a.ProjectInfo.ID <;>
      cases lookupRecord records b.ProjectInfo.ID <;>
      cases lookupRecord records c.ProjectInfo.ID <;> simp
    intro h1 h2
    omega

/-- C20: for every implementation of `sort.Slice`, every loaded map of access records
and every list of discovered projects, the list that the sort of GetRecentProjects
leaves is a rearrangement of the discovered projects in which, of two projects, the one
that stands behind has a record only if the one before it has one, and then a time of
last access that is not later; it is the list that GetRecentProjects returns when the
limit does not cut it. -/
theorem recentProjects_order (sorter : SliceSorter) (records : Option AccessMap)
    (projects : List Project) :
    (orderByAccess sorter records projects).Perm projects ∧
    (orderByAccess sorter records projects).Pairwise (fun a b =>
      (lookupRecord records b.ProjectInfo.ID ≠ none →
        lookupRecord records a.ProjectInfo.ID ≠ none) ∧
      (∀ ra rb, lookupRecord records a.ProjectInfo.ID = some ra →
        lookupRecord records b.ProjectInfo.ID = some rb →
        rb.LastAccessed ≤ ra.LastAccessed)) ∧
    (∀ (env : Env) (home : String) (f f' : AccessFile) (limit : Int),
      env.home = some home → LoadAccessRecords env f = (.ok records, f') → limit ≤ 0 →
      GetRecentProjects env sorter (.ok projects) f limit
        = (.ok (orderByAccess sorter records projects), f')) := by
  refine ⟨sorter.perm _ _, ?_, ?_⟩
  · refine (sorter.sorted (recentLess records) projects (recentLess_contract records)).imp ?_
    intro a b hless
    unfold recentLess at hless
    cases ha : lookupRecord records a.ProjectInfo.ID <;>
      cases hb : lookupRecord records b.ProjectInfo.ID <;>
      simp [ha, hb] at hless ⊢
    exact hless
  · intro env home f f' limit hhome hload hlimit
    have hno : ¬ (limit > 0 ∧ limit < ((orderByAccess sorter records projects).length : Int)) := by
      omega
    simp [GetRecentProjects, hload, hhome, applyLimit, hno]

/-- Witness of C20: three discovered projects, of which `b` was accessed at time 20,
`c` at time 30 and `a` never. -/
theorem recentProjects_order_witness :
    orderByAccess insertionSorter
        (some ⟨[("b", ⟨"b", "/h/projects/b", 20⟩), ("c", ⟨"c", "/h/projects/c", 30⟩)],
          by decide⟩)
        [⟨"/h/projects/a", ⟨"A", "a", "active", ""⟩⟩, ⟨"/h/projects/b", ⟨"B", "b", "active", ""⟩⟩,
          ⟨"/h/projects/c", ⟨"C", "c", "active", ""⟩⟩]
      = [⟨"/h/projects/c", ⟨"C", "c", "active", ""⟩⟩, ⟨"/h/projects/b", ⟨"B", "b", "active", ""⟩⟩,
          ⟨"/h/projects/a", ⟨"A", "a", "active", ""⟩⟩] ∧
    (orderByAccess insertionSorter
        (some ⟨[("b", ⟨"b", "/h/projects/b", 20⟩), ("c", ⟨"c", "/h/projects/c", 30⟩)],
          by decide⟩)
        [⟨"/h/projects/a", ⟨"A", "a", "active", ""⟩⟩, ⟨"/h/projects/b", ⟨"B", "b", "active", ""⟩⟩,
          ⟨"/h/projects/c", ⟨"C", "c", "active", ""⟩⟩]).Perm
      [⟨"/h/projects/a", ⟨"A", "a", "active", ""⟩⟩, ⟨"/h/projects/b", ⟨"B", "b", "active", ""⟩⟩,
        ⟨"/h/projects/c", ⟨"C", "c", "active", ""⟩⟩] :=
  ⟨by decide, (recentProjects_order insertionSorter _ _).1⟩

/-! ## The frame of the slot operations -/

theorem PinMap.lookup_set_ne (m : PinMap) (s t : Int) (rec : PinRecord) (h : t ≠ s) :
    (m.set s rec).lookup t = m.lookup t := by
  have hst : (s == t) = false := by simpa using fun hs : s = t => h hs.symm
  simp only [PinMap.set, PinMap.lookup, List.find?, hst]
  congr 1
  induction m.entries with
  | nil => rfl
  | cons e l ih =>
    by_cases he : e.1 = s
    · have hst' : (s == t) = false := by simpa using fun hs : s = t => h hs.symm
      simp [List.filter, he, List.find?, hst', ih]
    · have hne : (e.1 != s) = true := by simpa using he
      simp only [List.filter, hne, List.find?]
      cases e.1 == t
      · exact ih
      · rfl

theorem PinMap.lookup_delete_ne (m : PinMap) (s t : Int) (h : t ≠ s) :
    (m.delete s).lookup t = m.lookup t := by
  simp only [PinMap.delete, PinMap.lookup]
  congr 1
  induction m.entries with
  | nil => rfl
  | cons e l ih =>
    by_cases he : e.1 = s
    · have hst' : (s == t) = false := by simpa using fun hs : s = t => h hs.symm
      simp [List.filter, he, List.find?, hst', ih]
    · have hne : (e.1 != s) = true := by simpa using he
      simp only [List.filter, hne, List.find?]
      cases e.1 == t
      · exact ih
      · rfl

theorem PinMap.lookup_delete_self (m : PinMap) (s : Int) : (m.delete s).lookup s = none := by
  rw [PinMap.lookup_eq_none_iff]
  intro hmem
  rcases List.mem_map.1 hmem with ⟨e, he, hk⟩
  have := (List.mem_filter.1 he).2
  simp [hk] at this

theorem GetPin_of_load (f : PinsFile) (m : PinMap) (t : Int)
    (hload : LoadPins f = .ok (some m)) :
    GetPin f t = match m.lookup t with
      | none => .error (.noPinInSlot t)
      | some pin => .ok pin := by
  simp only [GetPin, hload]

/-- C28: a successful AddPin of slot `s` and a successful RemovePin of slot `s` leave
what GetPin returns for every other slot as it was, the record with all its fields or
the error "no pin in slot"; and after a successful RemovePin of `s` GetPin of `s`
fails with "no pin in slot". -/
theorem slot_frame (f : PinsFile) (s : Int) (a pa : String) :
    ((AddPin f s a pa).1 = .ok () →
      ∀ t, t ≠ s → GetPin (AddPin f s a pa).2 t = GetPin f t) ∧
    ((RemovePin f s).1 = .ok () →
      (∀ t, t ≠ s → GetPin (RemovePin f s).2 t = GetPin f t) ∧
      GetPin (RemovePin f s).2 s = .error (.noPinInSlot s)) := by
  constructor
  · intro hok t ht
    by_cases hr : s < 1 ∨ s > 5
    · simp [AddPin, hr] at hok
    · cases hload : LoadPins f with
      | error err => simp [AddPin, hr, hload] at hok
      | ok pins =>
        cases pins with
        | none => simp [AddPin, hr, hload] at hok
        | some m =>
          rw [AddPin_of_load f m s a pa (by omega) (by omega) hload,
            GetPin_of_load f m t hload,
            GetPin_of_load (.object (m.set s ⟨s, a, pa⟩)) (m.set s ⟨s, a, pa⟩) t rfl,
            PinMap.lookup_set_ne m s t _ ht]
  · intro hok
    cases hload : LoadPins f with
    | error err => simp [RemovePin, hload] at hok
    | ok pins =>
      cases pins with
      | none => simp [RemovePin, hload] at hok
      | some m =>
        cases hl : m.lookup s with
        | none => simp [RemovePin, hload, hl] at hok
        | some rec =>
          have hres : (RemovePin f s).2 = .object (m.delete s) := by
            simp [RemovePin, hload, hl, SavePins]
          rw [hres]
          refine ⟨fun t ht => ?_, ?_⟩
          · rw [GetPin_of_load f m t hload,
              GetPin_of_load (.object (m.delete s)) (m.delete s) t rfl,
              PinMap.lookup_delete_ne m s t ht]
          · rw [GetPin_of_load (.object (m.delete s)) (m.delete s) s rfl,
              PinMap.lookup_delete_self]

/-- Witness of C28: slots 2 and 4 are pinned; slot 2 is pinned again, and removed. -/
theorem slot_frame_witness :
    GetPin (AddPin (.object ⟨[(2, ⟨2, "old", "/old"⟩), (4, ⟨4, "d", "/d"⟩)], by decide⟩)
      2 "new" "/new").2 4 = .ok ⟨4, "d", "/d"⟩ ∧
    GetPin (RemovePin (.object ⟨[(2, ⟨2, "old", "/old"⟩), (4, ⟨4, "d", "/d"⟩)], by decide⟩)
      2).2 4 = .ok ⟨4, "d", "/d"⟩ ∧
    GetPin (RemovePin (.object ⟨[(2, ⟨2, "old", "/old"⟩), (4, ⟨4, "d", "/d"⟩)], by decide⟩)
      2).2 2 = .error (.noPinInSlot 2) :=
  ⟨(slot_frame (.object ⟨[(2, ⟨2, "old", "/old"⟩), (4, ⟨4, "d", "/d"⟩)], by decide⟩)
      2 "new" "/new").1 (by decide) 4 (by decide),
    ((slot_frame (.object ⟨[(2, ⟨2, "old", "/old"⟩), (4, ⟨4, "d", "/d"⟩)], by decide⟩)
      2 "new" "/new").2 (by decide)).1 4 (by decide),
    ((slot_frame (.object ⟨[(2, ⟨2, "old", "/old"⟩), (4, ⟨4, "d", "/d"⟩)], by decide⟩)
      2 "new" "/new").2 (by decide)).2⟩

/-! ## The frame of the healing loop -/

theorem orderByAccess_length (sorter : SliceSorter) (records : Option AccessMap)
    (projects : List Project) :
    (orderByAccess sorter records projects).length = projects.length :=
  (sorter.perm _ _).length_eq

/-- What GetRecentProjects returns when the records load and the discovery succeeds. -/
theorem GetRecentProjects_of_load (env : Env) (sorter : SliceSorter) (projects : List Project)
    (f f' : AccessFile) (limit : Int) (home : String) (records : Option AccessMap)
    (hhome : env.home = some home) (hload : LoadAccessRecords env f = (.ok records, f')) :
    GetRecentProjects env sorter (.ok projects) f limit
      = (.ok (applyLimit limit (orderByAccess sorter records projects)), f') := by
  simp [GetRecentProjects, hload, hhome]

/-- C21: when the records load and `n` projects are discovered, GetRecentProjects
returns the first `min(limit, n)` projects of the ordered list for a limit above 0 and
all `n` of them for a limit of 0 or less; and the slice expression it evaluates is
within its bounds. -/
theorem recentProjects_limit (env : Env) (sorter : SliceSorter) (projects : List Project)
    (f f' : AccessFile) (limit : Int) (home : String) (records : Option AccessMap)
    (hhome : env.home = some home) (hload : LoadAccessRecords env f = (.ok records, f')) :
    (limit > 0 →
      GetRecentProjects env sorter (.ok projects) f limit
        = (.ok ((orderByAccess sorter records projects).take
            (min limit.toNat projects.length)), f') ∧
      ((orderByAccess sorter records projects).take
          (min limit.toNat projects.length)).length = min limit.toNat projects.length) ∧
    (limit ≤ 0 →
      GetRecentProjects env sorter (.ok projects) f limit
        = (.ok (orderByAccess sorter records projects), f') ∧
      (orderByAccess sorter records projects).length = projects.length) ∧
    applyLimitChecked limit (orderByAccess sorter records projects)
      = some (applyLimit limit (orderByAccess sorter records projects)) := by
  have hlen := orderByAccess_length sorter records projects
  rw [GetRecentProjects_of_load env sorter projects f f' limit home records hhome hload]
  refine ⟨fun hpos => ?_, fun hneg => ?_, ?_⟩
  · constructor
    · by_cases hlt : limit < ((orderByAccess sorter records projects).length : Int)
      · have hmin : min limit.toNat projects.length = limit.toNat := by
          rw [hlen] at hlt
          omega
        simp [applyLimit, hpos, hlt, hmin]
      · have hmin : min limit.toNat projects.length = projects.length := by
          rw [hlen] at hlt
          omega
        simp only [applyLimit, hlt, and_false, if_false, hmin]
        rw [← hlen, List.take_length]
    · rw [List.length_take, hlen]
      omega
  · have hno : ¬ (limit > 0 ∧ limit < ((orderByAccess sorter records projects).length : Int)) := by
      omega
    simp only [applyLimit, hno, if_false]
    exact ⟨trivial, hlen⟩
  · unfold applyLimitChecked applyLimit sliceTo
    by_cases hc : limit > 0 ∧ limit < ((orderByAccess sorter records projects).length : Int)
    · have hb : 0 ≤ limit ∧ limit ≤ ((orderByAccess sorter records projects).length : Int) := by
        omega
      simp [hc, hb]
    · simp [hc]

/-- Witness of C21: three discovered projects and a limit of 2. -/
theorem recentProjects_limit_witness :
    GetRecentProjects exampleEnv insertionSorter
        (.ok [⟨"/h/projects/a", ⟨"A", "a", "active", ""⟩⟩,
          ⟨"/h/projects/b", ⟨"B", "b", "active", ""⟩⟩,
          ⟨"/h/projects/c", ⟨"C", "c", "active", ""⟩⟩]) .absent 2
      = (.ok ((orderByAccess insertionSorter (some AccessMap.empty)
            [⟨"/h/projects/a", ⟨"A", "a", "active", ""⟩⟩,
              ⟨"/h/projects/b", ⟨"B", "b", "active", ""⟩⟩,
              ⟨"/h/projects/c", ⟨"C", "c", "active", ""⟩⟩]).take (min (2 : Int).toNat 3)),
          .absent) :=
  ((recentProjects_limit exampleEnv insertionSorter _ .absent .absent 2 "/h"
    (some AccessMap.empty) rfl rfl).1 (by decide)).1

/-- The order that the sort of GetRecentProjects leaves: of two projects, the one
behind has a record only if the one before has, and then no later time. -/
theorem orderByAccess_pairwise (sorter : SliceSorter) (records : Option AccessMap)
    (projects : List Project) :
    (orderByAccess sorter records projects).Pairwise (fun a b =>
      ((lookupRecord records b.ProjectInfo.ID).isSome = true →
        (lookupRecord records a.ProjectInfo.ID).isSome = true) ∧
      (∀ ra rb, lookupRecord records a.ProjectInfo.ID = some ra →
        lookupRecord records b.ProjectInfo.ID = some rb →
        rb.LastAccessed ≤ ra.LastAccessed)) := by
  refine (sorter.sorted (recentLess records) projects (recentLess_contract records)).imp ?_
  intro a b hless
  unfold recentLess at hless
  cases ha : lookupRecord records a.ProjectInfo.ID <;>
    cases hb : lookupRecord records b.ProjectInfo.ID <;>
    simp [ha, hb] at hless ⊢
  exact hless

/-- C22: when the records load, the limit `k` is above 0 and at least `k` of the
discovered projects have an access record, GetRecentProjects returns `k` projects,
each with an access record, and the projects it leaves out, which with the returned
ones make up the discovered projects, have no time of last access later than that of
a returned project. -/
theorem recentProjects_top (env : Env) (sorter : SliceSorter) (projects : List Project)
    (f f' : AccessFile) (k : Int) (home : String) (records : Option AccessMap)
    (hhome : env.home = some home) (hload : LoadAccessRecords env f = (.ok records, f'))
    (hk : 0 < k)
    (hcount : k ≤ projects.countP
      (fun p => (lookupRecord records p.ProjectInfo.ID).isSome)) :
    ∃ out omitted,
      GetRecentProjects env sorter (.ok projects) f k = (.ok out, f') ∧
      (out.length : Int) = k ∧
      (∀ p ∈ out, (lookupRecord records p.ProjectInfo.ID).isSome = true) ∧
      (out ++ omitted).Perm projects ∧
      (∀ a ∈ out, ∀ b ∈ omitted, ∀ ra rb,
        lookupRecord records a.ProjectInfo.ID = some ra →
        lookupRecord records b.ProjectInfo.ID = some rb →
        rb.LastAccessed ≤ ra.LastAccessed) := by
  have hperm := sorter.perm (recentLess records) projects
  have hlen := orderByAccess_length sorter records projects
  have hord := orderByAccess_pairwise sorter records projects
  have hcountle : projects.countP (fun p => (lookupRecord records p.ProjectInfo.ID).isSome)
      ≤ projects.length := List.countP_le_length _
  have hres : applyLimit k (orderByAccess sorter records projects)
      = (orderByAccess sorter records projects).take k.toNat := by
    by_cases hlt : k < ((orderByAccess sorter records projects).length : Int)
    · simp [applyLimit, hk, hlt]
    · simp only [applyLimit, hlt, and_false, if_false]
      rw [List.take_of_length_le]
      omega
  have hsplit : (orderByAccess sorter records projects).take k.toNat
      ++ (orderByAccess sorter records projects).drop k.toNat
      = orderByAccess sorter records projects := List.take_append_drop _ _
  rw [← hsplit] at hord
  have hcross := (List.pairwise_append.1 hord).2.2
  refine ⟨(orderByAccess sorter records projects).take k.toNat,
    (orderByAccess sorter records projects).drop k.toNat, ?_, ?_, ?_, ?_, ?_⟩
  · rw [GetRecentProjects_of_load env sorter projects f f' k home records hhome hload, hres]
  · rw [List.length_take, hlen]
    omega
  · intro p hp
    by_contra hnot
    have hdrop : ((orderByAccess sorter records projects).drop k.toNat).countP
        (fun p => (lookupRecord records p.ProjectInfo.ID).isSome) = 0 := by
      rw [List.countP_eq_zero]
      intro b hb hsome
      exact hnot ((hcross p hp b hb).1 hsome)
    have htake : ((orderByAccess sorter records projects).take k.toNat).countP
        (fun p => (lookupRecord records p.ProjectInfo.ID).isSome)
        < ((orderByAccess sorter records projects).take k.toNat).length := by
      have hle := List.countP_le_length
        (fun p : Project => (lookupRecord records p.ProjectInfo.ID).isSome)
        (l := (orderByAccess sorter records projects).take k.toNat)
      have hne : ((orderByAccess sorter records projects).take k.toNat).countP
          (fun p => (lookupRecord records p.ProjectInfo.ID).isSome)
          ≠ ((orderByAccess sorter records projects).take k.toNat).length :=
        fun h => hnot (List.countP_eq_length.1 h p hp)
      omega
    have htotal : (orderByAccess sorter records projects).countP
        (fun p => (lookupRecord records p.ProjectInfo.ID).isSome)
        = projects.countP (fun p => (lookupRecord records p.ProjectInfo.ID).isSome) :=
      hperm.countP_eq _
    have hsum := List.countP_append (fun p : Project =>
      (lookupRecord records p.ProjectInfo.ID).isSome)
      ((orderByAccess sorter records projects).take k.toNat)
      ((orderByAccess sorter records projects).drop k.toNat)
    rw [hsplit, htotal, hdrop] at hsum
    rw [List.length_take, hlen] at htake
    omega
  · rw [hsplit]
    exact hperm
  · intro a ha b hb ra rb hra hrb
    exact (hcross a ha b hb).2 ra rb hra hrb

/-- Witness of C22: a limit of 2 over five projects of which three have a record
returns the two accessed last. -/
theorem recentProjects_top_witness :
    GetRecentProjects exampleEnv insertionSorter (.ok exampleProjects) (.object exampleRecent) 2
      = (.ok [exampleProject "p4", exampleProject "p5"], .object exampleRecent) ∧
    ∃ out omitted,
      GetRecentProjects exampleEnv insertionSorter (.ok exampleProjects)
        (.object exampleRecent) 2 = (.ok out, .object exampleRecent) ∧
      (out.length : Int) = 2 ∧
      (∀ p ∈ out, (lookupRecord (some exampleRecent) p.ProjectInfo.ID).isSome = true) ∧
      (out ++ omitted).Perm exampleProjects ∧
      (∀ a ∈ out, ∀ b ∈ omitted, ∀ ra rb,
        lookupRecord (some exampleRecent) a.ProjectInfo.ID = some ra →
        lookupRecord (some exampleRecent) b.ProjectInfo.ID = some rb →
        rb.LastAccessed ≤ ra.LastAccessed) :=
  ⟨by decide,
    recentProjects_top exampleEnv insertionSorter exampleProjects (.object exampleRecent)
      (.object exampleRecent) 2 "/h" (some exampleRecent) rfl (by decide) (by decide)
      (by decide)⟩

/-! ## The order of projects of equal rank -/

/-- C23, as amended: for every implementation of `sort.Slice` the sort of
GetRecentProjects keeps, under every test, the projects that pass it, each as often as
in the discovery list, so that projects which the ordering does not distinguish are
all in the result; and with a stable implementation, insertion sort, two such projects
stand in the result in the order they have in the discovery list. -/
theorem recentProjects_ties (sorter : SliceSorter) (records : Option AccessMap)
    (projects : List Project) :
    (∀ test : Project → Bool,
      ((orderByAccess sorter records projects).filter test).Perm (projects.filter test)) ∧
    (∀ a b, recentLess records a b = false → recentLess records b a = false →
      List.Sublist [a, b] projects →
      List.Sublist [a, b] (orderByAccess insertionSorter records projects)) := by
  constructor
  · intro test
    exact (sorter.perm (recentLess records) projects).filter test
  · intro a b _ hba hsub
    exact List.pair_sublist_insertionSort (r := fun a b => recentLess records b a = false)
      hba hsub

/-- Witness of C23, as amended: projects `p1` and `p3`, both without a record, keep
their order under insertion sort. -/
theorem recentProjects_ties_witness :
    List.Sublist [exampleProject "p1", exampleProject "p3"]
      (orderByAccess insertionSorter (some exampleRecent) exampleProjects) :=
  (recentProjects_ties insertionSorter (some exampleRecent) exampleProjects).2
    (exampleProject "p1") (exampleProject "p3") (by decide) (by decide) (by decide)

/-- C23 fails as stated: of fourteen discovered projects the second alone has an access
record.  `sort.Slice` takes the seventh project for its pivot and swaps it with the
first, partitions, and sorts the twelve projects behind the pivot by insertion, which
moves none of them: GetRecentProjects returns `p07` before `p03` and `p03` before
`p01`, projects without a record that the comparison does not distinguish and that
were discovered in the opposite order. -/
theorem recentProjects_unstable_counterexample :
    recentLess (some oneRecord) (exampleProject "p01") (exampleProject "p03") = false ∧
    recentLess (some oneRecord) (exampleProject "p03") (exampleProject "p01") = false ∧
    List.Sublist [exampleProject "p01", exampleProject "p03"] fourteenProjects ∧
    SortSlice (recentLess (some oneRecord)) fourteenProjects
      = some [exampleProject "p02", exampleProject "p07", exampleProject "p03",
          exampleProject "p04", exampleProject "p05", exampleProject "p06",
          exampleProject "p01", exampleProject "p08", exampleProject "p09",
          exampleProject "p10", exampleProject "p11", exampleProject "p12",
          exampleProject "p13", exampleProject "p14"] ∧
    GetRecentProjects exampleEnv goSorter (.ok fourteenProjects) (.object oneRecord) 0
      = (.ok [exampleProject "p02", exampleProject "p07", exampleProject "p03",
          exampleProject "p04", exampleProject "p05", exampleProject "p06",
          exampleProject "p01", exampleProject "p08", exampleProject "p09",
          exampleProject "p10", exampleProject "p11", exampleProject "p12",
          exampleProject "p13", exampleProject "p14"], .object oneRecord) := by
  decide

/-! ## The substring test of `pk doctor` -/

/-- C30: containsString is a total function: on all strings it returns without the
panic of a slice out of range, and it returns true exactly when the needle is a
contiguous part of the haystack; so true for the empty needle and false for a needle
longer than the haystack. -/
theorem containsString_spec (haystack needle : List UInt8) :
    (∃ b, containsString haystack needle = some b ∧
      (b = true ↔ List.IsInfix needle haystack)) ∧
    (needle = [] → containsString haystack needle = some true) ∧
    (haystack.length < needle.length → containsString haystack needle = some false) := by
  have main : ∀ haystack : List UInt8, ∃ b, containsString haystack needle = some b ∧
      (b = true ↔ List.IsInfix needle haystack) := by
    intro haystack
    induction haystack with
    | nil =>
      rw [containsString]
      by_cases hn : needle = []
      · subst hn
        refine ⟨true, ?_, ?_⟩
        · rw [if_pos (le_refl _), if_pos rfl]
        · simp
      · have hlen : ¬ (([] : List UInt8).length ≥ needle.length) := by
          have := List.length_pos.2 hn
          simp only [List.length_nil, ge_iff_le, not_le]
          exact this
        refine ⟨false, by rw [if_neg hlen], ?_⟩
        simp only [Bool.false_eq_true, false_iff]
        intro hinf
        exact hn (List.eq_nil_of_infix_nil hinf)
    | cons c t ih =>
      obtain ⟨b, hb, hiff⟩ := ih
      rw [containsString]
      by_cases hlen : (c :: t).length ≥ needle.length
      · rw [if_pos hlen]
        by_cases heq : c :: t = needle
        · refine ⟨true, by rw [if_pos heq], ?_⟩
          simp only [true_iff]
          exact heq ▸ List.infix_refl (c :: t)
        · rw [if_neg heq]
          have hto : sliceTo (c :: t) needle.length = some ((c :: t).take needle.length) := by
            have hbound : (0 : Int) ≤ needle.length ∧ (needle.length : Int) ≤ (c :: t).length := by
              constructor
              · omega
              · exact_mod_cast hlen
            unfold sliceTo
            rw [if_pos hbound, Int.toNat_ofNat]
          have hfrom : sliceFrom (c :: t) 1 = some t := by
            have hbound : (0 : Int) ≤ 1 ∧ (1 : Int) ≤ (c :: t).length := by
              constructor
              · omega
              · simp only [List.length_cons, Nat.cast_add, Nat.cast_one]
                omega
            unfold sliceFrom
            rw [if_pos hbound]
            rfl
          rw [hto]
          by_cases hpre : (c :: t).take needle.length = needle
          · refine ⟨true, by simp only [hpre, if_true], ?_⟩
            simp only [true_iff]
            have : List.IsPrefix needle (c :: t) := by
              rw [← hpre]
              exact List.take_prefix _ _
            exact this.isInfix
          · refine ⟨b, ?_, ?_⟩
            · simp only [hpre, if_false]
              split
              · next hnone => rw [hfrom] at hnone; cases hnone
              · next rest hrest =>
                rw [hfrom] at hrest
                cases hrest
                exact hb
            · rw [hiff, List.infix_cons_iff]
              constructor
              · exact Or.inr
              · rintro (hp | hi)
                · exact absurd (List.prefix_iff_eq_take.1 hp).symm hpre
                · exact hi
      · refine ⟨false, by rw [if_neg hlen], ?_⟩
        simp only [Bool.false_eq_true, false_iff]
        intro hinf
        exact hlen hinf.length_le
  refine ⟨main haystack, ?_, ?_⟩
  · intro hn
    obtain ⟨b, hb, hiff⟩ := main haystack
    have : b = true := hiff.2 (by rw [hn]; exact List.nil_infix)
    rw [hb, this]
  · intro hlt
    have hlen : ¬ (haystack.length ≥ needle.length) := by omega
    rw [containsString, if_neg hlen]

/-- Witness of C30: the empty needle, and a needle longer than the haystack. -/
theorem containsString_spec_witness :
    containsString [104, 105] [] = some true ∧
    containsString [104] [104, 105] = some false :=
  ⟨(containsString_spec [104, 105] []).2.1 rfl,
    (containsString_spec [104] [104, 105]).2.2 (by decide)⟩

/-! ## The name of the session -/

theorem runCommand_calls (t : Terminal) (calls : List TmuxCommand) (cmd : TmuxCommand) :
    (runCommand t calls cmd).2 = calls ++ [cmd] := rfl

/-- SwitchSession adds calls that name the session. -/
theorem SwitchSession_calls (t : Terminal) (calls : List TmuxCommand) (name : String) :
    ∃ added, (SwitchSession t calls name).2 = calls ++ added ∧
      ∀ c ∈ added, c.session = name := by
  refine ⟨[if t.inTmux then .switchClient name else .attachSession name], ?_, ?_⟩
  · simp only [SwitchSession, runCommand]
    split <;> next h => simp only [Prod.mk.injEq] at h; exact h.2.symm
  · intro c hc
    simp only [List.mem_singleton] at hc
    subst hc
    cases t.inTmux <;> rfl

/-- CreateBasicSession adds calls that name the session. -/
theorem CreateBasicSession_calls (t : Terminal) (calls : List TmuxCommand)
    (name path : String) :
    ∃ added, (CreateBasicSession t calls name path).2 = calls ++ added ∧
      ∀ c ∈ added, c.session = name := by
  unfold CreateBasicSession
  cases hin : t.inTmux with
  | true =>
    simp only [if_true, runCommand]
    split
    · next calls' h =>
      simp only [Prod.mk.injEq] at h
      obtain ⟨_, rfl⟩ := h
      exact ⟨[.newSession true name path], rfl, by simp [TmuxCommand.session]⟩
    · next calls' h =>
      simp only [Prod.mk.injEq] at h
      obtain ⟨_, rfl⟩ := h
      obtain ⟨added, hcalls, hall⟩ :=
        SwitchSession_calls t (calls ++ [.newSession true name path]) name
      refine ⟨.newSession true name path :: added, ?_, ?_⟩
      · simp only [hcalls, List.append_assoc, List.singleton_append]
      · intro c hc
        rcases List.mem_cons.1 hc with rfl | hc
        · rfl
        · exact hall c hc
  | false =>
    simp only [Bool.false_eq_true, if_false, runCommand]
    split <;>
    · next calls' h =>
      simp only [Prod.mk.injEq] at h
      obtain ⟨_, rfl⟩ := h
      exact ⟨[.newSession false name path], rfl, by simp [TmuxCommand.session]⟩

/-- The loop over the windows adds calls that name the session. -/
theorem createWindows_calls (t : Terminal) (name projectPath : String) (i : Nat)
    (windows : List TmuxWindow) (calls : List TmuxCommand) :
    ∃ added, (createWindows t name projectPath i windows calls).2 = calls ++ added ∧
      ∀ c ∈ added, c.session = name := by
  induction windows generalizing i calls with
  | nil => exact ⟨[], by simp [createWindows], by simp⟩
  | cons window rest ih =>
    have key : ∀ (cmd : TmuxCommand) (windowName : String), cmd.session = name →
        ∃ added,
          (match runCommand t calls cmd with
            | (false, calls') =>
              ((.error (.createWindowFailed windowName) : Except SessionError Unit), calls')
            | (true, calls') =>
              if window.Command ≠ "" then
                createWindows t name projectPath (i + 1) rest
                  (runCommand t calls' (.sendKeys name (i + 1) window.Command)).2
              else createWindows t name projectPath (i + 1) rest calls').2
            = calls ++ added ∧
          ∀ c ∈ added, c.session = name := by
      intro cmd windowName hcmd
      simp only [runCommand]
      cases t.run calls cmd with
      | false => exact ⟨[cmd], rfl, by simpa using hcmd⟩
      | true =>
        simp only
        split
        · obtain ⟨added, hcalls, hall⟩ := ih (i + 1)
            (calls ++ [cmd] ++ [.sendKeys name (i + 1) window.Command])
          refine ⟨cmd :: .sendKeys name (i + 1) window.Command :: added, ?_, ?_⟩
          · rw [hcalls]
            simp only [List.append_assoc, List.singleton_append, List.cons_append,
              List.nil_append]
          · intro c hc
            rcases List.mem_cons.1 hc with rfl | hc
            · exact hcmd
            · rcases List.mem_cons.1 hc with rfl | hc
              · rfl
              · exact hall c hc
        · obtain ⟨added, hcalls, hall⟩ := ih (i + 1) (calls ++ [cmd])
          refine ⟨cmd :: added, ?_, ?_⟩
          · rw [hcalls]
            simp only [List.append_assoc, List.singleton_append]
          · intro c hc
            rcases List.mem_cons.1 hc with rfl | hc
            · exact hcmd
            · exact hall c hc
    unfold createWindows
    exact key _ _ rfl

/-- CreateWithLayout adds calls that name the sanitized project id. -/
theorem CreateWithLayout_calls (t : Terminal) (calls : List TmuxCommand) (project : Project)
    (tmux : TmuxSection) :
    ∃ added, (CreateWithLayout t calls project tmux).2 = calls ++ added ∧
      ∀ c ∈ added, c.session = SanitizeSessionName project.ProjectInfo.ID := by
  unfold CreateWithLayout
  simp only [runCommand]
  cases t.run calls (.newSession true (SanitizeSessionName project.ProjectInfo.ID) project.Path) with
  | false => exact ⟨[_], rfl, by simp [TmuxCommand.session]⟩
  | true =>
    simp only
    obtain ⟨added₁, hcalls₁, hall₁⟩ := createWindows_calls t
      (SanitizeSessionName project.ProjectInfo.ID) project.Path 0 tmux.Windows
      (calls ++ [.newSession true (SanitizeSessionName project.ProjectInfo.ID) project.Path]
        ++ [.killWindow (SanitizeSessionName project.ProjectInfo.ID) 1])
    cases hw : createWindows t (SanitizeSessionName project.ProjectInfo.ID) project.Path 0
        tmux.Windows
        (calls ++ [.newSession true (SanitizeSessionName project.ProjectInfo.ID) project.Path]
          ++ [.killWindow (SanitizeSessionName project.ProjectInfo.ID) 1]) with
    | mk res calls₃ =>
      rw [hw] at hcalls₁
      simp only at hcalls₁
      have hhead : ∀ c ∈ TmuxCommand.newSession true
            (SanitizeSessionName project.ProjectInfo.ID) project.Path ::
          TmuxCommand.killWindow (SanitizeSessionName project.ProjectInfo.ID) 1 :: added₁,
          c.session = SanitizeSessionName project.ProjectInfo.ID := by
        intro c hc
        rcases List.mem_cons.1 hc with rfl | hc
        · rfl
        · rcases List.mem_cons.1 hc with rfl | hc
          · rfl
          · exact hall₁ c hc
      have hcalls₃ : calls₃ = calls ++ (TmuxCommand.newSession true
            (SanitizeSessionName project.ProjectInfo.ID) project.Path ::
          TmuxCommand.killWindow (SanitizeSessionName project.ProjectInfo.ID) 1 :: added₁) := by
        rw [hcalls₁]
        simp only [List.append_assoc, List.singleton_append, List.cons_append,
          List.nil_append]
      obtain ⟨hd, hcalls₃, hhead⟩ : ∃ hd, calls₃ = calls ++ hd ∧
          ∀ c ∈ hd, c.session = SanitizeSessionName project.ProjectInfo.ID :=
        ⟨_, hcalls₃, hhead⟩
      cases res with
      | error err => exact ⟨hd, hcalls₃, hhead⟩
      | ok u =>
        simp only
        by_cases hlay : tmux.Layout ≠ ""
        · obtain ⟨added₂, hcalls₂, hall₂⟩ := SwitchSession_calls t
            (calls₃ ++ [.selectLayout (SanitizeSessionName project.ProjectInfo.ID) tmux.Layout])
            (SanitizeSessionName project.ProjectInfo.ID)
          refine ⟨hd ++ (TmuxCommand.selectLayout (SanitizeSessionName project.ProjectInfo.ID)
            tmux.Layout :: added₂), ?_, ?_⟩
          · rw [if_pos hlay, hcalls₂, hcalls₃]
            simp only [List.append_assoc, List.singleton_append, List.cons_append,
              List.nil_append]
          · intro c hc
            rcases List.mem_append.1 hc with hc | hc
            · exact hhead c hc
            · rcases List.mem_cons.1 hc with rfl | hc
              · rfl
              · exact hall₂ c hc
        · obtain ⟨added₂, hcalls₂, hall₂⟩ := SwitchSession_calls t calls₃
            (SanitizeSessionName project.ProjectInfo.ID)
          refine ⟨hd ++ added₂, ?_, ?_⟩
          · rw [if_neg hlay, hcalls₂, hcalls₃]
            simp only [List.append_assoc]
          · intro c hc
            rcases List.mem_append.1 hc with hc | hc
            · exact hhead c hc
            · exact hall₂ c hc

/-- CreateSession asks for the session of the sanitized project id first, and every
call it makes names that session. -/
theorem CreateSession_calls (t : Terminal) (calls : List TmuxCommand) (project : Project)
    (tmux : TmuxSection) :
    ∃ added, (CreateSession t calls project tmux).2
        = calls ++ .hasSession (SanitizeSessionName project.ProjectInfo.ID) :: added ∧
      ∀ c ∈ added, c.session = SanitizeSessionName project.ProjectInfo.ID := by
  unfold CreateSession SessionExists
  simp only [runCommand]
  cases t.run calls (.hasSession (SanitizeSessionName project.ProjectInfo.ID)) with
  | true =>
    obtain ⟨added, hcalls, hall⟩ := SwitchSession_calls t
      (calls ++ [.hasSession (SanitizeSessionName project.ProjectInfo.ID)])
      (SanitizeSessionName project.ProjectInfo.ID)
    exact ⟨added, by simp only [hcalls, List.append_assoc, List.singleton_append], hall⟩
  | false =>
    simp only
    split
    · obtain ⟨added, hcalls, hall⟩ := CreateWithLayout_calls t
        (calls ++ [.hasSession (SanitizeSessionName project.ProjectInfo.ID)]) project tmux
      exact ⟨added, by simp only [hcalls, List.append_assoc, List.singleton_append], hall⟩
    · obtain ⟨added, hcalls, hall⟩ := CreateBasicSession_calls t
        (calls ++ [.hasSession (SanitizeSessionName project.ProjectInfo.ID)])
        (SanitizeSessionName project.ProjectInfo.ID) project.Path
      exact ⟨added, by simp only [hcalls, List.append_assoc, List.singleton_append], hall⟩

/-- SwitchSession makes one call, which goes to the session. -/
theorem SwitchSession_eq (t : Terminal) (calls : List TmuxCommand) (name : String) :
    SwitchSession t calls name
      = (if t.run calls (if t.inTmux then .switchClient name else .attachSession name) = true
          then .ok () else .error .commandFailed,
        calls ++ [if t.inTmux then .switchClient name else .attachSession name]) := by
  simp only [SwitchSession, runCommand]
  cases t.run calls (if t.inTmux then .switchClient name else .attachSession name) <;> rfl

/-- CreateBasicSession inside tmux makes the session detached and switches to it. -/
theorem CreateBasicSession_inTmux (t : Terminal) (calls : List TmuxCommand)
    (name path : String) (hin : t.inTmux = true) :
    CreateBasicSession t calls name path
      = if t.run calls (.newSession true name path) = true then
          (if t.run (calls ++ [.newSession true name path]) (.switchClient name) = true
              then .ok () else .error .commandFailed,
            calls ++ [.newSession true name path, .switchClient name])
        else (.error .createSessionFailed, calls ++ [.newSession true name path]) := by
  simp only [CreateBasicSession, hin, if_true, runCommand]
  cases t.run calls (.newSession true name path) with
  | false => rfl
  | true =>
    simp only [SwitchSession_eq, hin, if_true, List.append_assoc, List.singleton_append]

/-- CreateBasicSession outside tmux makes the session and attaches to it. -/
theorem CreateBasicSession_outside (t : Terminal) (calls : List TmuxCommand)
    (name path : String) (hin : t.inTmux = false) :
    CreateBasicSession t calls name path
      = (if t.run calls (.newSession false name path) = true then .ok ()
          else .error .commandFailed,
        calls ++ [.newSession false name path]) := by
  simp only [CreateBasicSession, hin, Bool.false_eq_true, if_false, runCommand]
  cases t.run calls (.newSession false name path) <;> rfl

/-- CreateWithLayout first makes the session, detached; every call after that names the
session; and when it succeeds its last call goes to the session. -/
theorem CreateWithLayout_spec (t : Terminal) (calls : List TmuxCommand) (project : Project)
    (tmux : TmuxSection) :
    ∃ added, (CreateWithLayout t calls project tmux).2
        = calls ++ .newSession true (SanitizeSessionName project.ProjectInfo.ID) project.Path
            :: added ∧
      (∀ c ∈ added, c.session = SanitizeSessionName project.ProjectInfo.ID) ∧
      ((CreateWithLayout t calls project tmux).1 = .ok () →
        t.run calls (.newSession true (SanitizeSessionName project.ProjectInfo.ID)
          project.Path) = true ∧
        added.head? = some (.killWindow (SanitizeSessionName project.ProjectInfo.ID) 1) ∧
        added.getLast? = some (if t.inTmux
          then .switchClient (SanitizeSessionName project.ProjectInfo.ID)
          else .attachSession (SanitizeSessionName project.ProjectInfo.ID))) := by
  unfold CreateWithLayout
  simp only [runCommand]
  cases hnew : t.run calls
      (.newSession true (SanitizeSessionName project.ProjectInfo.ID) project.Path) with
  | false => exact ⟨[], rfl, by simp, fun h => by cases h⟩
  | true =>
    simp only
    obtain ⟨added₁, hcalls₁, hall₁⟩ := createWindows_calls t
      (SanitizeSessionName project.ProjectInfo.ID) project.Path 0 tmux.Windows
      (calls ++ [.newSession true (SanitizeSessionName project.ProjectInfo.ID) project.Path]
        ++ [.killWindow (SanitizeSessionName project.ProjectInfo.ID) 1])
    cases hw : createWindows t (SanitizeSessionName project.ProjectInfo.ID) project.Path 0
        tmux.Windows
        (calls ++ [.newSession true (SanitizeSessionName project.ProjectInfo.ID) project.Path]
          ++ [.killWindow (SanitizeSessionName project.ProjectInfo.ID) 1]) with
    | mk res calls₃ =>
      rw [hw] at hcalls₁
      simp only at hcalls₁
      have hcalls₃ : calls₃ = calls ++ TmuxCommand.newSession true
            (SanitizeSessionName project.ProjectInfo.ID) project.Path ::
          (TmuxCommand.killWindow (SanitizeSessionName project.ProjectInfo.ID) 1 :: added₁) := by
        rw [hcalls₁]
        simp only [List.append_assoc, List.singleton_append, List.cons_append,
          List.nil_append]
      have hkill : ∀ c ∈ TmuxCommand.killWindow (SanitizeSessionName project.ProjectInfo.ID) 1
            :: added₁, c.session = SanitizeSessionName project.ProjectInfo.ID := by
        intro c hc
        rcases List.mem_cons.1 hc with rfl | hc
        · rfl
        · exact hall₁ c hc
      cases res with
      | error err => exact ⟨_, hcalls₃, hkill, fun h => by cases h⟩
      | ok u =>
        simp only [SwitchSession_eq]
        by_cases hlay : tmux.Layout ≠ ""
        · refine ⟨(TmuxCommand.killWindow (SanitizeSessionName project.ProjectInfo.ID) 1
              :: added₁) ++ [.selectLayout (SanitizeSessionName project.ProjectInfo.ID)
                tmux.Layout] ++ [if t.inTmux
                  then .switchClient (SanitizeSessionName project.ProjectInfo.ID)
                  else .attachSession (SanitizeSessionName project.ProjectInfo.ID)],
            ?_, ?_, fun _ => ⟨(by simp), (by simp), ?_⟩⟩
          · rw [if_pos hlay, hcalls₃]
            simp only [List.append_assoc, List.singleton_append, List.cons_append,
              List.nil_append]
          · intro c hc
            rcases List.mem_append.1 hc with hc | hc
            · rcases List.mem_append.1 hc with hc | hc
              · exact hkill c hc
              · simp only [List.mem_singleton] at hc
                subst hc
                rfl
            · simp only [List.mem_singleton] at hc
              subst hc
              cases t.inTmux <;> rfl
          · exact List.getLast?_concat _
        · refine ⟨(TmuxCommand.killWindow (SanitizeSessionName project.ProjectInfo.ID) 1
              :: added₁) ++ [if t.inTmux
                  then .switchClient (SanitizeSessionName project.ProjectInfo.ID)
                  else .attachSession (SanitizeSessionName project.ProjectInfo.ID)],
            ?_, ?_, fun _ => ⟨(by simp), (by simp), ?_⟩⟩
          · rw [if_neg hlay, hcalls₃]
            simp only [List.append_assoc, List.singleton_append, List.cons_append,
              List.nil_append]
          · intro c hc
            rcases List.mem_append.1 hc with hc | hc
            · exact hkill c hc
            · simp only [List.mem_singleton] at hc
              subst hc
              cases t.inTmux <;> rfl
          · exact List.getLast?_concat _

/-- What CreateSession does: it asks for the session of the sanitized project id; when
the session is there it goes to it; when it is not and the project configures no
window it makes the session in the path of the project, detached and followed by a
switch inside tmux, attached outside; and when the project configures windows it makes
the session detached, names it in every further call, and ends, when it succeeds, with
the call that goes to it. -/
theorem CreateSession_spec (t : Terminal) (calls : List TmuxCommand) (project : Project)
    (tmux : TmuxSection) :
    (t.run calls (.hasSession (SanitizeSessionName project.ProjectInfo.ID)) = true →
      CreateSession t calls project tmux
        = SwitchSession t (calls ++ [.hasSession (SanitizeSessionName project.ProjectInfo.ID)])
            (SanitizeSessionName project.ProjectInfo.ID)) ∧
    (t.run calls (.hasSession (SanitizeSessionName project.ProjectInfo.ID)) = false →
      tmux.Windows = [] →
      CreateSession t calls project tmux
        = CreateBasicSession t
            (calls ++ [.hasSession (SanitizeSessionName project.ProjectInfo.ID)])
            (SanitizeSessionName project.ProjectInfo.ID) project.Path) ∧
    (t.run calls (.hasSession (SanitizeSessionName project.ProjectInfo.ID)) = false →
      tmux.Windows ≠ [] →
      CreateSession t calls project tmux
        = CreateWithLayout t
            (calls ++ [.hasSession (SanitizeSessionName project.ProjectInfo.ID)])
            project tmux) := by
  refine ⟨fun h => ?_, fun h hw => ?_, fun h hw => ?_⟩
  · simp only [CreateSession, SessionExists, runCommand, h]
  · simp only [CreateSession, SessionExists, runCommand, h, hw, List.length_nil,
      gt_iff_lt, lt_self_iff_false, if_false]
  · have hlen : tmux.Windows.length > 0 := List.length_pos.2 hw
    simp only [CreateSession, SessionExists, runCommand, h, hlen, if_true]

theorem utf8ByteSize_go_map (l : List Char) :
    String.utf8ByteSize.go (l.map (fun c => if c = '.' then '_' else c))
      = String.utf8ByteSize.go l := by
  induction l with
  | nil => rfl
  | cons c cs ih =>
    simp only [List.map, String.utf8ByteSize.go, ih]
    by_cases hc : c = '.'
    · subst hc
      rfl
    · simp [hc]

/-- C24: SanitizeSessionName keeps the length of the text, in characters and in bytes;
its result has no dot; at every position it has `_` where the text has a dot and the
character of the text elsewhere; sanitizing twice is sanitizing once; and CreateSession
asks tmux first for the session named by the sanitized project id and names that
session in every call it makes: when the session is there, its one further call goes
to it; when it is not and the project configures no window, it makes the session of
that name in the path of the project, detached and followed by the switch to it inside
tmux, attached outside; and when the project configures windows it makes the session of
that name detached, and when it succeeds the session was made, the next call removed
the first window and the last call goes to the session. -/
theorem sanitizeSessionName_spec (s : String) :
    (SanitizeSessionName s).length = s.length ∧
    (SanitizeSessionName s).utf8ByteSize = s.utf8ByteSize ∧
    '.' ∉ (SanitizeSessionName s).data ∧
    (∀ i : Nat, (SanitizeSessionName s).data[i]?
      = (s.data[i]?).map (fun c => if c = '.' then '_' else c)) ∧
    SanitizeSessionName (SanitizeSessionName s) = SanitizeSessionName s ∧
    (∀ (t : Terminal) (calls : List TmuxCommand) (path : String) (info : ProjectInfo)
        (tmux : TmuxSection),
      ∃ added,
        (CreateSession t calls { Path := path, ProjectInfo := { info with ID := s } } tmux).2
          = calls ++ .hasSession (SanitizeSessionName s) :: added ∧
        ∀ c ∈ added, c.session = SanitizeSessionName s) ∧
    (∀ (t : Terminal) (calls : List TmuxCommand) (path : String) (info : ProjectInfo)
        (tmux : TmuxSection),
      (t.run calls (.hasSession (SanitizeSessionName s)) = true →
        CreateSession t calls { Path := path, ProjectInfo := { info with ID := s } } tmux
          = (if t.run (calls ++ [.hasSession (SanitizeSessionName s)])
                (if t.inTmux then .switchClient (SanitizeSessionName s)
                  else .attachSession (SanitizeSessionName s)) = true
              then .ok () else .error .commandFailed,
            calls ++ [.hasSession (SanitizeSessionName s),
              if t.inTmux then .switchClient (SanitizeSessionName s)
              else .attachSession (SanitizeSessionName s)])) ∧
      (t.run calls (.hasSession (SanitizeSessionName s)) = false → tmux.Windows = [] →
        t.inTmux = true →
        CreateSession t calls { Path := path, ProjectInfo := { info with ID := s } } tmux
          = if t.run (calls ++ [.hasSession (SanitizeSessionName s)])
                (.newSession true (SanitizeSessionName s) path) = true then
              (if t.run (calls ++ [.hasSession (SanitizeSessionName s),
                    .newSession true (SanitizeSessionName s) path])
                  (.switchClient (SanitizeSessionName s)) = true
                then .ok () else .error .commandFailed,
                calls ++ [.hasSession (SanitizeSessionName s),
                  .newSession true (SanitizeSessionName s) path,
                  .switchClient (SanitizeSessionName s)])
            else (.error .createSessionFailed,
              calls ++ [.hasSession (SanitizeSessionName s),
                .newSession true (SanitizeSessionName s) path])) ∧
      (t.run calls (.hasSession (SanitizeSessionName s)) = false → tmux.Windows = [] →
        t.inTmux = false →
        CreateSession t calls { Path := path, ProjectInfo := { info with ID := s } } tmux
          = (if t.run (calls ++ [.hasSession (SanitizeSessionName s)])
                (.newSession false (SanitizeSessionName s) path) = true
              then .ok () else .error .commandFailed,
            calls ++ [.hasSession (SanitizeSessionName s),
              .newSession false (SanitizeSessionName s) path])) ∧
      (t.run calls (.hasSession (SanitizeSessionName s)) = false → tmux.Windows ≠ [] →
        ∃ added,
          (CreateSession t calls { Path := path, ProjectInfo := { info with ID := s } } tmux).2
            = calls ++ .hasSession (SanitizeSessionName s) ::
                .newSession true (SanitizeSessionName s) path :: added ∧
          (∀ c ∈ added, c.session = SanitizeSessionName s) ∧
          ((CreateSession t calls { Path := path, ProjectInfo := { info with ID := s } }
              tmux).1 = .ok () →
            t.run (calls ++ [.hasSession (SanitizeSessionName s)])
              (.newSession true (SanitizeSessionName s) path) = true ∧
            added.head? = some (.killWindow (SanitizeSessionName s) 1) ∧
            added.getLast? = some (if t.inTmux then .switchClient (SanitizeSessionName s)
              else .attachSession (SanitizeSessionName s))))) := by
  have hnodot : '.' ∉ (SanitizeSessionName s).data := by
    intro hmem
    simp only [SanitizeSessionName, List.mem_map] at hmem
    obtain ⟨c, _, hc⟩ := hmem
    by_cases hdot : c = '.'
    · simp [hdot] at hc
    · simp only [hdot, if_false] at hc
  refine ⟨?_, ?_, hnodot, ?_, ?_, ?_, ?_⟩
  · simp only [SanitizeSessionName, String.length, List.length_map]
  · simp only [SanitizeSessionName, String.utf8ByteSize]
    exact utf8ByteSize_go_map s.data
  · intro i
    simp [SanitizeSessionName, List.getElem?_map]
  · simp only [SanitizeSessionName, List.map_map]
    congr 1
    apply List.map_congr_left
    intro c _
    by_cases hdot : c = '.'
    · simp [hdot]
    · simp [hdot]
  · intro t calls path info tmux
    exact CreateSession_calls t calls { Path := path, ProjectInfo := { info with ID := s } } tmux
  · intro t calls path info tmux
    obtain ⟨hthere, hbasic, hlayout⟩ :=
      CreateSession_spec t calls { Path := path, ProjectInfo := { info with ID := s } } tmux
    refine ⟨fun h => ?_, fun h hw hin => ?_, fun h hw hin => ?_, fun h hw => ?_⟩
    · rw [hthere h, SwitchSession_eq]
      simp only [List.append_assoc, List.singleton_append]
    · rw [hbasic h hw, CreateBasicSession_inTmux _ _ _ _ hin]
      simp only [List.append_assoc, List.singleton_append]
    · rw [hbasic h hw, CreateBasicSession_outside _ _ _ _ hin]
      simp only [List.append_assoc, List.singleton_append]
    · rw [hlayout h hw]
      obtain ⟨added, hcalls, hall, hok⟩ := CreateWithLayout_spec t
        (calls ++ [.hasSession (SanitizeSessionName s)])
        { Path := path, ProjectInfo := { info with ID := s } } tmux
      exact ⟨added, by simp only [hcalls, List.append_assoc, List.singleton_append], hall, hok⟩

/-- Witness of C24: a project id with two dots, and the session made for it inside tmux
when no session of that name is there. -/
theorem sanitizeSessionName_spec_witness :
    SanitizeSessionName "my.app.v2" = "my_app_v2" ∧
    (SanitizeSessionName "my.app.v2").length = "my.app.v2".length ∧
    SanitizeSessionName (SanitizeSessionName "my.app.v2") = SanitizeSessionName "my.app.v2" ∧
    CreateSession freshTerminal []
        ⟨"/h/projects/my.app.v2", ⟨"App", "my.app.v2", "active", ""⟩⟩
        { Layout := "", Windows := [] }
      = (.ok (), [.hasSession "my_app_v2",
          .newSession true "my_app_v2" "/h/projects/my.app.v2",
          .switchClient "my_app_v2"]) :=
  ⟨by decide, (sanitizeSessionName_spec "my.app.v2").1,
    (sanitizeSessionName_spec "my.app.v2").2.2.2.2.1,
    ((sanitizeSessionName_spec "my.app.v2").2.2.2.2.2.2 freshTerminal []
      "/h/projects/my.app.v2"
      ⟨"App", "my.app.v2", "active", ""⟩
      { Layout := "", Windows := [] }).2.1 (by decide) rfl rfl⟩

/-! ## The JSON text of the pin store -/

theorem Char.toNat_valid (c : Char) :
    c.toNat < 0xD800 ∨ (0xDFFF < c.toNat ∧ c.toNat < 0x110000) := c.valid

theorem UInt8.toNat_ofNat_mod (n : Nat) : (UInt8.ofNat n).toNat = n % 256 := rfl

/-- DecodeRune reads back the character that encodeRune wrote. -/
theorem decodeRune_encodeRune (c : Char) (rest : List UInt8) :
    DecodeRune (encodeRune c ++ rest) = (c, (encodeRune c).length) := by
  have hv := Char.toNat_valid c
  have hc := Char.ofNat_toNat c
  unfold DecodeRune encodeRune
  generalize c.toNat = v at hv hc ⊢
  by_cases h1 : v < 0x80
  · have e1 : v % 256 = v := by omega
    simp [h1, decodeRune, UInt8.toNat_ofNat_mod, e1, hc]
  · by_cases h2 : v < 0x800
    · have a0 : (192 + v / 64) % 256 = 192 + v / 64 := by omega
      have a1 : (128 + v % 64) % 256 = 128 + v % 64 := by omega
      have c1 : ¬ (192 + v / 64 < 128) := by omega
      have c2 : 194 ≤ 192 + v / 64 ∧ 192 + v / 64 ≤ 223 := by omega
      have c3 : 128 ≤ 128 + v % 64 ∧ 128 + v % 64 ≤ 191 := by omega
      have r : (192 + v / 64 - 192) * 64 + (128 + v % 64 - 128) = v := by omega
      simp only [h1, h2, if_false, if_true, List.map_cons, List.cons_append, List.map_nil,
        List.nil_append, UInt8.toNat_ofNat_mod, a0, a1, decodeRune, c1, c2, c3, r, hc,
        List.length_cons, List.length_nil, and_self]
    · by_cases h3 : v < 0x10000
      · have a0 : (224 + v / 4096) % 256 = 224 + v / 4096 := by omega
        have a1 : (128 + v / 64 % 64) % 256 = 128 + v / 64 % 64 := by omega
        have a2 : (128 + v % 64) % 256 = 128 + v % 64 := by omega
        have c1 : ¬ (224 + v / 4096 < 128) := by omega
        have c2 : ¬ (194 ≤ 224 + v / 4096 ∧ 224 + v / 4096 ≤ 223) := by omega
        have c3 : 224 ≤ 224 + v / 4096 ∧ 224 + v / 4096 ≤ 239 := by omega
        have c4 : (if 224 + v / 4096 = 224 then 160 else 128) ≤ 128 + v / 64 % 64 ∧
            128 + v / 64 % 64 ≤ (if 224 + v / 4096 = 237 then 159 else 191) ∧
            128 ≤ 128 + v % 64 ∧ 128 + v % 64 ≤ 191 := by
          split_ifs <;> omega
        have r : (224 + v / 4096 - 224) * 4096 + (128 + v / 64 % 64 - 128) * 64
            + (128 + v % 64 - 128) = v := by omega
        simp only [h1, h2, h3, if_false, if_true, List.map_cons, List.cons_append, List.map_nil,
          List.nil_append, UInt8.toNat_ofNat_mod, a0, a1, a2, decodeRune, c1, c2, c3,
          r, hc, List.length_cons, List.length_nil, and_self]
        rw [if_pos c4]
      · have a0 : (240 + v / 262144) % 256 = 240 + v / 262144 := by omega
        have a1 : (128 + v / 4096 % 64) % 256 = 128 + v / 4096 % 64 := by omega
        have a2 : (128 + v / 64 % 64) % 256 = 128 + v / 64 % 64 := by omega
        have a3 : (128 + v % 64) % 256 = 128 + v % 64 := by omega
        have c1 : ¬ (240 + v / 262144 < 128) := by omega
        have c2 : ¬ (194 ≤ 240 + v / 262144 ∧ 240 + v / 262144 ≤ 223) := by omega
        have c3 : ¬ (224 ≤ 240 + v / 262144 ∧ 240 + v / 262144 ≤ 239) := by omega
        have c3' : 240 ≤ 240 + v / 262144 ∧ 240 + v / 262144 ≤ 244 := by omega
        have c4 : (if 240 + v / 262144 = 240 then 144 else 128) ≤ 128 + v / 4096 % 64 ∧
            128 + v / 4096 % 64 ≤ (if 240 + v / 262144 = 244 then 143 else 191) ∧
            128 ≤ 128 + v / 64 % 64 ∧ 128 + v / 64 % 64 ≤ 191 ∧
            128 ≤ 128 + v % 64 ∧ 128 + v % 64 ≤ 191 := by
          split_ifs <;> omega
        have r : (240 + v / 262144 - 240) * 262144 + (128 + v / 4096 % 64 - 128) * 4096
            + (128 + v / 64 % 64 - 128) * 64 + (128 + v % 64 - 128) = v := by omega
        simp only [h1, h2, h3, if_false, if_true, List.map_cons, List.cons_append, List.map_nil,
          List.nil_append, UInt8.toNat_ofNat_mod, a0, a1, a2, a3, decodeRune, c1, c2, c3,
          c3', r, hc, List.length_cons, List.length_nil, and_self]
        rw [if_pos c4]

theorem encodeRune_ne_nil (c : Char) : encodeRune c ≠ [] := by
  unfold encodeRune
  split_ifs <;> simp

/-- The decoding loop reads back the characters of an encoded text. -/
theorem decodeTextLoop_encode (cs : List Char) (fuel : Nat) (hfuel : cs.length ≤ fuel) :
    decodeTextLoop fuel (cs.flatMap encodeRune) = cs := by
  induction cs generalizing fuel with
  | nil => cases fuel <;> rfl
  | cons c cs ih =>
    cases fuel with
    | zero => simp at hfuel
    | succ fuel =>
      rw [List.flatMap_cons]
      cases henc : encodeRune c with
      | nil => exact absurd henc (encodeRune_ne_nil c)
      | cons b tail =>
        rw [List.cons_append]
        unfold decodeTextLoop
        rw [← List.cons_append, ← henc, decodeRune_encodeRune]
        simp only [List.drop_left]
        rw [ih fuel (by simpa using hfuel)]

theorem length_le_flatMap_encodeRune (cs : List Char) :
    cs.length ≤ (cs.flatMap encodeRune).length := by
  induction cs with
  | nil => simp
  | cons c cs ih =>
    have := List.length_pos.2 (encodeRune_ne_nil c)
    simp only [List.flatMap_cons, List.length_append, List.length_cons]
    omega

/-- The JSON string written for the Go string of a text is that text. -/
theorem jsonText_goBytes (s : String) : jsonText (goBytes s) = s := by
  unfold jsonText goBytes
  rw [decodeTextLoop_encode s.data _ (length_le_flatMap_encodeRune s.data)]

/-- ParseInt reads back the key that FormatInt wrote for a slot. -/
theorem Atoi_Itoa_slot (k : Int) (h1 : 1 ≤ k) (h5 : k ≤ 5) : Atoi (Itoa k) = some k := by
  have hk : k = 1 ∨ k = 2 ∨ k = 3 ∨ k = 4 ∨ k = 5 := by omega
  rcases hk with rfl | rfl | rfl | rfl | rfl <;> decide

/-- The record of texts is read back from the JSON object written for it. -/
theorem unmarshalRecord_marshalRecord (r : PinRecord) (hlo : -(2 ^ 63) ≤ r.Slot)
    (hhi : r.Slot < 2 ^ 63) :
    unmarshalRecord (marshalRecord r.bytes) { Slot := 0, ProjectID := [], ProjectPath := [] }
      = some r.bytes := by
  have h1 : (foldName "project_id" = foldName "slot") = False := by decide
  have h2 : (foldName "project_path" = foldName "slot") = False := by decide
  have h3 : (foldName "project_path" = foldName "project_id") = False := by decide
  simp only [marshalRecord, unmarshalRecord, PinRecord.bytes, jsonText_goBytes, h1, h2, h3,
    if_true, if_false, hlo, hhi, and_self]

/-- The entries are read back from the members written for them, last first. -/
theorem unmarshalMembers_marshal (S acc : List (Int × PinBytes))
    (hnodup : (S.map Prod.fst).Nodup)
    (hkey : ∀ e ∈ S, Atoi (Itoa e.1) = some e.1)
    (hrec : ∀ e ∈ S, unmarshalRecord (marshalRecord e.2)
      { Slot := 0, ProjectID := [], ProjectPath := [] } = some e.2)
    (hacc : ∀ e ∈ S, ∀ a ∈ acc, a.1 ≠ e.1) :
    unmarshalMembers (S.map (fun e => (Itoa e.1, marshalRecord e.2))) acc
      = some (S.reverse ++ acc) := by
  induction S generalizing acc with
  | nil => rfl
  | cons e rest ih =>
    obtain ⟨k, r⟩ := e
    have hk := hkey (k, r) (List.mem_cons_self _ _)
    have hr := hrec (k, r) (List.mem_cons_self _ _)
    simp only at hk hr
    have hfilter : acc.filter (fun a => a.1 != k) = acc := by
      rw [List.filter_eq_self]
      intro a ha
      simpa using hacc (k, r) (List.mem_cons_self _ _) a ha
    rw [List.map_cons]
    unfold unmarshalMembers
    simp only [hk, hr, hfilter]
    rw [List.map_cons, List.nodup_cons] at hnodup
    rw [ih ((k, r) :: acc) hnodup.2
      (fun e he => hkey e (List.mem_cons_of_mem _ he))
      (fun e he => hrec e (List.mem_cons_of_mem _ he))]
    · simp only [List.reverse_cons, List.append_assoc, List.singleton_append]
    · intro e he a ha
      rcases List.mem_cons.1 ha with rfl | ha
      · intro heq
        exact hnodup.1 (List.mem_map.2 ⟨e, he, heq.symm⟩)
      · exact hacc e (List.mem_cons_of_mem _ he) a ha

/-- C25, amended: for a pin map of texts that has the slot invariant, SavePins leaves
the file of that map, whose JSON object has one member for every entry, under the
decimal text of the slot, with the fields slot, project_id and project_path of the
record and no other; Unmarshal reads from that object the entries of the map, so
that LoadPins returns the map; and LoadPins of the store without a file returns the
empty map. -/
theorem pins_round_trip (f : PinsFile) (m : PinMap) (hinv : SlotInvariant m) :
    SavePins f (some m) = (.ok (), .object m) ∧
    LoadPins (SavePins f (some m)).2 = .ok (some m) ∧
    (∃ members, MarshalIndent (some m.bytes) = .object members ∧
      members.Perm (m.entries.map (fun e =>
        (Itoa e.1, [("slot", JsonValue.number e.1), ("project_id", .string e.2.ProjectID),
          ("project_path", .string e.2.ProjectPath)])))) ∧
    (∃ pins, Unmarshal (MarshalIndent (some m.bytes)) = .ok (some pins) ∧
      pins.Perm m.bytes) ∧
    LoadPins .absent = .ok (some PinMap.empty) := by
  have hperm := List.perm_insertionSort
    (fun a b : Int × PinBytes => textLess (Itoa b.1).data (Itoa a.1).data = false) m.bytes
  have hmem : ∀ e ∈ m.bytes.insertionSort
      (fun a b => textLess (Itoa b.1).data (Itoa a.1).data = false),
      ∃ e' ∈ m.entries, e = (e'.1, e'.2.bytes) := by
    intro e he
    have he' := hperm.mem_iff.1 he
    simp only [PinMap.bytes, List.mem_map] at he'
    obtain ⟨e', he', rfl⟩ := he'
    exact ⟨e', he', rfl⟩
  have hkeys : (m.bytes.map Prod.fst) = m.entries.map Prod.fst := by
    simp [PinMap.bytes, List.map_map, Function.comp_def]
  refine ⟨rfl, rfl, ⟨_, rfl, ?_⟩, ?_, rfl⟩
  · refine (hperm.map _).trans ?_
    simp only [PinMap.bytes, List.map_map]
    refine List.Perm.of_eq (List.map_congr_left ?_)
    intro e he
    simp [marshalRecord, PinRecord.bytes, jsonText_goBytes, (hinv e he).2.2]
  · refine ⟨_, ?_, (List.reverse_perm _).trans hperm⟩
    simp only [MarshalIndent, Unmarshal]
    rw [unmarshalMembers_marshal _ []]
    · simp
    · exact (hperm.map Prod.fst).nodup_iff.2 (hkeys ▸ m.nodupKeys)
    · intro e he
      obtain ⟨e', he', rfl⟩ := hmem e he
      exact Atoi_Itoa_slot _ (hinv e' he').1 (hinv e' he').2.1
    · intro e he
      obtain ⟨e', he', rfl⟩ := hmem e he
      have h := hinv e' he'
      exact unmarshalRecord_marshalRecord e'.2 (by omega) (by omega)
    · intro e _ a ha
      cases ha

/-- Witness of C25: a map of two pins, one of them with a name outside ASCII. -/
theorem pins_round_trip_witness :
    SlotInvariant examplePins ∧
    ∃ pins, Unmarshal (MarshalIndent (some examplePins.bytes)) = .ok (some pins) ∧
      pins.Perm examplePins.bytes :=
  ⟨by unfold SlotInvariant; decide,
    (pins_round_trip .absent examplePins (by unfold SlotInvariant; decide)).2.2.2.1⟩

/-- Counterexample to C25 as worded: the map that pins in slot 1 a project whose path
holds the byte 0xFF, which is no UTF-8, has the slot invariant; the JSON text holds
U+FFFD for that byte, and the path read back holds the three bytes of U+FFFD. -/
theorem pins_round_trip_counterexample :
    Unmarshal (MarshalIndent (some [(1, ⟨1, [0x61], [0x2F, 0xFF]⟩)]))
      = .ok (some [(1, ⟨1, [0x61], [0x2F, 0xEF, 0xBF, 0xBD]⟩)]) := by
  decide

/-! ## The selection of a project by the commands -/

/-- C27: `pk pin add foo 1` pins the discovered project `Foo` in slot 1, for it
compares in lower case; `pk pin remove foo` then fails with "project 'foo' is not
pinned" and leaves the pin, for RemovePinByProject compares the argument as it is;
`pk pin remove Foo` removes the pin. -/
theorem pinRemove_exact_case :
    runPinAdd .absent [fooProject] "foo" "1"
      = (.ok (), .object ⟨[(1, ⟨1, "Foo", "/h/projects/Foo"⟩)], by decide⟩) ∧
    runPinRemove (.object ⟨[(1, ⟨1, "Foo", "/h/projects/Foo"⟩)], by decide⟩) "foo"
      = (.error (.pinStore (.notPinned "foo")),
          .object ⟨[(1, ⟨1, "Foo", "/h/projects/Foo"⟩)], by decide⟩) ∧
    runPinRemove (.object ⟨[(1, ⟨1, "Foo", "/h/projects/Foo"⟩)], by decide⟩) "Foo"
      = (.ok (), .object PinMap.empty) := by
  decide

/-! ## The path that `pk jump` uses -/

/-- C26: slot 1 holds project `a` under the archive root, where no directory is, and
FindProject finds `a` under the projects root, so that ValidatePath would heal the
path; `pk jump 1` records the access under the stored path and makes the session
in the stored path. -/
theorem jump_stored_path :
    exampleFS.Stat "/h/archive/a" = .notExist ∧
    exampleResolver.ValidatePath exampleFS "a" "/h/archive/a" = .ok ("/h/projects/a", true) ∧
    runJump exampleEnv 7 freshTerminal exampleToml stalePins .absent "1"
      = (.ok (), .object ⟨[("a", ⟨"a", "/h/archive/a", 7⟩)], by decide⟩,
          [.hasSession "a", .newSession true "a" "/h/archive/a", .switchClient "a"]) := by
  decide

/-! ## AddPin and GetPin through the file -/

theorem digitChar_digit (d : Nat) (hd : d < 10) :
    ('0' ≤ Nat.digitChar d ∧ Nat.digitChar d ≤ '9') ∧
      (Nat.digitChar d).toNat - '0'.toNat = d := by
  interval_cases d <;> decide

/-- The digits that `toDigitsCore` writes before `ds` are read back as the number. -/
theorem parseDigits_toDigitsCore (fuel : Nat) :
    ∀ (n : Nat) (ds : List Char), n < fuel →
      parseDigits (Nat.toDigitsCore 10 fuel n ds) 0 = parseDigits ds n := by
  induction fuel with
  | zero => intro n ds h; omega
  | succ fuel ih =>
    intro n ds hn
    have hd := digitChar_digit (n % 10) (Nat.mod_lt _ (by decide))
    unfold Nat.toDigitsCore
    simp only
    by_cases h0 : n / 10 = 0
    · have : 10 * 0 + n % 10 = n := by omega
      rw [if_pos h0, parseDigits, if_pos hd.1, hd.2, this]
    · have : 10 * (n / 10) + n % 10 = n := by omega
      rw [if_neg h0, ih (n / 10) _ (by omega), parseDigits, if_pos hd.1, hd.2, this]

theorem toDigitsCore_ne_nil (fuel n : Nat) (ds : List Char) (h : ds ≠ [] ∨ 0 < fuel) :
    Nat.toDigitsCore 10 fuel n ds ≠ [] := by
  induction fuel generalizing n ds with
  | zero =>
    rcases h with h | h
    · simpa [Nat.toDigitsCore] using h
    · omega
  | succ fuel ih =>
    unfold Nat.toDigitsCore
    simp only
    split
    · simp
    · exact ih _ _ (Or.inl (by simp))

/-- ParseInt reads back what FormatInt wrote, for every number of 64 bits. -/
theorem Atoi_Itoa (k : Int) (hlo : -(2 ^ 63) ≤ k) (hhi : k < 2 ^ 63) :
    Atoi (Itoa k) = some k := by
  have hparse : parseDigits (Nat.toDigits 10 k.natAbs) 0 = some k.natAbs := by
    unfold Nat.toDigits
    rw [parseDigits_toDigitsCore _ _ _ (Nat.lt_succ_self _)]
    rfl
  have hne : Nat.toDigits 10 k.natAbs ≠ [] :=
    toDigitsCore_ne_nil _ _ _ (Or.inr (Nat.succ_pos _))
  by_cases hneg : k < 0
  · have hv : -((k.natAbs : Nat) : Int) = k := by omega
    simp only [Itoa, hneg, if_true, Atoi, true_or, hne, if_false, hparse, hv]
    rw [if_pos ⟨hlo, hhi⟩]
  · have hv : ((k.natAbs : Nat) : Int) = k := by omega
    cases hd : Nat.toDigits 10 k.natAbs with
    | nil => exact absurd hd hne
    | cons c cs =>
      rw [hd] at hparse
      have hc : '0' ≤ c ∧ c ≤ '9' := by
        rw [parseDigits] at hparse
        by_contra hcon
        rw [if_neg hcon] at hparse
        cases hparse
      have hminus : c ≠ '-' := by
        rintro rfl
        exact absurd hc (by decide)
      have hplus : c ≠ '+' := by
        rintro rfl
        exact absurd hc (by decide)
      simp only [Itoa, hneg, if_false, hd, Atoi, hminus, hplus, or_self, hparse, hv,
        List.cons_ne_nil, not_false_eq_true]
      rw [if_pos ⟨hlo, hhi⟩]

theorem Atoi_range (s : String) (v : Int) (h : Atoi s = some v) :
    -(2 ^ 63) ≤ v ∧ v < 2 ^ 63 := by
  unfold Atoi at h
  cases hd : s.data with
  | nil =>
    rw [hd] at h
    cases h
  | cons c cs =>
    rw [hd] at h
    simp only at h
    split_ifs at h <;>
    · split at h
      · cases h
      · split_ifs at h with h2
        cases h
        exact h2

/-- A record that Unmarshal fills holds a slot of 64 bits and the bytes of texts. -/
theorem unmarshalRecord_text (fields : List (String × JsonValue)) :
    ∀ r₀ r : PinBytes, unmarshalRecord fields r₀ = some r →
      ((-(2 ^ 63) ≤ r₀.Slot ∧ r₀.Slot < 2 ^ 63) ∧
        (∃ a, r₀.ProjectID = goBytes a) ∧ ∃ pa, r₀.ProjectPath = goBytes pa) →
      ((-(2 ^ 63) ≤ r.Slot ∧ r.Slot < 2 ^ 63) ∧
        (∃ a, r.ProjectID = goBytes a) ∧ ∃ pa, r.ProjectPath = goBytes pa) := by
  induction fields with
  | nil =>
    intro r₀ r h h₀
    simp only [unmarshalRecord, Option.some.injEq] at h
    subst h
    exact h₀
  | cons field rest ih =>
    obtain ⟨name, value⟩ := field
    intro r₀ r h h₀
    unfold unmarshalRecord at h
    split at h
    · cases value with
      | number n =>
        simp only at h
        split at h
        · next hr => exact ih _ r h ⟨hr, h₀.2⟩
        · cases h
      | string text => cases h
    · split at h
      · cases value with
        | number n => cases h
        | string text => exact ih _ r h ⟨h₀.1, ⟨text, rfl⟩, h₀.2.2⟩
      · split at h
        · cases value with
          | number n => cases h
          | string text => exact ih _ r h ⟨h₀.1, h₀.2.1, ⟨text, rfl⟩⟩
        · exact ih _ r h h₀

/-- The record of a slot of 64 bits and of texts is read back from the JSON object
written for it. -/
theorem unmarshalRecord_marshalRecord_text (r : PinBytes)
    (h : (-(2 ^ 63) ≤ r.Slot ∧ r.Slot < 2 ^ 63) ∧
      (∃ a, r.ProjectID = goBytes a) ∧ ∃ pa, r.ProjectPath = goBytes pa) :
    unmarshalRecord (marshalRecord r) { Slot := 0, ProjectID := [], ProjectPath := [] }
      = some r := by
  obtain ⟨⟨hlo, hhi⟩, ⟨a, ha⟩, ⟨pa, hpa⟩⟩ := h
  have hr : r = PinRecord.bytes { Slot := r.Slot, ProjectID := a, ProjectPath := pa } := by
    cases r with
    | mk slot id path =>
      simp only at ha hpa
      subst ha hpa
      rfl
  rw [hr]
  exact unmarshalRecord_marshalRecord _ hlo hhi

/-- What the entries of a map that Unmarshal fills are like: every key once and of 64
bits, every record with a slot of 64 bits and the bytes of texts. -/
theorem unmarshalMembers_text (members : List (String × List (String × JsonValue))) :
    ∀ acc pins : List (Int × PinBytes), unmarshalMembers members acc = some pins →
      ((acc.map Prod.fst).Nodup ∧ ∀ e ∈ acc, (-(2 ^ 63) ≤ e.1 ∧ e.1 < 2 ^ 63) ∧
        (-(2 ^ 63) ≤ e.2.Slot ∧ e.2.Slot < 2 ^ 63) ∧
        (∃ a, e.2.ProjectID = goBytes a) ∧ ∃ pa, e.2.ProjectPath = goBytes pa) →
      ((pins.map Prod.fst).Nodup ∧ ∀ e ∈ pins, (-(2 ^ 63) ≤ e.1 ∧ e.1 < 2 ^ 63) ∧
        (-(2 ^ 63) ≤ e.2.Slot ∧ e.2.Slot < 2 ^ 63) ∧
        (∃ a, e.2.ProjectID = goBytes a) ∧ ∃ pa, e.2.ProjectPath = goBytes pa) := by
  induction members with
  | nil =>
    intro acc pins h hacc
    simp only [unmarshalMembers, Option.some.injEq] at h
    subst h
    exact hacc
  | cons member rest ih =>
    obtain ⟨key, fields⟩ := member
    intro acc pins h hacc
    unfold unmarshalMembers at h
    split at h
    · next slot r hkey hrec =>
      refine ih _ pins h ⟨?_, ?_⟩
      · rw [List.map_cons, List.nodup_cons]
        constructor
        · intro hmem
          rcases List.mem_map.1 hmem with ⟨e, he, hk⟩
          have hne := (List.mem_filter.1 he).2
          simp [hk] at hne
        · exact (List.Sublist.map Prod.fst (List.filter_sublist acc)).nodup hacc.1
      · intro e he
        rcases List.mem_cons.1 he with rfl | he
        · exact ⟨Atoi_range key slot hkey,
            unmarshalRecord_text fields _ r hrec
              ⟨⟨by decide, by decide⟩, ⟨"", rfl⟩, ⟨"", rfl⟩⟩⟩
        · exact hacc.2 e (List.mem_filter.1 he).1
    · cases h

/-- In a list in which every key stands once, the search by key finds the entry. -/
theorem find?_key_of_mem (l : List (Int × PinBytes)) (hl : (l.map Prod.fst).Nodup)
    (k : Int) (v : PinBytes) (h : (k, v) ∈ l) :
    l.find? (fun e => e.1 == k) = some (k, v) := by
  induction l with
  | nil => cases h
  | cons e rest ih =>
    rw [List.map_cons, List.nodup_cons] at hl
    rcases List.mem_cons.1 h with rfl | hmem
    · simp [List.find?]
    · have hne : e.1 ≠ k := by
        intro heq
        exact hl.1 (List.mem_map.2 ⟨(k, v), hmem, heq.symm⟩)
      have hb : (e.1 == k) = false := by simpa using hne
      rw [List.find?, hb]
      exact ih hl.2 hmem

/-- What the bytes store reads back after it wrote a map of the kind that Unmarshal
fills: the entries of the map, in some order. -/
theorem Unmarshal_MarshalIndent_text (pins : List (Int × PinBytes))
    (hpins : (pins.map Prod.fst).Nodup ∧ ∀ e ∈ pins, (-(2 ^ 63) ≤ e.1 ∧ e.1 < 2 ^ 63) ∧
        (-(2 ^ 63) ≤ e.2.Slot ∧ e.2.Slot < 2 ^ 63) ∧
        (∃ a, e.2.ProjectID = goBytes a) ∧ ∃ pa, e.2.ProjectPath = goBytes pa) :
    ∃ pins', Unmarshal (MarshalIndent (some pins)) = .ok (some pins') ∧ pins'.Perm pins := by
  have hperm := List.perm_insertionSort
    (fun a b : Int × PinBytes => textLess (Itoa b.1).data (Itoa a.1).data = false) pins
  refine ⟨_, ?_, (List.reverse_perm _).trans hperm⟩
  simp only [MarshalIndent, Unmarshal]
  rw [unmarshalMembers_marshal _ []]
  · simp
  · exact (hperm.map Prod.fst).nodup_iff.2 hpins.1
  · intro e he
    have h := hpins.2 e (hperm.mem_iff.1 he)
    exact Atoi_Itoa e.1 h.1.1 h.1.2
  · intro e he
    exact unmarshalRecord_marshalRecord_text e.2 (hpins.2 e (hperm.mem_iff.1 he)).2
  · intro e _ a ha
    cases ha

/-- What LoadPins returns on the bytes is a map of the kind that Unmarshal fills. -/
theorem Bytes.LoadPins_text (f : PinsText) (pins : List (Int × PinBytes))
    (h : Bytes.LoadPins f = .ok (some pins)) :
    (pins.map Prod.fst).Nodup ∧ ∀ e ∈ pins, (-(2 ^ 63) ≤ e.1 ∧ e.1 < 2 ^ 63) ∧
        (-(2 ^ 63) ≤ e.2.Slot ∧ e.2.Slot < 2 ^ 63) ∧
        (∃ a, e.2.ProjectID = goBytes a) ∧ ∃ pa, e.2.ProjectPath = goBytes pa := by
  cases f with
  | absent =>
    simp only [Bytes.LoadPins, Except.ok.injEq, Option.some.injEq] at h
    subst h
    exact ⟨List.nodup_nil, fun e he => by cases he⟩
  | unreadable => cases h
  | malformed => cases h
  | document doc =>
    cases doc with
    | null => simp [Bytes.LoadPins, Unmarshal] at h
    | object members =>
      simp only [Bytes.LoadPins, Unmarshal] at h
      cases hm : unmarshalMembers members [] with
      | none => simp [hm] at h
      | some pins₀ =>
        simp only [hm, Except.ok.injEq, Option.some.injEq] at h
        subst h
        exact unmarshalMembers_text members [] pins₀ hm
          ⟨List.nodup_nil, fun e he => by cases he⟩

/-- AddPin and then GetPin on the bytes, for a slot in range and the bytes of texts. -/
theorem Bytes.addPin_getPin (writable : Bool) (f : PinsText) (slot : Int) (a pa : String)
    (hlo : 1 ≤ slot) (hhi : slot ≤ 5) :
    ((Bytes.AddPin writable f slot (goBytes a) (goBytes pa)).1 = .ok () ↔
      writable = true ∧ ∃ pins, Bytes.LoadPins f = .ok (some pins)) ∧
    ((Bytes.AddPin writable f slot (goBytes a) (goBytes pa)).1 = .ok () →
      Bytes.GetPin (Bytes.AddPin writable f slot (goBytes a) (goBytes pa)).2 slot
        = .ok { Slot := slot, ProjectID := goBytes a, ProjectPath := goBytes pa }) := by
  have hr : ¬ (slot < 1 ∨ slot > 5) := by omega
  cases hload : Bytes.LoadPins f with
  | error err => simp [Bytes.AddPin, hr, hload]
  | ok loaded =>
    cases loaded with
    | none => simp [Bytes.AddPin, hr, hload]
    | some pins =>
      cases writable with
      | false => simp [Bytes.AddPin, hr, hload, Bytes.SavePins]
      | true =>
        have hadd : Bytes.AddPin true f slot (goBytes a) (goBytes pa)
            = (.ok (), .document (MarshalIndent (some
                ((slot, { Slot := slot, ProjectID := goBytes a, ProjectPath := goBytes pa })
                  :: pins.filter (fun e => e.1 != slot))))) := by
          simp [Bytes.AddPin, hr, hload, Bytes.SavePins]
        have hpins := Bytes.LoadPins_text f pins hload
        have hnew : (((slot, (⟨slot, goBytes a, goBytes pa⟩ : PinBytes))
              :: pins.filter (fun e => e.1 != slot)).map Prod.fst).Nodup ∧
            ∀ e ∈ (slot, (⟨slot, goBytes a, goBytes pa⟩ : PinBytes))
              :: pins.filter (fun e => e.1 != slot), (-(2 ^ 63) ≤ e.1 ∧ e.1 < 2 ^ 63) ∧
              (-(2 ^ 63) ≤ e.2.Slot ∧ e.2.Slot < 2 ^ 63) ∧
              (∃ a, e.2.ProjectID = goBytes a) ∧ ∃ pa, e.2.ProjectPath = goBytes pa := by
          constructor
          · rw [List.map_cons, List.nodup_cons]
            constructor
            · intro hmem
              rcases List.mem_map.1 hmem with ⟨e, he, hk⟩
              have hne := (List.mem_filter.1 he).2
              simp [hk] at hne
            · exact (List.Sublist.map Prod.fst (List.filter_sublist pins)).nodup hpins.1
          · intro e he
            rcases List.mem_cons.1 he with rfl | he
            · exact ⟨⟨by omega, by omega⟩, ⟨by simp only; omega, by simp only; omega⟩,
                ⟨a, rfl⟩, ⟨pa, rfl⟩⟩
            · exact hpins.2 e (List.mem_filter.1 he).1
        obtain ⟨pins', hread, hperm⟩ := Unmarshal_MarshalIndent_text _ hnew
        refine ⟨⟨fun _ => ⟨rfl, pins, rfl⟩, fun _ => by rw [hadd]⟩, fun _ => ?_⟩
        rw [hadd]
        simp only [Bytes.GetPin, Bytes.LoadPins, hread]
        rw [find?_key_of_mem pins' ((hperm.map Prod.fst).nodup_iff.2 hnew.1) slot _
          (hperm.mem_iff.2 (List.mem_cons_self _ _))]

/-- C1, as amended: for a slot in [1,5] and a project id and a path that are texts,
AddPin succeeds exactly on a store that loads to a (non-nil) map, whatever that map
holds, and after it succeeded GetPin of the slot returns the record made of the slot,
the project id and the path just given, and nothing of a record stored there before;
and so it is on the bytes of the file, where AddPin writes the JSON text of the map
and GetPin reads it: there AddPin succeeds exactly when the store loads to a map and
the file can be written, and the strings that GetPin then returns are the bytes of the
two texts, whatever document the file held. -/
theorem addPin_then_getPin (f : PinsFile) (slot : Int) (a pa : String)
    (hlo : 1 ≤ slot) (hhi : slot ≤ 5) :
    ((AddPin f slot a pa).1 = .ok () ↔ ∃ m, LoadPins f = .ok (some m)) ∧
    ((AddPin f slot a pa).1 = .ok () →
      GetPin (AddPin f slot a pa).2 slot
        = .ok { Slot := slot, ProjectID := a, ProjectPath := pa }) ∧
    (∀ (writable : Bool) (g : PinsText),
      ((Bytes.AddPin writable g slot (goBytes a) (goBytes pa)).1 = .ok () ↔
        writable = true ∧ ∃ pins, Bytes.LoadPins g = .ok (some pins)) ∧
      ((Bytes.AddPin writable g slot (goBytes a) (goBytes pa)).1 = .ok () →
        Bytes.GetPin (Bytes.AddPin writable g slot (goBytes a) (goBytes pa)).2 slot
          = .ok { Slot := slot, ProjectID := goBytes a, ProjectPath := goBytes pa })) := by
  have hr : ¬ (slot < 1 ∨ slot > 5) := by omega
  refine ⟨?_, ?_, fun writable g => Bytes.addPin_getPin writable g slot a pa hlo hhi⟩
  · cases f with
    | absent => exact ⟨fun _ => ⟨PinMap.empty, rfl⟩, fun _ => by simp [AddPin, hr, LoadPins, SavePins]⟩
    | unreadable => simp [AddPin, hr, LoadPins]
    | malformed => simp [AddPin, hr, LoadPins]
    | null => simp [AddPin, hr, LoadPins]
    | object m => exact ⟨fun _ => ⟨m, rfl⟩, fun _ => by simp [AddPin, hr, LoadPins, SavePins]⟩
  · cases f with
    | absent =>
      intro _
      simp [AddPin, hr, LoadPins, SavePins, GetPin, PinMap.lookup_set_self]
    | unreadable => simp [AddPin, hr, LoadPins]
    | malformed => simp [AddPin, hr, LoadPins]
    | null => simp [AddPin, hr, LoadPins]
    | object m =>
      intro _
      simp [AddPin, hr, LoadPins, SavePins, GetPin, PinMap.lookup_set_self]

/-- Witness of C1, as amended: slot 2 holds a record of another project and is pinned
again, on the map and on the bytes of a file that holds two pins. -/
theorem addPin_then_getPin_witness :
    (1 : Int) ≤ 2 ∧ (2 : Int) ≤ 5 ∧
    (AddPin (.object ⟨[(2, ⟨2, "old", "/old"⟩), (4, ⟨4, "d", "/d"⟩)], by decide⟩)
      2 "new" "/new").1 = .ok () ∧
    GetPin (AddPin (.object ⟨[(2, ⟨2, "old", "/old"⟩), (4, ⟨4, "d", "/d"⟩)], by decide⟩)
      2 "new" "/new").2 2 = .ok ⟨2, "new", "/new"⟩ ∧
    Bytes.GetPin (Bytes.AddPin true (.document (MarshalIndent (some examplePins.bytes)))
      3 (goBytes "new") (goBytes "/new")).2 3 = .ok ⟨3, goBytes "new", goBytes "/new"⟩ :=
  ⟨by decide, by decide, by decide,
    (addPin_then_getPin _ 2 "new" "/new" (by decide) (by decide)).2.1 (by decide),
    ((addPin_then_getPin .absent 3 "new" "/new" (by decide) (by decide)).2.2 true
      (.document (MarshalIndent (some examplePins.bytes)))).2 (by decide)⟩

/-- C1 fails as stated: the path holds the byte 0xFF, which is no UTF-8; AddPin on a
store without a file, which can be written, succeeds, the JSON text it writes holds U+FFFD for that byte, and
GetPin of the slot returns a path with the three bytes of U+FFFD in its place. -/
theorem addPin_then_getPin_counterexample :
    (Bytes.AddPin true .absent 1 [0x61] [0x2F, 0xFF]).1 = .ok () ∧
    Bytes.GetPin (Bytes.AddPin true .absent 1 [0x61] [0x2F, 0xFF]).2 1
      = .ok ⟨1, [0x61], [0x2F, 0xEF, 0xBF, 0xBD]⟩ := by
  decide

/-! ## RecordAccess through the file -/

theorem goBytes_injective (a b : String) (h : goBytes a = goBytes b) : a = b := by
  rw [← jsonText_goBytes a, ← jsonText_goBytes b, h]

/-- Unmarshal of members with different keys keeps them all. -/
theorem foldl_set_entries (members : List (String × AccessRecord)) :
    ∀ acc : AccessMap, (members.map Prod.fst).Nodup →
      (∀ k ∈ members.map Prod.fst, k ∉ acc.keys) →
      (members.foldl (fun m e => m.set e.1 e.2) acc).entries
        = members.reverse ++ acc.entries := by
  induction members with
  | nil => intro acc _ _; simp
  | cons e rest ih =>
    intro acc hnd hnew
    rw [List.map_cons, List.nodup_cons] at hnd
    have he : e.1 ∉ acc.keys := hnew e.1 (by simp)
    have hset := acc.set_entries_of_not_mem e.1 e.2 he
    rw [List.foldl_cons, ih (acc.set e.1 e.2) hnd.2]
    · rw [hset]
      simp
    · intro k hk hmem
      have hmem' : k ∈ (acc.set e.1 e.2).entries.map Prod.fst := hmem
      rw [hset, List.map_cons, List.mem_cons] at hmem'
      rcases hmem' with rfl | hmem'
      · exact hnd.1 hk
      · exact hnew k (by simp only [List.map_cons, List.mem_cons]; exact Or.inr hk) hmem'

/-- The JSON object written for a map of texts is read back to its entries. -/
theorem unmarshalAccess_marshalAccess (M : List (String × AccessRecord))
    (hnd : (M.map Prod.fst).Nodup) :
    (unmarshalAccess (marshalAccess (M.map (fun e => (goBytes e.1, e.2.bytes))))).entries.Perm
      M := by
  have hperm : (marshalAccess (M.map (fun e => (goBytes e.1, e.2.bytes)))).Perm M := by
    unfold marshalAccess
    have h1 := (List.perm_insertionSort (fun a b : List UInt8 × AccessBytes =>
      bytesLess b.1 a.1 = false) (M.map (fun e => (goBytes e.1, e.2.bytes)))).map
      (fun e : List UInt8 × AccessBytes => (jsonText e.1,
        (⟨jsonText e.2.ProjectID, jsonText e.2.ProjectPath, e.2.LastAccessed⟩ : AccessRecord)))
    refine h1.trans ?_
    rw [List.map_map]
    have hid : M.map ((fun e : List UInt8 × AccessBytes => (jsonText e.1,
        (⟨jsonText e.2.ProjectID, jsonText e.2.ProjectPath, e.2.LastAccessed⟩ : AccessRecord))) ∘
        (fun e : String × AccessRecord => (goBytes e.1, e.2.bytes))) = M := by
      conv_rhs => rw [← List.map_id M]
      apply List.map_congr_left
      intro e _
      simp [AccessRecord.bytes, jsonText_goBytes]
    rw [hid]
  have hnd' : ((marshalAccess (M.map (fun e => (goBytes e.1, e.2.bytes)))).map Prod.fst).Nodup :=
    (hperm.map Prod.fst).nodup_iff.2 hnd
  unfold unmarshalAccess
  rw [foldl_set_entries _ AccessMap.empty hnd' (fun k _ hk => by cases hk)]
  simp only [AccessMap.empty, List.append_nil]
  exact (List.reverse_perm _).trans hperm

/-- Assignment to a key, as the entry of the key before the other entries. -/
theorem AccessMap.set_perm (m : AccessMap) (id : String) (rec : AccessRecord) :
    (m.set id rec).entries.Perm ((id, rec) :: m.entries.filter (fun e => e.1 != id)) := by
  have hid : ∀ l : List (String × AccessRecord), (∀ e ∈ l, e.1 ≠ id) →
      l.filter (fun e => e.1 != id) = l := by
    intro l hl
    apply List.filter_eq_self.2
    intro e he
    simpa using hl e he
  by_cases hmem : id ∈ m.keys
  · obtain ⟨old, pre, rest, hsplit⟩ := m.mem_keys_split id hmem
    have hnd := m.nodupKeys
    rw [hsplit, List.map_append, List.map_cons] at hnd
    have hpre : ∀ e ∈ pre, e.1 ≠ id := by
      intro e he heq
      have hdis := (List.nodup_append.1 hnd).2.2
      exact hdis (List.mem_map.2 ⟨e, he, heq⟩) (List.mem_cons_self _ _)
    have hrest : ∀ e ∈ rest, e.1 ≠ id := by
      intro e he heq
      have hnd2 := (List.nodup_cons.1 (List.nodup_append.1 hnd).2.1).1
      exact hnd2 (List.mem_map.2 ⟨e, he, heq⟩)
    rw [m.set_entries_of_split id old rec pre rest hsplit, hsplit, List.filter_append,
      List.filter_cons, hid pre hpre, hid rest hrest]
    simp only [bne_self_eq_false, Bool.false_eq_true, if_false]
    exact List.perm_middle
  · rw [m.set_entries_of_not_mem id rec hmem, hid m.entries]
    intro e he heq
    exact hmem (List.mem_map.2 ⟨e, he, heq⟩)

/-- RecordAccess on the bytes of texts, on a store that loads to a map and can be
written: the file then holds the entries that it holds on the texts. -/
theorem recordAccess_bytes_of_load (env : Env) (home : String) (hhome : env.home = some home)
    (hwrite : env.writable = true) (now : Int) (f f' : AccessFile) (m : AccessMap)
    (hload : LoadAccessRecords env f = (.ok (some m), f')) (p q : String) :
    ∃ b, Bytes.RecordAccess env now f (goBytes p) (goBytes q) = (.ok (), .object b) ∧
      b.entries.Perm
        (m.set p { ProjectID := p, ProjectPath := q, LastAccessed := now }).entries := by
  have hlist : ((goBytes p, (⟨goBytes p, goBytes q, now⟩ : AccessBytes))
        :: (m.entries.map (fun e => (goBytes e.1, e.2.bytes))).filter
            (fun e => e.1 != goBytes p))
      = (((p, (⟨p, q, now⟩ : AccessRecord))
          :: m.entries.filter (fun e => e.1 != p)).map
        (fun e => (goBytes e.1, e.2.bytes))) := by
    rw [List.map_cons, List.filter_map]
    congr 2
    apply List.filter_congr
    intro e _
    simp only [Function.comp, bne, Bool.not_eq_not]
    by_cases he : e.1 = p
    · simp [he]
    · have : goBytes e.1 ≠ goBytes p := fun h => he (goBytes_injective _ _ h)
      simp [he, this]
  have hperm := m.set_perm p { ProjectID := p, ProjectPath := q, LastAccessed := now }
  have hnd : ((((p, (⟨p, q, now⟩ : AccessRecord))
          :: m.entries.filter (fun e => e.1 != p))).map Prod.fst).Nodup :=
    (hperm.map Prod.fst).nodup_iff.1 (m.set p _).nodupKeys
  refine ⟨_, ?_, (unmarshalAccess_marshalAccess _ hnd).trans hperm.symm⟩
  simp only [Bytes.RecordAccess, hload, Bytes.SaveAccessRecords, hhome, hwrite, if_true, hlist]

/-- RecordAccess twice on the bytes of texts, on a store that has no file or holds a
map and can be written. -/
theorem recordAccess_bytes_twice (env : Env) (home : String) (hhome : env.home = some home)
    (hwrite : env.writable = true)
    (f : AccessFile) (hf : f = .absent ∨ ∃ m, f = .object m)
    (p q₁ q₂ : String) (t₁ t₂ : Int) (m₁ : AccessMap)
    (h₁ : RecordAccess env t₁ f p q₁ = (.ok (), .object m₁)) :
    ∃ b₁ b₂ : AccessMap,
      Bytes.RecordAccess env t₁ f (goBytes p) (goBytes q₁) = (.ok (), .object b₁) ∧
      b₁.entries.Perm m₁.entries ∧
      Bytes.RecordAccess env t₂ (.object b₁) (goBytes p) (goBytes q₂) = (.ok (), .object b₂) ∧
      b₂.lookup p = some ⟨p, q₂, t₂⟩ ∧
      b₂.keys.count p = 1 ∧
      b₂.entries.length = b₁.entries.length := by
  have hload : ∃ m f', LoadAccessRecords env f = (.ok (some m), f') := by
    rcases hf with rfl | ⟨m, rfl⟩
    · exact ⟨AccessMap.empty, .absent, by simp [LoadAccessRecords, hhome]⟩
    · exact ⟨_, _, LoadAccessRecords_object env home hhome m⟩
  obtain ⟨m, f', hload⟩ := hload
  have hm₁ : m₁ = m.set p ⟨p, q₁, t₁⟩ := by
    simp only [RecordAccess, hload, SaveAccessRecords, hhome, hwrite, if_true, Prod.mk.injEq,
      AccessFile.object.injEq, true_and] at h₁
    exact h₁.symm
  obtain ⟨b₁, hb₁, hperm₁⟩ :=
    recordAccess_bytes_of_load env home hhome hwrite t₁ f f' m hload p q₁
  obtain ⟨b₂, hb₂, hperm₂⟩ :=
    recordAccess_bytes_of_load env home hhome hwrite t₂ (.object b₁) _ _
      (LoadAccessRecords_object env home hhome b₁) p q₂
  have hspec := (healMap (resolverOf home env.configFile) env.fs b₁).set_spec p ⟨p, q₂, t₂⟩
  have hp₁ : p ∈ b₁.keys := by
    have hmem := (AccessMap.access_lookup_iff_mem _ _ _).1 (m.set_spec p ⟨p, q₁, t₁⟩).1
    exact List.mem_map.2 ⟨_, hperm₁.mem_iff.2 hmem, rfl⟩
  have hp₂ : p ∈ (healMap (resolverOf home env.configFile) env.fs b₁).keys := by
    rw [healMap_keys]
    exact hp₁
  refine ⟨b₁, b₂, hb₁, by rw [hm₁]; exact hperm₁, hb₂, ?_, ?_, ?_⟩
  · exact (AccessMap.access_lookup_iff_mem _ _ _).2
      (hperm₂.mem_iff.2 ((AccessMap.access_lookup_iff_mem _ _ _).1 hspec.1))
  · have hcount := (hperm₂.map Prod.fst).count_eq p
    unfold AccessMap.keys at hspec ⊢
    rw [hcount]
    exact hspec.2.1
  · rw [hperm₂.length_eq, hspec.2.2, healMap_length]
    simp [hp₂]

/-- C17, as amended: with the home directory known, an access file that can be written
and a store that has no file yet or holds a map, RecordAccess of `p` with path `q₁` at
time `t₁` and then with path `q₂` at time `t₂` both succeed, for all texts `p`, `q₁`,
`q₂`; the store then holds the key `p` once, with the record of project
id `p`, path `q₂` and time `t₂`, which is not earlier than `t₁` when the clock did not
go back; the first call adds one record exactly when the loaded map had no key `p`,
and the second call adds none.  And so it is where the strings are the bytes of these
texts and the file is written as JSON text and read from it: the first call leaves the
entries that it leaves on the texts, and the second call leaves the key `p` once, with
that record, and adds no record. -/
theorem recordAccess_upsert (env : Env) (home : String) (hhome : env.home = some home)
    (hwrite : env.writable = true)
    (f : AccessFile) (hf : f = .absent ∨ ∃ m, f = .object m)
    (p q₁ q₂ : String) (t₁ t₂ : Int) (ht : t₁ ≤ t₂) :
    ∃ m₀ m₁ m₂,
      (LoadAccessRecords env f).1 = .ok (some m₀) ∧
      (f = .absent → m₀.keys = []) ∧
      (∀ m, f = .object m → m₀.keys = m.keys) ∧
      RecordAccess env t₁ f p q₁ = (.ok (), .object m₁) ∧
      m₁.lookup p = some { ProjectID := p, ProjectPath := q₁, LastAccessed := t₁ } ∧
      RecordAccess env t₂ (.object m₁) p q₂ = (.ok (), .object m₂) ∧
      m₂.lookup p = some { ProjectID := p, ProjectPath := q₂, LastAccessed := t₂ } ∧
      m₂.keys.count p = 1 ∧
      (∀ rec, m₂.lookup p = some rec → rec.LastAccessed = t₂ ∧ t₁ ≤ rec.LastAccessed) ∧
      m₁.entries.length = m₀.entries.length + (if p ∈ m₀.keys then 0 else 1) ∧
      m₂.entries.length = m₁.entries.length ∧
      ∃ b₁ b₂ : AccessMap,
        Bytes.RecordAccess env t₁ f (goBytes p) (goBytes q₁) = (.ok (), .object b₁) ∧
        b₁.entries.Perm m₁.entries ∧
        Bytes.RecordAccess env t₂ (.object b₁) (goBytes p) (goBytes q₂)
          = (.ok (), .object b₂) ∧
        b₂.lookup p = some { ProjectID := p, ProjectPath := q₂, LastAccessed := t₂ } ∧
        b₂.keys.count p = 1 ∧
        b₂.entries.length = b₁.entries.length := by
  obtain ⟨m₀, m₁, m₂, h1, h2, h3, h4, h5, h6, h7, h8, h9, h10, h11⟩ :=
    recordAccess_twice env home hhome hwrite f hf p q₁ q₂ t₁ t₂ ht
  exact ⟨m₀, m₁, m₂, h1, h2, h3, h4, h5, h6, h7, h8, h9, h10, h11,
    recordAccess_bytes_twice env home hhome hwrite f hf p q₁ q₂ t₁ t₂ m₁ h4⟩

/-- Witness of C17, as amended: project `a` is recorded at time 30 and again at time 40
in a store that holds it already, on the texts and on the bytes. -/
theorem recordAccess_upsert_witness :
    (RecordAccess exampleEnv 40
        (RecordAccess exampleEnv 30 (.object exampleAccess) "a" "/h/projects/a").2
        "a" "/h/archive/a").2
      = .object ⟨[("a", ⟨"a", "/h/archive/a", 40⟩), ("gone", ⟨"gone", "/h/projects/gone", 20⟩)],
          by decide⟩ ∧
    (Bytes.RecordAccess exampleEnv 40
        (Bytes.RecordAccess exampleEnv 30 (.object exampleAccess)
          (goBytes "a") (goBytes "/h/projects/a")).2
        (goBytes "a") (goBytes "/h/archive/a")).2
      = .object ⟨[("gone", ⟨"gone", "/h/projects/gone", 20⟩), ("a", ⟨"a", "/h/archive/a", 40⟩)],
          by decide⟩ ∧
    ∃ m₀ m₁ m₂,
      (LoadAccessRecords exampleEnv (.object exampleAccess)).1 = .ok (some m₀) ∧
      (AccessFile.object exampleAccess = .absent → m₀.keys = []) ∧
      (∀ m, AccessFile.object exampleAccess = .object m → m₀.keys = m.keys) ∧
      RecordAccess exampleEnv 30 (.object exampleAccess) "a" "/h/projects/a"
        = (.ok (), .object m₁) ∧
      m₁.lookup "a" = some { ProjectID := "a", ProjectPath := "/h/projects/a", LastAccessed := 30 } ∧
      RecordAccess exampleEnv 40 (.object m₁) "a" "/h/archive/a" = (.ok (), .object m₂) ∧
      m₂.lookup "a" = some { ProjectID := "a", ProjectPath := "/h/archive/a", LastAccessed := 40 } ∧
      m₂.keys.count "a" = 1 ∧
      (∀ rec, m₂.lookup "a" = some rec → rec.LastAccessed = 40 ∧ 30 ≤ rec.LastAccessed) ∧
      m₁.entries.length = m₀.entries.length + (if "a" ∈ m₀.keys then 0 else 1) ∧
      m₂.entries.length = m₁.entries.length ∧
      ∃ b₁ b₂ : AccessMap,
        Bytes.RecordAccess exampleEnv 30 (.object exampleAccess) (goBytes "a")
            (goBytes "/h/projects/a") = (.ok (), .object b₁) ∧
        b₁.entries.Perm m₁.entries ∧
        Bytes.RecordAccess exampleEnv 40 (.object b₁) (goBytes "a") (goBytes "/h/archive/a")
          = (.ok (), .object b₂) ∧
        b₂.lookup "a"
          = some { ProjectID := "a", ProjectPath := "/h/archive/a", LastAccessed := 40 } ∧
        b₂.keys.count "a" = 1 ∧
        b₂.entries.length = b₁.entries.length :=
  ⟨by decide, by decide,
    recordAccess_upsert exampleEnv "/h" rfl rfl (.object exampleAccess) (Or.inr ⟨_, rfl⟩)
      "a" "/h/projects/a" "/h/archive/a" 30 40 (by decide)⟩

/-- C17 fails as stated: on a store whose file holds JSON `null` RecordAccess stops with
the panic of an assignment to the nil map and the store holds no record of `a`; where
the access file cannot be written RecordAccess returns the error of the write and the
store stays without a file; and for the project id that is the one byte 0xFF, which is
no UTF-8, the two calls succeed and leave one record, under the key U+FFFD and with
that project id, which are other strings than the project id given. -/
theorem recordAccess_upsert_counterexample :
    RecordAccess exampleEnv 30 .null "a" "/h/projects/a" = (.error .nilMapAssignment, .null) ∧
    RecordAccess readOnlyEnv 30 .absent "a" "/h/projects/a" = (.error .writeFailed, .absent) ∧
    Bytes.RecordAccess exampleEnv 30 .absent [0xFF] [0x2F, 0x61]
      = (.ok (), .object ⟨[("\uFFFD", ⟨"\uFFFD", "/a", 30⟩)], by decide⟩) ∧
    Bytes.RecordAccess exampleEnv 40 (.object ⟨[("\uFFFD", ⟨"\uFFFD", "/a", 30⟩)], by decide⟩)
        [0xFF] [0x2F, 0x62]
      = (.ok (), .object ⟨[("\uFFFD", ⟨"\uFFFD", "/b", 40⟩)], by decide⟩) ∧
    goBytes "\uFFFD" = [0xEF, 0xBF, 0xBD] := by
  decide

end Pk
